import Mathlib

/-!
# Onboard word prediction: vocabulary store, prefix search and ranking

A shallow embedding of `Onboard/pypredict/lm/lm.cpp` (with `Dictionary::search_index`
and the `LanguageModel` helpers from `prediction/pypredict/lm.h`).

Conventions of the embedding:

* a C wide string (`const wchar_t*`) is the list of its characters before the
  terminating `L'\0'`; characters are natural numbers (code points);
* `std::vector` is `List`; `v[i]` is `List.getD` (the default is never read where the
  C++ code stays inside the vector);
* a `WordId` (`typedef uint16_t WordId`) is a natural number below `65536`, and the
  cast `(WordId)x` is `x % 65536`;
* `int` loop counters are natural numbers (all of them stay below `2^31` for vectors
  of fewer than `2^30` entries);
* `while`/`for` loops whose trip count is not a list length are recursions on an
  explicit bound that is never exhausted before the loop condition fails.
-/

namespace Onboard

/-! ## Wide strings -/

/-- A wide string: the characters before the terminating NUL. -/
abbrev WString := List Nat

/-- The libc `wcscmp`: negative, zero or positive as the first string is less than,
equal to or greater than the second in code-point lexicographic order. -/
def wcscmp : WString → WString → Int
  | [], [] => 0
  | [], _ :: _ => -1
  | _ :: _, [] => 1
  | a :: s, b :: t => if a = b then wcscmp s t else if a < b then -1 else 1

/-- The libc `wcsncmp`: as `wcscmp`, looking at no more than `n` characters. -/
def wcsncmp : WString → WString → Nat → Int
  | _, _, 0 => 0
  | [], [], _ + 1 => 0
  | [], _ :: _, _ + 1 => -1
  | _ :: _, [], _ + 1 => 1
  | a :: s, b :: t, n + 1 => if a = b then wcsncmp s t n else if a < b then -1 else 1

/-- The libc `wcslen`. -/
def wcslen (s : WString) : Nat := s.length

/-! ## Word ids and options -/

/-- The cast `(WordId)x` of a non-negative integer to `uint16_t`. -/
def toWordId (x : Nat) : Nat := x % 65536

/-- The sentinel `#define WIDNONE ((WordId)-1)`. -/
def WIDNONE : Nat := 65535

/-- The enum constant `LanguageModel::UNKNOWN_WORD_ID`. -/
def UNKNOWN_WORD_ID : Nat := 0

/-- The enum constant `LanguageModel::NUM_CONTROL_WORDS`
(after `UNKNOWN_WORD_ID`, `BEGIN_OF_SENTENCE_ID`, `END_OF_SENTENCE_ID`, `NUMBER_ID`). -/
def NUM_CONTROL_WORDS : Nat := 4

/-- The bit masks of `LanguageModel::PredictOptions` that `lm.cpp` tests. Their values
are declared in a header that is not part of the sources, so they are parameters. -/
structure PredictOptions where
  CASE_INSENSITIVE : Nat
  ACCENT_INSENSITIVE : Nat
  IGNORE_CAPITALIZED : Nat
  IGNORE_NON_CAPITALIZED : Nat
  INCLUDE_CONTROL_WORDS : Nat
  NO_SORT : Nat
  NORMALIZE : Nat
  FILTER_OPTIONS : Nat

/-- What `lm.cpp` takes from outside: the option masks, the libc character functions
`towlower` and `iswupper` (locale dependent), and the sorted table `_accent_transform`
of (accented, base) code-point pairs from `accent_transform.h`. -/
structure Env where
  flags : PredictOptions
  towlower : Nat → Nat
  iswupper : Nat → Bool
  accent_transform : List (Nat × Nat)

/-- The C test `options & FLAG`. -/
def isSet (options flag : Nat) : Bool := options &&& flag != 0

/-! ## stable_argsort_desc -/

section Argsort

variable {α : Type} [LT α] [DecidableRel (fun a b : α => a < b)] [Inhabited α]

/-- The innermost loop of `stable_argsort_desc`,
`for (j = i-gap; j >= 0; j -= gap) { if (!(cmp[v[j]] < cmp[v[j+gap]])) break; swap }`,
entered with `j >= 0`. The first argument bounds the number of iterations. -/
def argsort_inner (cmp : List α) (gap : Nat) : Nat → Nat → List Nat → List Nat
  | 0, _, v => v
  | fuel + 1, j, v =>
    if cmp.getD (v.getD j 0) default < cmp.getD (v.getD (j + gap) 0) default then
      let t := v.getD (j + gap) 0
      let v1 := v.set (j + gap) (v.getD j 0)
      let v2 := v1.set j t
      if gap ≤ j then argsort_inner cmp gap fuel (j - gap) v2 else v2
    else v

/-- One pass `for (i = gap; i < n; i++) ...` of `stable_argsort_desc`. -/
def argsort_pass (cmp : List α) (n gap : Nat) (v : List Nat) : List Nat :=
  (List.range' gap (n - gap)).foldl (fun v i => argsort_inner cmp gap (i + 1) (i - gap) v) v

/-- The outer loop `for (gap = n/2; gap > 0; gap >>= 1)` of `stable_argsort_desc`.
The first argument bounds the number of passes. -/
def argsort_gaps (cmp : List α) (n : Nat) : Nat → Nat → List Nat → List Nat
  | 0, _, v => v
  | fuel + 1, gap, v =>
    if 0 < gap then argsort_gaps cmp n fuel (gap >>> 1) (argsort_pass cmp n gap v) else v

/-- The function `stable_argsort_desc(v, cmp)`: sorts the index vector `v` by the
values `cmp[v[i]]`, descending; returns the new contents of `v`. -/
def stable_argsort_desc (v : List Nat) (cmp : List α) : List Nat :=
  argsort_gaps cmp v.length v.length (v.length / 2) v

end Argsort

/-! ## PrefixCmp -/

/-- The loop of `PrefixCmp::lookup_transform`. -/
def lookup_loop (table : List (Nat × Nat)) (c : Nat) : Nat → Nat → Nat → Nat
  | 0, lo, _ => lo
  | fuel + 1, lo, hi =>
    if lo < hi then
      let mid := (lo + hi) >>> 1
      if (table.getD mid (0, 0)).1 < c then lookup_loop table c fuel (mid + 1) hi
      else lookup_loop table c fuel lo mid
    else lo

/-- The function `PrefixCmp::lookup_transform(c, table, len)`. -/
def lookup_transform (c : Nat) (table : List (Nat × Nat)) (len : Nat) : Nat :=
  lookup_loop table c len 0 len

/-- The function `PrefixCmp::op_remove_accent`. -/
def op_remove_accent (E : Env) (c : Nat) : Nat :=
  if c ≤ 0x7f then c
  else
    let i := lookup_transform c E.accent_transform E.accent_transform.length
    if i < E.accent_transform.length ∧ (E.accent_transform.getD i (0, 0)).1 = c then
      (E.accent_transform.getD i (0, 0)).2
    else c

/-- The function `PrefixCmp::op_lower`. -/
def op_lower (E : Env) (c : Nat) : Nat := E.towlower c

/-- The class `PrefixCmp`: the (folded) prefix and the options. -/
structure PrefixCmp where
  pfx : WString
  options : Nat

/-- The constructor `PrefixCmp::PrefixCmp(_prefix, _options)`; a NULL `_prefix` is `none`. -/
def PrefixCmp.new (E : Env) (pfx : Option WString) (options : Nat) : PrefixCmp :=
  let p0 : WString := match pfx with
    | some p => p
    | none => []
  let p1 := if isSet options E.flags.CASE_INSENSITIVE then p0.map (op_lower E) else p0
  let p2 := if isSet options E.flags.ACCENT_INSENSITIVE then p1.map (op_remove_accent E) else p1
  { pfx := p2, options := options }

/-- The folding that `PrefixCmp::matches` applies to each character of the word. -/
def PrefixCmp.fold (E : Env) (options : Nat) (c : Nat) : Nat :=
  let c1 := if isSet options E.flags.CASE_INSENSITIVE then E.towlower c else c
  if isSet options E.flags.ACCENT_INSENSITIVE then op_remove_accent E c1 else c1

/-- The `do { ... } while (--n > 0)` loop of `PrefixCmp::matches`, entered with `n > 0`
(the argument is `n - 1`), followed by `return c1 == c2`. `*s++` reads NUL at the end of
the string. -/
def PrefixCmp.matches_loop (E : Env) (options : Nat) : Nat → WString → WString → Bool
  | n, s, p =>
    let c1 := PrefixCmp.fold E options (s.headD 0)
    let c2 := p.headD 0
    if c1 = 0 ∨ c1 ≠ c2 then false
    else
      match n with
      | 0 => c1 == c2
      | m + 1 => PrefixCmp.matches_loop E options m s.tail p.tail

/-- The method `PrefixCmp::matches(s)`. -/
def PrefixCmp.matches (E : Env) (self : PrefixCmp) (s : WString) : Bool :=
  let n := self.pfx.length
  let c := s.headD 0
  if c ≠ 0 ∧ isSet self.options E.flags.IGNORE_CAPITALIZED ∧ E.iswupper c then false
  else if c ≠ 0 ∧ isSet self.options E.flags.IGNORE_NON_CAPITALIZED ∧ ¬ E.iswupper c then false
  else if n = 0 then true
  else PrefixCmp.matches_loop E self.options (n - 1) s self.pfx

/-! ## Dictionary -/

/-- The class `Dictionary`: `words` is indexed by word id, `sorted` holds the word ids
in the order of their words. -/
structure Dictionary where
  words : List WString
  sorted : List Nat

namespace Dictionary

/-- The state after `Dictionary::Dictionary()` or `Dictionary::clear()`: no words. -/
def clear (_d : Dictionary) : Dictionary := { words := [], sorted := [] }

/-- A freshly constructed dictionary. -/
def empty : Dictionary := { words := [], sorted := [] }

/-- The loop of `Dictionary::search_index`:
`while (lo < hi) { mid = (lo+hi)>>1; if (wcscmp(words[sorted[mid]], word) < 0) lo = mid+1; else hi = mid; }`.
The first argument bounds the number of iterations. -/
def search_loop (d : Dictionary) (word : WString) : Nat → Nat → Nat → Nat
  | 0, lo, _ => lo
  | fuel + 1, lo, hi =>
    if lo < hi then
      let mid := (lo + hi) >>> 1
      if wcscmp (d.words.getD (d.sorted.getD mid 0) []) word < 0 then
        search_loop d word fuel (mid + 1) hi
      else search_loop d word fuel lo mid
    else lo

/-- The method `Dictionary::search_index(word)`: binary search for the insertion point.
The interval `hi - lo` shrinks in every iteration, so `sorted.size()` iterations are
enough. -/
def search_index (d : Dictionary) (word : WString) : Nat :=
  search_loop d word d.sorted.length 0 d.sorted.length

/-- The method `Dictionary::word_to_id(word)`. -/
def word_to_id (d : Dictionary) (word : WString) : Nat :=
  let index := d.search_index word
  if index < d.sorted.length then
    let wid := d.sorted.getD index 0
    if wcscmp (d.words.getD wid []) word = 0 then wid else WIDNONE
  else WIDNONE

/-- The method `Dictionary::words_to_ids`. -/
def words_to_ids (d : Dictionary) (word : List WString) : List Nat :=
  word.map d.word_to_id

/-- The method `Dictionary::id_to_word(wid)`; `none` is the NULL pointer. -/
def id_to_word (d : Dictionary) (wid : Nat) : Option WString :=
  if wid < d.words.length then some (d.words.getD wid []) else none

/-- The method `Dictionary::add_word(word)`. `mem` tells whether `MemAlloc` returned a
buffer (`return -1` yields `(WordId)-1`); the result is the new state of the
dictionary and the returned id. -/
def add_word (d : Dictionary) (word : WString) (mem : Bool) : Dictionary × Nat :=
  if !mem then (d, WIDNONE)
  else
    let w := word
    let wid := toWordId d.words.length
    let words := d.words ++ [w]
    let index := search_index { words := words, sorted := d.sorted } w
    ({ words := words, sorted := d.sorted.take index ++ wid :: d.sorted.drop index }, wid)

/-- The method `Dictionary::get_num_word_types()`. -/
def get_num_word_types (d : Dictionary) : Nat := d.words.length

/-- The loop of the binary-search branch of `Dictionary::prefix_search`, running over
`sorted[index..size)`: stop at the first word that does not start with the prefix,
keep the ids that are not below `min_wid`. -/
def collect_loop (d : Dictionary) (pfx : WString) (prefix_len : Nat) (min_wid : Nat) :
    List Nat → List Nat → List Nat
  | [], wids_out => wids_out
  | wid :: rest, wids_out =>
    if wcsncmp (d.words.getD wid []) pfx prefix_len ≠ 0 then wids_out
    else if min_wid ≤ wid then collect_loop d pfx prefix_len min_wid rest (wids_out ++ [wid])
    else collect_loop d pfx prefix_len min_wid rest wids_out

/-- The method `Dictionary::prefix_search(prefix, wids_in, wids_out, options)`; a NULL
`prefix` or `wids_in` is `none`; the result is the new contents of `wids_out`. -/
def prefix_search (E : Env) (d : Dictionary) (pfx : Option WString)
    (wids_in : Option (List Nat)) (wids_out : List Nat) (options : Nat) : List Nat :=
  let prefix_len := match pfx with
    | some p => wcslen p
    | none => 0
  let min_wid := if isSet options E.flags.INCLUDE_CONTROL_WORDS then 0 else NUM_CONTROL_WORDS
  match wids_in with
  | some wids =>
    let cmp := PrefixCmp.new E pfx options
    wids.foldl (fun out wid =>
      if min_wid ≤ wid ∧ cmp.matches E (d.words.getD wid []) then out ++ [wid] else out) wids_out
  | none =>
    if prefix_len = 0 ∨ isSet options E.flags.FILTER_OPTIONS then
      let cmp := PrefixCmp.new E pfx options
      let size := d.words.length
      (List.range' min_wid (size - min_wid)).foldl (fun out i =>
        if cmp.matches E (d.words.getD i []) then out ++ [toWordId i] else out) wids_out
    else
      let p := pfx.getD []
      let index := d.search_index p
      collect_loop d p prefix_len min_wid (d.sorted.drop index) wids_out

/-- The counting loop of `Dictionary::lookup_word`, running over `sorted[index..size)`. -/
def count_loop (d : Dictionary) (word : WString) (len : Nat) : List Nat → Nat → Nat
  | [], count => count
  | wid :: rest, count =>
    if wcsncmp (d.words.getD wid []) word len ≠ 0 then count
    else count_loop d word len rest (count + 1)

/-- The method `Dictionary::lookup_word(word)`: `1` for an exact match, else minus the
number of partial matches. -/
def lookup_word (d : Dictionary) (word : WString) : Int :=
  let len := wcslen word
  let index := d.search_index word
  if index < d.sorted.length ∧ wcscmp (d.words.getD (d.sorted.getD index 0) []) word = 0 then 1
  else -((count_loop d word len (d.sorted.drop index) 0 : Nat) : Int)

end Dictionary

/-! ## LanguageModel -/

/-- The struct `LanguageModel::Result`. -/
structure Result (P : Type) where
  word : WString
  p : P

/-- The class `LanguageModel` as far as `predict` uses it: the dictionary and the two
virtual methods of the back-end. `get_candidates history prefix options` is the contents
of `wids` after the call, `get_probs history wids` that of `probabilities`. -/
structure LanguageModel (P : Type) where
  dictionary : Dictionary
  get_candidates : List Nat → WString → Nat → List Nat
  get_probs : List Nat → List Nat → List P

namespace LanguageModel

variable {P : Type}

/-- The method `LanguageModel::word_to_id(word)` (never fails). -/
def word_to_id (m : LanguageModel P) (word : WString) : Nat :=
  let wid := m.dictionary.word_to_id word
  if wid = WIDNONE then UNKNOWN_WORD_ID else wid

/-- The method `LanguageModel::words_to_ids(words)`. -/
def words_to_ids (m : LanguageModel P) (words : List WString) : List Nat :=
  words.map m.word_to_id

/-- The method `LanguageModel::id_to_word(wid)` (never fails): `L""` for an unknown id. -/
def id_to_word (m : LanguageModel P) (wid : Nat) : WString :=
  match m.dictionary.id_to_word wid with
  | none => []
  | some w => w

/-- The method `LanguageModel::split_context(context, history)` for a non-empty context:
the history and the returned prefix `context[n-1]`. -/
def split_context (context : List WString) : List WString × WString :=
  (context.take (context.length - 1), context.getD (context.length - 1) [])

variable [LT P] [DecidableRel (fun a b : P => a < b)] [Inhabited P]

/-- The method `LanguageModel::predict(results, context, limit, options)`; the result is
the new contents of `results`. -/
def predict (E : Env) (m : LanguageModel P) (results : List (Result P))
    (context : List WString) (limit : Int) (options : Nat) : List (Result P) :=
  if context.length = 0 then results
  else
    let (h, pfx) := split_context context
    let history := m.words_to_ids h
    let wids := m.get_candidates history pfx options
    let probabilities := m.get_probs history wids
    let result_size : Nat :=
      if 0 ≤ limit ∧ limit < (wids.length : Int) then limit.toNat else wids.length
    if ¬ isSet options E.flags.NO_SORT then
      let argsort := stable_argsort_desc (List.range wids.length) probabilities
      (List.range result_size).map (fun i =>
        let index := argsort.getD i 0
        { word := m.id_to_word (wids.getD index 0), p := probabilities.getD index default })
    else
      (List.range result_size).map (fun i =>
        { word := m.id_to_word (wids.getD i 0), p := probabilities.getD i default })

end LanguageModel

/-- A call of a virtual method of the back-end, with the arguments it receives. -/
inductive BackendCall where
  | get_candidates (history : List Nat) (pfx : WString) (options : Nat)
  | get_probs (history : List Nat) (words : List Nat)

/-- The calls of the back-end that `LanguageModel::predict(results, context, limit, options)`
makes, in order: none for an empty context, else `get_candidates(history, prefix, wids,
options)` and then `get_probs(history, wids, probabilities)`. -/
def LanguageModel.predict_calls {P : Type} (m : LanguageModel P) (context : List WString)
    (options : Nat) : List BackendCall :=
  if context.length = 0 then []
  else
    let (h, pfx) := LanguageModel.split_context context
    let history := m.words_to_ids h
    let wids := m.get_candidates history pfx options
    [BackendCall.get_candidates history pfx options, BackendCall.get_probs history wids]

/-! ## Sequences of `add_word` calls -/

/-- Run a sequence of `add_word` calls (the word and whether `MemAlloc` succeeds) on a
dictionary: the final dictionary and the ids the calls returned, in call order. -/
def run_calls (d : Dictionary) : List (WString × Bool) → Dictionary × List Nat
  | [] => (d, [])
  | (w, mem) :: calls =>
    let r := d.add_word w mem
    let rest := run_calls r.1 calls
    (rest.1, r.2 :: rest.2)

/-- The words a sequence of `add_word` calls stores: those of the successful calls. -/
def stored (calls : List (WString × Bool)) : List WString :=
  (calls.filter (fun c => c.2)).map (fun c => c.1)

/-- The characters of a string literal as a wide string. -/
def wstr (s : String) : WString := s.toList.map Char.toNat

/-- An assignment of distinct bits to the option masks, used to run examples. -/
def sampleFlags : PredictOptions :=
  { CASE_INSENSITIVE := 1, ACCENT_INSENSITIVE := 4, IGNORE_CAPITALIZED := 16,
    IGNORE_NON_CAPITALIZED := 32, INCLUDE_CONTROL_WORDS := 64, NO_SORT := 128,
    NORMALIZE := 256, FILTER_OPTIONS := 1 ||| 4 ||| 16 ||| 32 }

/-- An ASCII-only environment used to run examples: `towlower` and `iswupper` of the
"C" locale and a one-entry accent table (U+00E9 to `e`). -/
def sampleEnv : Env :=
  { flags := sampleFlags
    towlower := fun c => if 65 ≤ c ∧ c ≤ 90 then c + 32 else c
    iswupper := fun c => 65 ≤ c ∧ c ≤ 90
    accent_transform := [(0xe9, 0x65)] }

/-! ## get_probability, clear and NGramModel -/

/-- The loop `for (i = 0; i < results.size(); i++) if (wcscmp(results[i].word, word) == 0)
return results[i].p;` of `LanguageModel::get_probability`: the probability of the first
result that carries the word, `none` when the loop ends without a `return`. -/
def LanguageModel.find_result {P : Type} (word : WString) : List (Result P) → Option P
  | [] => none
  | r :: rest => if wcscmp r.word word = 0 then some r.p else find_result word rest

/-- The method `LanguageModel::get_probability(ngram, n)`; `0` is the literal `0.0`. The
sum `psum` of the probabilities is only printed (when it is far from 1) and is left
out. -/
def LanguageModel.get_probability {P : Type} [LT P] [DecidableRel (fun a b : P => a < b)]
    [Inhabited P] [Zero P] (E : Env) (m : LanguageModel P) (ngram : List WString) : P :=
  if ngram.length ≠ 0 then
    let ctx := ngram.take (ngram.length - 1) ++ [[]]
    let word := ngram.getD (ngram.length - 1) []
    let results := m.predict E [] ctx (-1) E.flags.NORMALIZE
    match LanguageModel.find_result word results with
    | some p => p
    | none =>
      match LanguageModel.find_result (wstr "<unk>") results with
      | some p => p
      | none => 0
  else 0

/-- The method `LanguageModel::clear()` of the base class: `dictionary.clear()`. -/
def LanguageModel.clear {P : Type} (m : LanguageModel P) : LanguageModel P :=
  { m with dictionary := m.dictionary.clear }

/-- The method `LanguageModel::get_num_word_types()`. -/
def LanguageModel.get_num_word_types {P : Type} (m : LanguageModel P) : Nat :=
  m.dictionary.get_num_word_types

/-- The class `NGramModel`: a language model with the member `order`. -/
structure NGramModel (P : Type) extends LanguageModel P where
  order : Int

/-- The constructor `NGramModel::NGramModel()` sets `order = 0`. -/
def NGramModel.new {P : Type} (base : LanguageModel P) : NGramModel P :=
  { toLanguageModel := base, order := 0 }

/-- The method `NGramModel::get_order()`. -/
def NGramModel.get_order {P : Type} (m : NGramModel P) : Int := m.order

/-- The method `NGramModel::set_order(n)`: `order = n; clear();`. -/
def NGramModel.set_order {P : Type} (m : NGramModel P) (n : Int) : NGramModel P :=
  { toLanguageModel := m.toLanguageModel.clear, order := n }

/-! ## Example inputs -/

/-- A sequence of four `add_word` calls: the second fails, the fourth repeats the first. -/
def exCalls : List (WString × Bool) :=
  [(wstr "cat", true), (wstr "car", false), (wstr "car", true), (wstr "cat", true)]

/-- The four control words that a language model stores first, at the ids 0 to 3. -/
def controlWords : List (WString × Bool) :=
  [(wstr "<unk>", true), (wstr "<s>", true), (wstr "</s>", true), (wstr "<num>", true)]

/-- The vocabulary "cat", "car", "dog", added in that order. -/
def catCarDog : List (WString × Bool) :=
  [(wstr "cat", true), (wstr "car", true), (wstr "dog", true)]

/-- A vocabulary with five words that start with "ca", stored after the control words:
ids 4 "cat", 5 "car", 6 "dog", 7 "cab", 8 "can", 9 "cap". -/
def sampleCalls : List (WString × Bool) :=
  controlWords ++ catCarDog ++ [(wstr "cab", true), (wstr "can", true), (wstr "cap", true)]

/-- A back-end used to run examples: the candidates are the prefix matches of the
dictionary, the score of a word is a fixed function of its id. -/
def sampleModel : LanguageModel Nat :=
  { dictionary := (run_calls Dictionary.empty sampleCalls).1
    get_candidates := fun _ pfx options =>
      (run_calls Dictionary.empty sampleCalls).1.prefix_search sampleEnv (some pfx) none []
        options
    get_probs := fun _ wids => wids.map (fun wid => (wid * 7) % 5) }

/-- The word "café": its last character is U+00E9, the letter e with an acute accent. -/
def cafeAccent : WString := [0x63, 0x61, 0x66, 0xe9]

/-- The word "cafe". -/
def cafePlain : WString := [0x63, 0x61, 0x66, 0x65]

/-- A dictionary that holds the empty word only. -/
def emptyWordCalls : List (WString × Bool) := [([], true)]

/-- An n-gram model over the example back-end, with order 3. -/
def sampleNGram : NGramModel Nat := { toLanguageModel := sampleModel, order := 3 }

/-! ## Predicates used in the statements and proofs -/

/-- The word at position `i` of the sorted index: `words[sorted[i]]`. -/
def Dictionary.keyAt (d : Dictionary) (i : Nat) : WString :=
  d.words.getD (d.sorted.getD i 0) []

/-- The order of the sorted index: by word, and a later id first among equal words. -/
def Dictionary.before (d : Dictionary) (a b : Nat) : Prop :=
  wcscmp (d.words.getD a []) (d.words.getD b []) < 0 ∨
    (d.words.getD a [] = d.words.getD b [] ∧ b < a)

/-- The invariant of a dictionary that holds no more words than there are word ids. -/
structure Dictionary.Valid (d : Dictionary) : Prop where
  perm : d.sorted.Perm (List.range d.words.length)
  ordered : d.sorted.Pairwise d.before
  small : d.words.length ≤ 65536

/-- An index vector is ranked when the scores of its entries never increase. -/
def RankedDesc {α : Type} [LE α] [Inhabited α] (cmp : List α) (l : List Nat) : Prop :=
  l.Pairwise (fun a b => cmp.getD b default ≤ cmp.getD a default)

/-! ## Definitions for the mode claims and the termination of the search -/

/-- The loop of `Dictionary::search_index` with the end of the iteration bound made
visible: `none` when the bound is used up while `lo < hi` still holds, `some lo` when
the loop condition `lo < hi` fails and the loop is left. -/
def Dictionary.search_loop_exit (d : Dictionary) (word : WString) : Nat → Nat → Nat → Option Nat
  | 0, lo, hi => if lo < hi then none else some lo
  | fuel + 1, lo, hi =>
    if lo < hi then
      let mid := (lo + hi) >>> 1
      if wcscmp (d.words.getD (d.sorted.getD mid 0) []) word < 0 then
        search_loop_exit d word fuel (mid + 1) hi
      else search_loop_exit d word fuel lo mid
    else some lo

/-- The set that the claim on the binary-search mode compares with: the ids `i` with
`min_wid <= i < number of words` whose word passes
`PrefixCmp(prefix, options).matches(words[i])`, listed in ascending order. -/
def Dictionary.linear_scan_spec (E : Env) (d : Dictionary) (pfx : Option WString)
    (options : Nat) : List Nat :=
  (List.range d.words.length).filter (fun i =>
    decide ((if isSet options E.flags.INCLUDE_CONTROL_WORDS then 0 else NUM_CONTROL_WORDS) ≤ i) &&
      (PrefixCmp.new E pfx options).matches E (d.words.getD i []))

/-- The mask FILTER_OPTIONS contains the masks of the four filter options
(case-insensitive, accent-insensitive, ignore-capitalized, ignore-non-capitalized). -/
def Env.filter_covers (E : Env) : Prop :=
  E.flags.CASE_INSENSITIVE &&& E.flags.FILTER_OPTIONS = E.flags.CASE_INSENSITIVE ∧
  E.flags.ACCENT_INSENSITIVE &&& E.flags.FILTER_OPTIONS = E.flags.ACCENT_INSENSITIVE ∧
  E.flags.IGNORE_CAPITALIZED &&& E.flags.FILTER_OPTIONS = E.flags.IGNORE_CAPITALIZED ∧
  E.flags.IGNORE_NON_CAPITALIZED &&& E.flags.FILTER_OPTIONS = E.flags.IGNORE_NON_CAPITALIZED

/-- The calls `add_word("a")`, 65536 times, followed by `add_word("b")`. -/
def overflowCalls : List (WString × Bool) :=
  List.replicate 65536 (wstr "a", true) ++ [(wstr "b", true)]

/-- The call `add_word("a")`, 65537 times. -/
def wrapCalls : List (WString × Bool) :=
  List.replicate 65536 (wstr "a", true) ++ [(wstr "a", true)]

/-- The calls `add_word("a")`, 65535 times, followed by `add_word("b")`: 65536 words. -/
def ceilingCalls : List (WString × Bool) :=
  List.replicate 65535 (wstr "a", true) ++ [(wstr "b", true)]

/-- A model over the dictionary of `ceilingCalls` whose back-end answers with the history
it is handed: the candidates are the ids of the history, each with the score 0. -/
def ceilingModel : LanguageModel Nat :=
  { dictionary := (run_calls Dictionary.empty ceilingCalls).1
    get_candidates := fun history _ _ => history
    get_probs := fun _ wids => wids.map (fun _ => 0) }

/-! ## The order of `wcscmp` -/

theorem wcscmp_self (a : WString) : wcscmp a a = 0 := by
  induction a with
  | nil => rfl
  | cons x a ih => simp [wcscmp, ih]

theorem wcscmp_eq_zero {a b : WString} : wcscmp a b = 0 ↔ a = b := by
  constructor
  · intro h
    induction a generalizing b with
    | nil =>
      cases b with
      | nil => rfl
      | cons y b => simp [wcscmp] at h
    | cons x a ih =>
      cases b with
      | nil => simp [wcscmp] at h
      | cons y b =>
        simp only [wcscmp] at h
        split at h
        · next hxy => rw [hxy, ih h]
        · split at h <;> simp at h
  · rintro rfl
    exact wcscmp_self a

theorem wcscmp_neg_iff_pos {a b : WString} : wcscmp a b < 0 ↔ 0 < wcscmp b a := by
  induction a generalizing b with
  | nil => cases b <;> simp [wcscmp]
  | cons x a ih =>
    cases b with
    | nil => simp [wcscmp]
    | cons y b =>
      simp only [wcscmp]
      by_cases hxy : x = y
      · subst hxy
        simpa using ih
      · have hyx : ¬ y = x := fun h => hxy h.symm
        simp only [hxy, hyx, if_false]
        by_cases hlt : x < y
        · have : ¬ y < x := by omega
          simp [hlt, this]
        · have : y < x := by omega
          simp [hlt, this]

theorem wcscmp_le_trans {a b c : WString} (hab : wcscmp a b ≤ 0) (hbc : wcscmp b c ≤ 0) :
    wcscmp a c ≤ 0 := by
  induction a generalizing b c with
  | nil => cases c <;> simp [wcscmp]
  | cons x a ih =>
    cases b with
    | nil => simp [wcscmp] at hab
    | cons y b =>
      cases c with
      | nil => simp [wcscmp] at hbc
      | cons z c =>
        simp only [wcscmp] at hab hbc ⊢
        by_cases hxy : x = y
        · subst hxy
          simp only [if_true] at hab
          by_cases hxz : x = z
          · subst hxz
            simp only [if_true] at hbc ⊢
            exact ih hab hbc
          · simp only [hxz, if_false] at hbc ⊢
            split at hbc
            · next hlt => simp [hlt]
            · simp at hbc
        · simp only [hxy, if_false] at hab
          have hlt : x < y := by
            by_contra h
            simp [h] at hab
          by_cases hyz : y = z
          · subst hyz
            simp [hxy, hlt]
          · simp only [hyz, if_false] at hbc
            have hlt2 : y < z := by
              by_contra h
              simp [h] at hbc
            have hne : ¬ x = z := by omega
            have hlt3 : x < z := by omega
            simp [hne, hlt3]

theorem wcscmp_le_total (a b : WString) : wcscmp a b ≤ 0 ∨ wcscmp b a ≤ 0 := by
  by_cases h : wcscmp a b ≤ 0
  · exact Or.inl h
  · right
    have h1 : 0 < wcscmp a b := by omega
    have := (wcscmp_neg_iff_pos (a := b) (b := a)).2 h1
    omega

theorem wcscmp_le_antisymm {a b : WString} (hab : wcscmp a b ≤ 0) (hba : wcscmp b a ≤ 0) :
    a = b := by
  apply wcscmp_eq_zero.1
  by_contra h
  have h1 : wcscmp a b < 0 := by omega
  have := wcscmp_neg_iff_pos.1 h1
  omega

theorem wcscmp_lt_of_lt_of_le {a b c : WString} (hab : wcscmp a b < 0) (hbc : wcscmp b c ≤ 0) :
    wcscmp a c < 0 := by
  have h1 : wcscmp a c ≤ 0 := wcscmp_le_trans (by omega) hbc
  by_contra h
  have h0 : wcscmp a c = 0 := by omega
  have hac : a = c := wcscmp_eq_zero.1 h0
  subst hac
  have := wcscmp_neg_iff_pos.1 hab
  omega

theorem wcscmp_lt_of_le_of_lt {a b c : WString} (hab : wcscmp a b ≤ 0) (hbc : wcscmp b c < 0) :
    wcscmp a c < 0 := by
  have h1 : wcscmp a c ≤ 0 := wcscmp_le_trans hab (by omega)
  by_contra h
  have h0 : wcscmp a c = 0 := by omega
  have hac : a = c := wcscmp_eq_zero.1 h0
  subst hac
  have := wcscmp_neg_iff_pos.1 hbc
  omega

/-- The call `wcsncmp(w, p, wcslen(p))` is zero exactly when `w` starts with `p`. -/
theorem wcsncmp_eq_zero_iff (w p : WString) : wcsncmp w p p.length = 0 ↔ p <+: w := by
  induction p generalizing w with
  | nil => simp [wcsncmp]
  | cons y p ih =>
    cases w with
    | nil => simp [wcsncmp]
    | cons x w =>
      simp only [List.length_cons, wcsncmp]
      by_cases hxy : x = y
      · subst hxy
        simp only [if_true]
        rw [ih]
        simp [List.cons_prefix_cons]
      · have hyx : ¬ y = x := fun h => hxy h.symm
        simp only [hxy, if_false, List.cons_prefix_cons, hyx, false_and, iff_false]
        split <;> simp

/-- A word that starts with `p` is not below `p`. -/
theorem wcscmp_of_isPrefix {p w : WString} (h : p <+: w) : wcscmp p w ≤ 0 := by
  induction p generalizing w with
  | nil => cases w <;> simp [wcscmp]
  | cons y p ih =>
    cases w with
    | nil => simp at h
    | cons x w =>
      rw [List.cons_prefix_cons] at h
      obtain ⟨rfl, h⟩ := h
      simp only [wcscmp, if_true]
      exact ih h

/-- Between `p` and a word that starts with `p` there are only words that start with `p`. -/
theorem isPrefix_of_between {p b c : WString} (hpb : wcscmp p b ≤ 0) (hbc : wcscmp b c ≤ 0)
    (hpc : p <+: c) : p <+: b := by
  induction p generalizing b c with
  | nil => simp
  | cons y p ih =>
    cases c with
    | nil => simp at hpc
    | cons z c =>
      rw [List.cons_prefix_cons] at hpc
      obtain ⟨rfl, hpc⟩ := hpc
      cases b with
      | nil => simp [wcscmp] at hpb
      | cons x b =>
        simp only [wcscmp] at hpb hbc
        have hxy : y = x := by
          by_contra hne
          have hne2 : ¬ x = y := fun h => hne h.symm
          simp only [hne, hne2, if_false] at hpb hbc
          have h1 : y < x := by
            by_contra h
            simp [h] at hpb
          have h2 : x < y := by
            by_contra h
            simp [h] at hbc
          omega
        subst hxy
        simp only [if_true] at hpb hbc
        rw [List.cons_prefix_cons]
        exact ⟨rfl, ih hpb hbc hpc⟩

/-! ## The binary search -/

theorem shiftRight_one_eq (n : Nat) : n >>> 1 = n / 2 := by
  simp [Nat.shiftRight_eq_div_pow]

/-- The loop of `search_index` stays inside `[lo, hi]`, whatever the dictionary holds. -/
theorem search_loop_bounds (d : Dictionary) (word : WString) :
    ∀ fuel lo hi, lo ≤ hi →
      lo ≤ d.search_loop word fuel lo hi ∧ d.search_loop word fuel lo hi ≤ hi := by
  intro fuel
  induction fuel with
  | zero => intro lo hi h; simp [Dictionary.search_loop, h]
  | succ fuel ih =>
    intro lo hi h
    simp only [Dictionary.search_loop, shiftRight_one_eq]
    split
    · next hlt =>
      split
      · have := ih ((lo + hi) / 2 + 1) hi (by omega)
        omega
      · have := ih lo ((lo + hi) / 2) (by omega)
        omega
    · omega

/-- The loop of `search_index` has ended before its bound is used up: any bound of at
least `hi - lo` iterations gives the same result. -/
theorem search_loop_fuel (d : Dictionary) (word : WString) :
    ∀ (fuel fuel2 lo hi : Nat), hi - lo ≤ fuel → hi - lo ≤ fuel2 →
      d.search_loop word fuel lo hi = d.search_loop word fuel2 lo hi := by
  intro fuel
  induction fuel with
  | zero =>
    intro fuel2 lo hi h1 _
    have hle : ¬ lo < hi := by omega
    cases fuel2 with
    | zero => rfl
    | succ f => simp [Dictionary.search_loop, hle]
  | succ fuel ih =>
    intro fuel2 lo hi h1 h2
    cases fuel2 with
    | zero =>
      have hle : ¬ lo < hi := by omega
      simp [Dictionary.search_loop, hle]
    | succ f =>
      simp only [Dictionary.search_loop, shiftRight_one_eq]
      split
      · split
        · exact ih f _ _ (by omega) (by omega)
        · exact ih f _ _ (by omega) (by omega)
      · rfl

/-- On an index in word order the loop of `search_index` ends at the lower bound of the
query: everything before the result is below the query, nothing from it on is. -/
theorem search_loop_spec (d : Dictionary) (word : WString)
    (hs : ∀ i j, i ≤ j → j < d.sorted.length → wcscmp (d.keyAt i) (d.keyAt j) ≤ 0) :
    ∀ fuel lo hi, hi - lo ≤ fuel → lo ≤ hi → hi ≤ d.sorted.length →
      (∀ i, i < lo → wcscmp (d.keyAt i) word < 0) →
      (∀ i, hi ≤ i → i < d.sorted.length → ¬ wcscmp (d.keyAt i) word < 0) →
      (∀ i, i < d.search_loop word fuel lo hi → wcscmp (d.keyAt i) word < 0) ∧
      (∀ i, d.search_loop word fuel lo hi ≤ i → i < d.sorted.length →
        ¬ wcscmp (d.keyAt i) word < 0) := by
  intro fuel
  induction fuel with
  | zero =>
    intro lo hi hf hle _ hlo hhi
    have : lo = hi := by omega
    subst this
    simp only [Dictionary.search_loop]
    exact ⟨hlo, hhi⟩
  | succ fuel ih =>
    intro lo hi hf hle hn hlo hhi
    simp only [Dictionary.search_loop, shiftRight_one_eq]
    split
    · next hlt =>
      have hmid : (lo + hi) / 2 < hi := by omega
      have hmid2 : lo ≤ (lo + hi) / 2 := by omega
      split
      · next hcmp =>
        apply ih ((lo + hi) / 2 + 1) hi (by omega) (by omega) hn _ hhi
        intro i hi2
        have h1 : wcscmp (d.keyAt i) (d.keyAt ((lo + hi) / 2)) ≤ 0 :=
          hs i ((lo + hi) / 2) (by omega) (by omega)
        exact wcscmp_lt_of_le_of_lt h1 hcmp
      · next hcmp =>
        apply ih lo ((lo + hi) / 2) (by omega) (by omega) (by omega) hlo
        intro i hi2 hi3 hlt2
        have h1 : wcscmp (d.keyAt ((lo + hi) / 2)) (d.keyAt i) ≤ 0 :=
          hs ((lo + hi) / 2) i hi2 hi3
        exact hcmp (wcscmp_lt_of_le_of_lt h1 hlt2)
    · next hge =>
      have : lo = hi := by omega
      subst this
      exact ⟨hlo, hhi⟩

theorem search_index_le (d : Dictionary) (word : WString) :
    d.search_index word ≤ d.sorted.length :=
  (search_loop_bounds d word d.sorted.length 0 d.sorted.length (Nat.zero_le _)).2

theorem search_index_spec (d : Dictionary) (word : WString)
    (hs : ∀ i j, i ≤ j → j < d.sorted.length → wcscmp (d.keyAt i) (d.keyAt j) ≤ 0) :
    (∀ i, i < d.search_index word → wcscmp (d.keyAt i) word < 0) ∧
    (∀ i, d.search_index word ≤ i → i < d.sorted.length → ¬ wcscmp (d.keyAt i) word < 0) := by
  apply search_loop_spec d word hs d.sorted.length 0 d.sorted.length (by omega) (by omega)
    (le_refl _)
  · intro i hi; omega
  · intro i hi hi2; omega

/-! ## The invariant of the dictionary -/

theorem Dictionary.Valid.mem_lt {d : Dictionary} (h : d.Valid) {x : Nat}
    (hx : x ∈ d.sorted) : x < d.words.length := by
  have := h.perm.mem_iff.1 hx
  simpa using this

theorem Dictionary.Valid.length_sorted {d : Dictionary} (h : d.Valid) :
    d.sorted.length = d.words.length := by
  have := h.perm.length_eq
  simpa using this

theorem Dictionary.keyAt_eq {d : Dictionary} {i : Nat} (hi : i < d.sorted.length) :
    d.keyAt i = d.words.getD d.sorted[i] [] := by
  unfold Dictionary.keyAt
  rw [List.getD_eq_getElem _ _ hi]

theorem Dictionary.pairwise_keys {d : Dictionary} (h : d.sorted.Pairwise d.before) :
    ∀ i j, i ≤ j → j < d.sorted.length → wcscmp (d.keyAt i) (d.keyAt j) ≤ 0 := by
  intro i j hij hj
  rcases Nat.eq_or_lt_of_le hij with rfl | hlt
  · rw [wcscmp_self]
  · have hi : i < d.sorted.length := by omega
    have hb := (List.pairwise_iff_getElem.1 h) i j hi hj hlt
    rw [Dictionary.keyAt_eq hi, Dictionary.keyAt_eq hj]
    rcases hb with hb | ⟨hb, _⟩
    · omega
    · rw [hb, wcscmp_self]

theorem Dictionary.Valid.keys_sorted {d : Dictionary} (h : d.Valid) :
    ∀ i j, i ≤ j → j < d.sorted.length → wcscmp (d.keyAt i) (d.keyAt j) ≤ 0 :=
  Dictionary.pairwise_keys h.ordered

/-- In a valid dictionary the words along the sorted index do not decrease. -/
theorem Dictionary.Valid.sorted_words {d : Dictionary} (h : d.Valid) :
    (d.sorted.map (fun wid => d.words.getD wid [])).Pairwise (fun a b => wcscmp a b ≤ 0) := by
  rw [List.pairwise_map]
  refine h.ordered.imp ?_
  intro a b hab
  rcases hab with hab | ⟨hab, _⟩
  · omega
  · rw [hab, wcscmp_self]

theorem keys_of_sorted_words {d : Dictionary}
    (hs : (d.sorted.map (fun wid => d.words.getD wid [])).Pairwise (fun a b => wcscmp a b ≤ 0)) :
    ∀ i j, i ≤ j → j < d.sorted.length → wcscmp (d.keyAt i) (d.keyAt j) ≤ 0 := by
  intro i j hij hj
  rcases Nat.eq_or_lt_of_le hij with rfl | hlt
  · rw [wcscmp_self]
  · have hi : i < d.sorted.length := by omega
    rw [List.pairwise_map] at hs
    rw [Dictionary.keyAt_eq hi, Dictionary.keyAt_eq hj]
    exact (List.pairwise_iff_getElem.1 hs) i j hi hj hlt

theorem valid_empty : Dictionary.empty.Valid :=
  { perm := by simp [Dictionary.empty]
    ordered := by simp [Dictionary.empty]
    small := by simp [Dictionary.empty] }

/-- What the search in `add_word` finds: the ids before the insertion point have words
below the new word, the ids from it on do not. -/
theorem add_word_search {d : Dictionary} (h : d.Valid) (w : WString) :
    let r := Dictionary.search_index { words := d.words ++ [w], sorted := d.sorted } w
    r ≤ d.sorted.length ∧
    (∀ a ∈ d.sorted.take r, wcscmp (d.words.getD a []) w < 0) ∧
    (∀ b ∈ d.sorted.drop r, ¬ wcscmp (d.words.getD b []) w < 0) := by
  intro r
  have hkey : ∀ i, i < d.sorted.length →
      Dictionary.keyAt { words := d.words ++ [w], sorted := d.sorted } i = d.keyAt i := by
    intro i hi
    rw [Dictionary.keyAt_eq (d := { words := d.words ++ [w], sorted := d.sorted }) hi,
      Dictionary.keyAt_eq hi]
    exact List.getD_append _ _ _ _ (h.mem_lt (List.getElem_mem _))
  have hs0 : ∀ i j, i ≤ j → j < d.sorted.length →
      wcscmp (Dictionary.keyAt { words := d.words ++ [w], sorted := d.sorted } i)
        (Dictionary.keyAt { words := d.words ++ [w], sorted := d.sorted } j) ≤ 0 := by
    intro i j hij hj
    rw [hkey i (by omega), hkey j hj]
    exact h.keys_sorted i j hij hj
  obtain ⟨hlo, hhi⟩ :=
    search_index_spec { words := d.words ++ [w], sorted := d.sorted } w hs0
  have hr : r ≤ d.sorted.length :=
    search_index_le { words := d.words ++ [w], sorted := d.sorted } w
  refine ⟨hr, ?_, ?_⟩
  · intro a ha
    obtain ⟨i, hi, rfl⟩ := List.mem_take_iff_getElem.1 ha
    have hi1 : i < r := by omega
    have hi2 : i < d.sorted.length := by omega
    have := hlo i hi1
    rw [hkey i hi2, Dictionary.keyAt_eq hi2] at this
    exact this
  · intro b hb
    obtain ⟨i, hi, rfl⟩ := List.mem_drop_iff_getElem.1 hb
    have hi2 : r + i < d.sorted.length := by omega
    have := hhi (r + i) (by omega) hi2
    rw [hkey _ hi2, Dictionary.keyAt_eq hi2] at this
    exact this

/-- A successful `add_word` keeps the invariant as long as the new id fits in 16 bits. -/
theorem add_word_valid {d : Dictionary} (h : d.Valid) (w : WString)
    (hlt : d.words.length < 65536) : (d.add_word w true).1.Valid := by
  obtain ⟨hr, hlo, hhi⟩ := add_word_search h w
  have hid : toWordId d.words.length = d.words.length := Nat.mod_eq_of_lt hlt
  have hw : ∀ x, x < d.words.length → (d.words ++ [w]).getD x [] = d.words.getD x [] :=
    fun x hx => List.getD_append _ _ _ _ hx
  have hn : (d.words ++ [w]).getD d.words.length [] = w := by
    rw [List.getD_append_right _ _ _ _ (le_refl _)]
    simp
  have hbef : ∀ (l : List Nat) a b, a ∈ d.sorted → b ∈ d.sorted → d.before a b →
      Dictionary.before { words := d.words ++ [w], sorted := l } a b := by
    intro l a b ha hb hab
    unfold Dictionary.before at hab ⊢
    simp only
    rw [hw a (h.mem_lt ha), hw b (h.mem_lt hb)]
    exact hab
  simp only [Dictionary.add_word, Bool.not_true, Bool.false_eq_true, if_false, hid]
  refine ⟨?_, ?_, ?_⟩
  · simp only [List.length_append, List.length_singleton]
    rw [List.range_succ]
    refine List.perm_middle.trans ?_
    rw [List.take_append_drop]
    exact (List.perm_append_singleton _ _).symm.trans (List.Perm.append_right _ h.perm)
  · rw [List.pairwise_append, List.pairwise_cons]
    obtain ⟨h1, h2, h3⟩ := List.pairwise_append.1
      ((List.take_append_drop (Dictionary.search_index
        { words := d.words ++ [w], sorted := d.sorted } w) d.sorted).symm ▸ h.ordered)
    refine ⟨?_, ⟨?_, ?_⟩, ?_⟩
    · exact h1.imp_of_mem (fun {a b} ha hb hab =>
        hbef _ a b (List.mem_of_mem_take ha) (List.mem_of_mem_take hb) hab)
    · intro b hb
      have hb2 : b ∈ d.sorted := List.mem_of_mem_drop hb
      have hge := hhi b hb
      unfold Dictionary.before
      simp only
      rw [hn, hw b (h.mem_lt hb2)]
      by_cases heq : w = d.words.getD b []
      · exact Or.inr ⟨heq, h.mem_lt hb2⟩
      · left
        have h0 : wcscmp (d.words.getD b []) w ≠ 0 := fun h0 => heq (wcscmp_eq_zero.1 h0).symm
        apply wcscmp_neg_iff_pos.2
        omega
    · exact h2.imp_of_mem (fun {a b} ha hb hab =>
        hbef _ a b (List.mem_of_mem_drop ha) (List.mem_of_mem_drop hb) hab)
    · intro a ha b hb
      rcases List.mem_cons.1 hb with rfl | hb
      · unfold Dictionary.before
        simp only
        rw [hn, hw a (h.mem_lt (List.mem_of_mem_take ha))]
        exact Or.inl (hlo a ha)
      · exact hbef _ a b (List.mem_of_mem_take ha) (List.mem_of_mem_drop hb) (h3 a ha b hb)
  · simp only [List.length_append, List.length_singleton]
    omega

/-! ## Lookup on a valid dictionary -/

theorem exists_last_occurrence {w : WString} {l : List WString} (h : w ∈ l) :
    ∃ A B, l = A ++ w :: B ∧ w ∉ B := by
  induction l with
  | nil => simp at h
  | cons x l ih =>
    by_cases hl : w ∈ l
    · obtain ⟨A, B, hAB, hB⟩ := ih hl
      exact ⟨x :: A, B, by rw [hAB]; rfl, hB⟩
    · rcases List.mem_cons.1 h with rfl | h'
      · exact ⟨[], l, rfl, hl⟩
      · exact absurd h' hl

/-- An id that `word_to_id` returns from the sorted index carries the queried word. -/
theorem word_to_id_word (d : Dictionary) (w : WString) (h : d.word_to_id w ≠ WIDNONE) :
    d.words.getD (d.word_to_id w) [] = w ∧ d.word_to_id w ∈ d.sorted := by
  unfold Dictionary.word_to_id at h ⊢
  simp only at h ⊢
  split at h
  · next hlt =>
    split at h
    · next heq =>
      rw [if_pos hlt, if_pos heq]
      refine ⟨wcscmp_eq_zero.1 heq, ?_⟩
      rw [List.getD_eq_getElem _ _ hlt]
      exact List.getElem_mem _
    · exact absurd rfl h
  · exact absurd rfl h

/-- On a valid dictionary `word_to_id` misses every word that is not stored. -/
theorem word_to_id_none {d : Dictionary} (h : d.Valid) {w : WString} (hw : w ∉ d.words) :
    d.word_to_id w = WIDNONE := by
  by_contra hne
  obtain ⟨h1, h2⟩ := word_to_id_word d w hne
  have hlt := h.mem_lt h2
  rw [List.getD_eq_getElem _ _ hlt] at h1
  exact hw (h1 ▸ List.getElem_mem _)

/-- On a valid dictionary `word_to_id` returns the position of the last occurrence of
the word in `words`, that is, the id of its most recent insertion. -/
theorem word_to_id_last {d : Dictionary} (h : d.Valid) {w : WString} {A B : List WString}
    (hAB : d.words = A ++ w :: B) (hB : w ∉ B) : d.word_to_id w = A.length := by
  obtain ⟨hlo, hhi⟩ := search_index_spec d w h.keys_sorted
  have hM : A.length < d.words.length := by
    rw [hAB]
    simp
  have hwM : d.words.getD A.length [] = w := by
    rw [hAB, List.getD_append_right _ _ _ _ (le_refl _)]
    simp
  have hmem : A.length ∈ d.sorted := h.perm.mem_iff.2 (List.mem_range.2 hM)
  obtain ⟨p, hp, hpM⟩ := List.mem_iff_getElem.1 hmem
  have hkp : d.keyAt p = w := by rw [Dictionary.keyAt_eq hp, hpM, hwM]
  have hrp : d.search_index w ≤ p := by
    by_contra hlt
    have := hlo p (by omega)
    rw [hkp, wcscmp_self] at this
    omega
  have hr : d.search_index w < d.sorted.length := by omega
  have hkr : d.keyAt (d.search_index w) = w := by
    apply wcscmp_le_antisymm
    · have := h.keys_sorted (d.search_index w) p hrp hp
      rwa [hkp] at this
    · have := hhi (d.search_index w) (le_refl _) hr
      by_contra hgt
      exact this (wcscmp_neg_iff_pos.2 (by omega))
  have hrp2 : d.search_index w = p := by
    by_contra hne
    have hlt : d.search_index w < p := by omega
    have hb := (List.pairwise_iff_getElem.1 h.ordered) (d.search_index w) p hr hp hlt
    rw [Dictionary.keyAt_eq hr] at hkr
    unfold Dictionary.before at hb
    rw [hpM, hwM, hkr] at hb
    rcases hb with hb | ⟨_, hb⟩
    · rw [wcscmp_self] at hb
      omega
    · have hlt2 := h.mem_lt (List.getElem_mem hr)
      rw [hAB] at hkr hlt2
      rw [List.getD_append_right _ _ _ _ (by omega), List.getD_eq_getElem _ _ (by
        simp only [List.length_append, List.length_cons] at hlt2 ⊢
        omega)] at hkr
      have hpos : 0 < d.sorted[d.search_index w] - A.length := by omega
      obtain ⟨k, hk⟩ : ∃ k, d.sorted[d.search_index w] - A.length = k + 1 :=
        ⟨d.sorted[d.search_index w] - A.length - 1, by omega⟩
      simp only [hk, List.getElem_cons_succ] at hkr
      exact hB (hkr ▸ List.getElem_mem _)
  unfold Dictionary.word_to_id
  simp only
  rw [if_pos hr]
  have hval : d.sorted.getD (d.search_index w) 0 = A.length := by
    rw [List.getD_eq_getElem _ _ hr]
    simp only [hrp2]
    exact hpM
  rw [hval, hwM, wcscmp_self]
  simp

/-! ## Sequences of calls -/

theorem add_word_words (d : Dictionary) (w : WString) (mem : Bool) :
    (d.add_word w mem).1.words = d.words ++ (if mem then [w] else []) := by
  cases mem <;> simp [Dictionary.add_word]

theorem add_word_id (d : Dictionary) (w : WString) (mem : Bool) :
    (d.add_word w mem).2 = if mem then toWordId d.words.length else WIDNONE := by
  cases mem <;> simp [Dictionary.add_word]

theorem add_word_fail (d : Dictionary) (w : WString) : d.add_word w false = (d, WIDNONE) := by
  simp [Dictionary.add_word]

theorem stored_cons (c : WString × Bool) (calls : List (WString × Bool)) :
    stored (c :: calls) = (if c.2 then [c.1] else []) ++ stored calls := by
  unfold stored
  cases h : c.2 <;> simp [List.filter_cons, h]

theorem stored_append (l₁ l₂ : List (WString × Bool)) :
    stored (l₁ ++ l₂) = stored l₁ ++ stored l₂ := by
  simp [stored]

/-- The words of the dictionary after a sequence of calls: the stored words, appended in
call order. -/
theorem run_calls_words (d : Dictionary) (calls : List (WString × Bool)) :
    (run_calls d calls).1.words = d.words ++ stored calls := by
  induction calls generalizing d with
  | nil => simp [run_calls, stored]
  | cons c calls ih =>
    obtain ⟨w, mem⟩ := c
    simp only [run_calls]
    rw [ih, add_word_words, stored_cons, List.append_assoc]

/-- A sequence of calls keeps the invariant while the ids fit in 16 bits. -/
theorem run_calls_valid (calls : List (WString × Bool)) :
    ∀ d : Dictionary, d.Valid → d.words.length + (stored calls).length ≤ 65536 →
      (run_calls d calls).1.Valid := by
  induction calls with
  | nil => intro d h _; simpa [run_calls] using h
  | cons c calls ih =>
    intro d h hlen
    obtain ⟨w, mem⟩ := c
    simp only [run_calls]
    rw [stored_cons] at hlen
    cases mem with
    | false =>
      rw [add_word_fail]
      exact ih d h (by simpa using hlen)
    | true =>
      simp only [if_true, List.length_append, List.length_singleton] at hlen
      apply ih _ (add_word_valid h w (by omega))
      rw [add_word_words]
      simp only [if_true, List.length_append, List.length_singleton]
      omega

/-- The id a call of the sequence returns. -/
theorem run_calls_ids (calls : List (WString × Bool)) :
    ∀ (d : Dictionary) (k : Nat) (w : WString) (mem : Bool), calls[k]? = some (w, mem) →
      (run_calls d calls).2.getD k 0 =
        if mem then toWordId (d.words.length + (stored (calls.take k)).length) else WIDNONE := by
  induction calls with
  | nil => intro d k w mem h; simp at h
  | cons c calls ih =>
    intro d k w mem h
    obtain ⟨w0, mem0⟩ := c
    cases k with
    | zero =>
      simp only [List.getElem?_cons_zero, Option.some.injEq, Prod.mk.injEq] at h
      obtain ⟨rfl, rfl⟩ := h
      simp [run_calls, add_word_id, stored]
    | succ k =>
      simp only [List.getElem?_cons_succ] at h
      simp only [run_calls, List.getD_cons_succ, List.take_succ_cons]
      rw [ih _ k w mem h, add_word_words, stored_cons]
      simp only [List.length_append, Nat.add_assoc]

theorem calls_split {β : Type} {calls : List β} {k : Nat} {c : β} (hk : calls[k]? = some c) :
    calls = calls.take k ++ c :: calls.drop (k + 1) := by
  obtain ⟨h, rfl⟩ := List.getElem?_eq_some.1 hk
  rw [← List.drop_eq_getElem_cons h, List.take_append_drop]

theorem stored_split {calls : List (WString × Bool)} {k : Nat} {w : WString}
    (hk : calls[k]? = some (w, true)) :
    stored calls = stored (calls.take k) ++ w :: stored (calls.drop (k + 1)) := by
  conv => lhs; rw [calls_split hk]
  rw [stored_append, stored_cons]
  simp

theorem mem_stored {calls : List (WString × Bool)} {w : WString} :
    w ∈ stored calls ↔ (w, true) ∈ calls := by
  unfold stored
  simp only [List.mem_map, List.mem_filter]
  constructor
  · rintro ⟨⟨w', m⟩, ⟨h1, h2⟩, h3⟩
    simp only at h2 h3
    subst h2 h3
    exact h1
  · intro h
    exact ⟨(w, true), ⟨h, rfl⟩, rfl⟩

theorem stored_take_lt {calls : List (WString × Bool)} {j k : Nat} {w : WString}
    (hjk : j < k) (hj : calls[j]? = some (w, true)) :
    (stored (calls.take j)).length < (stored (calls.take k)).length := by
  have h1 : (calls.take k)[j]? = some (w, true) := by
    rw [List.getElem?_take_of_lt hjk]
    exact hj
  have h2 := stored_split h1
  rw [List.take_take, Nat.min_eq_left (Nat.le_of_lt hjk)] at h2
  rw [h2]
  simp only [List.length_append, List.length_cons]
  omega

theorem stored_replicate (n : Nat) (w : WString) :
    stored (List.replicate n (w, true)) = List.replicate n w := by
  induction n with
  | zero => rfl
  | succ n ih =>
    rw [List.replicate_succ, stored_cons, ih, List.replicate_succ]
    rfl

/-- Every entry of the sorted index is a 16-bit value, however many words are added. -/
theorem run_calls_sorted_lt (calls : List (WString × Bool)) :
    ∀ d : Dictionary, (∀ x ∈ d.sorted, x < 65536) →
      ∀ x ∈ (run_calls d calls).1.sorted, x < 65536 := by
  induction calls with
  | nil => intro d h; simpa [run_calls] using h
  | cons c calls ih =>
    intro d h
    obtain ⟨w, mem⟩ := c
    simp only [run_calls]
    apply ih
    cases mem with
    | false => rw [add_word_fail]; exact h
    | true =>
      intro x hx
      simp only [Dictionary.add_word, Bool.not_true, Bool.false_eq_true, if_false,
        List.mem_append, List.mem_cons] at hx
      rcases hx with hx | rfl | hx
      · exact h x (List.mem_of_mem_take hx)
      · exact Nat.mod_lt _ (by decide)
      · exact h x (List.mem_of_mem_drop hx)

/-- The dictionary after a sequence of calls that stores at most 65536 words is valid. -/
theorem run_calls_empty_valid (calls : List (WString × Bool))
    (hsize : (stored calls).length ≤ 65536) : (run_calls Dictionary.empty calls).1.Valid :=
  run_calls_valid calls Dictionary.empty valid_empty (by simpa [Dictionary.empty] using hsize)

theorem run_replicate_words (n : Nat) (w : WString) :
    (run_calls Dictionary.empty (List.replicate n (w, true))).1.words = List.replicate n w := by
  rw [run_calls_words, stored_replicate]
  rfl

theorem run_replicate_first (n : Nat) (w : WString) :
    (run_calls Dictionary.empty (List.replicate (n + 1) (w, true))).2.getD 0 1 = 0 := by
  rw [List.replicate_succ]
  rfl

theorem run_replicate_lookup (n : Nat) (w : WString) (hn : n < 65536) :
    (run_calls Dictionary.empty (List.replicate (n + 1) (w, true))).1.word_to_id w = n := by
  have hv := run_calls_empty_valid (List.replicate (n + 1) (w, true))
    (by rw [stored_replicate, List.length_replicate]; omega)
  have hwords : (run_calls Dictionary.empty (List.replicate (n + 1) (w, true))).1.words
      = List.replicate n w ++ w :: [] := by
    rw [run_replicate_words, List.replicate_succ']
  rw [word_to_id_last hv hwords (by simp), List.length_replicate]

/-! ## The binary-search branch of `prefix_search` -/

/-- When the sorted index is in word order, the ids before `search_index(w)` have words
below `w`, and the ids from it on do not. -/
theorem search_index_mem {d : Dictionary}
    (hs : (d.sorted.map (fun wid => d.words.getD wid [])).Pairwise (fun a b => wcscmp a b ≤ 0))
    (w : WString) :
    (∀ a ∈ d.sorted.take (d.search_index w), wcscmp (d.words.getD a []) w < 0) ∧
    (∀ b ∈ d.sorted.drop (d.search_index w), ¬ wcscmp (d.words.getD b []) w < 0) := by
  obtain ⟨hlo, hhi⟩ := search_index_spec d w (keys_of_sorted_words hs)
  have hr := search_index_le d w
  constructor
  · intro a ha
    obtain ⟨i, hi, rfl⟩ := List.mem_take_iff_getElem.1 ha
    have hi2 : i < d.sorted.length := by omega
    have := hlo i (by omega)
    rwa [Dictionary.keyAt_eq hi2] at this
  · intro b hb
    obtain ⟨i, hi, rfl⟩ := List.mem_drop_iff_getElem.1 hb
    have hi2 : d.search_index w + i < d.sorted.length := by omega
    have := hhi _ (by omega) hi2
    rwa [Dictionary.keyAt_eq hi2] at this

theorem filter_eq_takeWhile {β : Type} (P : β → Bool) :
    ∀ l : List β, l.Pairwise (fun a b => P b = true → P a = true) →
      l.filter P = l.takeWhile P := by
  intro l
  induction l with
  | nil => intro _; rfl
  | cons x l ih =>
    intro h
    rw [List.pairwise_cons] at h
    obtain ⟨hx, hl⟩ := h
    cases hP : P x with
    | true =>
      rw [List.filter_cons_of_pos hP, List.takeWhile_cons_of_pos hP, ih hl]
    | false =>
      rw [List.filter_cons_of_neg (by simp [hP]), List.takeWhile_cons_of_neg (by simp [hP])]
      apply List.filter_eq_nil_iff.2
      intro b hb hPb
      have := hx b hb hPb
      rw [hP] at this
      exact absurd this (by simp)

/-- The loop of the binary-search branch: the ids of the leading run of words that
start with the prefix, without those below `min_wid`. -/
theorem collect_loop_eq (d : Dictionary) (p : WString) (m : Nat) :
    ∀ (l out : List Nat), d.collect_loop p p.length m l out =
      out ++ (l.takeWhile (fun wid => decide (p <+: d.words.getD wid []))).filter
        (fun wid => decide (m ≤ wid)) := by
  intro l
  induction l with
  | nil => intro out; simp [Dictionary.collect_loop]
  | cons x l ih =>
    intro out
    simp only [Dictionary.collect_loop]
    by_cases hx : p <+: d.words.getD x []
    · have h0 : wcsncmp (d.words.getD x []) p p.length = 0 := (wcsncmp_eq_zero_iff _ _).2 hx
      rw [if_neg (fun hne => hne h0), List.takeWhile_cons_of_pos (by simpa using hx)]
      by_cases hm : m ≤ x
      · rw [if_pos hm, ih, List.filter_cons_of_pos (by simpa using hm)]
        simp
      · rw [if_neg hm, ih, List.filter_cons_of_neg (by simpa using hm)]
    · have h0 : wcsncmp (d.words.getD x []) p p.length ≠ 0 :=
        fun h => hx ((wcsncmp_eq_zero_iff _ _).1 h)
      rw [if_pos h0, List.takeWhile_cons_of_neg (by simpa using hx)]
      simp

/-- When the sorted index is in word order, the binary-search branch of `prefix_search`
collects, in the order of the sorted index, the ids not below `min_wid` whose word
starts with the prefix. -/
theorem prefix_search_binary_eq (E : Env) {d : Dictionary}
    (hs : (d.sorted.map (fun wid => d.words.getD wid [])).Pairwise (fun a b => wcscmp a b ≤ 0))
    (p : WString) (out : List Nat) (options : Nat) (hp : p ≠ [])
    (hopt : options &&& E.flags.FILTER_OPTIONS = 0) :
    d.prefix_search E (some p) none out options =
      out ++ (d.sorted.filter (fun wid => decide (p <+: d.words.getD wid []))).filter
        (fun wid => decide
          ((if isSet options E.flags.INCLUDE_CONTROL_WORDS then 0 else NUM_CONTROL_WORDS) ≤ wid)) := by
  obtain ⟨hlo, hhi⟩ := search_index_mem hs p
  have hlen : ¬ wcslen p = 0 := by
    unfold wcslen
    intro h0
    exact hp (List.length_eq_zero.1 h0)
  have hset : isSet options E.flags.FILTER_OPTIONS = false := by
    unfold isSet
    simp [hopt]
  simp only [Dictionary.prefix_search, hlen, hset, false_or, Bool.false_eq_true, if_false,
    Option.getD_some]
  unfold wcslen
  rw [collect_loop_eq]
  congr 2
  have hsplit : d.sorted.filter (fun wid => decide (p <+: d.words.getD wid [])) =
      (d.sorted.drop (d.search_index p)).filter
        (fun wid => decide (p <+: d.words.getD wid [])) := by
    conv => lhs; rw [← List.take_append_drop (d.search_index p) d.sorted]
    rw [List.filter_append]
    have : (d.sorted.take (d.search_index p)).filter
        (fun wid => decide (p <+: d.words.getD wid [])) = [] := by
      apply List.filter_eq_nil_iff.2
      intro a ha hpa
      have hpa2 : p <+: d.words.getD a [] := by simpa using hpa
      have h1 := wcscmp_of_isPrefix hpa2
      have h2 := wcscmp_neg_iff_pos.1 (hlo a ha)
      omega
    rw [this, List.nil_append]
  rw [hsplit]
  symm
  apply filter_eq_takeWhile
  have hord : (d.sorted.drop (d.search_index p)).Pairwise
      (fun a b => wcscmp (d.words.getD a []) (d.words.getD b []) ≤ 0) :=
    (List.pairwise_map.1 hs).sublist (List.drop_sublist _ _)
  refine hord.imp_of_mem ?_
  intro a b ha _ hab hpb
  have hpb2 : p <+: d.words.getD b [] := by simpa using hpb
  have hpa : wcscmp p (d.words.getD a []) ≤ 0 := by
    have h1 := hhi a ha
    by_contra hgt
    exact h1 (wcscmp_neg_iff_pos.2 (by omega))
  simpa using isPrefix_of_between hpa hab hpb2

/-! ## `stable_argsort_desc` rearranges -/

theorem cons_set_perm {β : Type} (x : β) :
    ∀ (l : List β) (j : Nat) (d : β), j < l.length → (l.getD j d :: l.set j x).Perm (x :: l) := by
  intro l
  induction l with
  | nil => intro j d h; simp at h
  | cons y t ih =>
    intro j d h
    cases j with
    | zero =>
      simp only [List.getD_cons_zero, List.set_cons_zero]
      exact List.Perm.swap x y t
    | succ k =>
      simp only [List.getD_cons_succ, List.set_cons_succ]
      simp only [List.length_cons] at h
      exact (List.Perm.swap y (t.getD k d) _).trans
        (((ih k d (by omega)).cons y).trans (List.Perm.swap x y t))

/-- Exchanging two entries of a vector permutes it. -/
theorem swap_perm {β : Type} (d : β) :
    ∀ (l : List β) (i j : Nat), i < j → j < l.length →
      ((l.set j (l.getD i d)).set i (l.getD j d)).Perm l := by
  intro l
  induction l with
  | nil => intro i j _ h; simp at h
  | cons y t ih =>
    intro i j hij h
    simp only [List.length_cons] at h
    obtain ⟨k, rfl⟩ : ∃ k, j = k + 1 := ⟨j - 1, by omega⟩
    cases i with
    | zero =>
      simp only [List.getD_cons_zero, List.getD_cons_succ, List.set_cons_succ,
        List.set_cons_zero]
      exact cons_set_perm y t k d (by omega)
    | succ i =>
      simp only [List.getD_cons_succ, List.set_cons_succ]
      exact (ih i k (by omega) (by omega)).cons y

section ArgsortProofs

variable {α : Type} [LT α] [DecidableRel (fun a b : α => a < b)] [Inhabited α]

theorem argsort_inner_perm (cmp : List α) (gap : Nat) (hgap : 0 < gap) :
    ∀ (fuel j : Nat) (v : List Nat), j + gap < v.length →
      (argsort_inner cmp gap fuel j v).Perm v := by
  intro fuel
  induction fuel with
  | zero => intro j v _; exact List.Perm.refl _
  | succ fuel ih =>
    intro j v hj
    simp only [argsort_inner]
    have hswap := swap_perm 0 v j (j + gap) (by omega) hj
    split
    · split
      · refine (ih (j - gap) _ ?_).trans hswap
        simp only [List.length_set]
        omega
      · exact hswap
    · exact List.Perm.refl _

theorem argsort_pass_perm (cmp : List α) (n gap : Nat) (hgap : 0 < gap) (v : List Nat)
    (hv : v.length = n) : (argsort_pass cmp n gap v).Perm v := by
  unfold argsort_pass
  have key : ∀ (l : List Nat), (∀ i ∈ l, gap ≤ i ∧ i < n) → ∀ w : List Nat, w.length = n →
      (l.foldl (fun v i => argsort_inner cmp gap (i + 1) (i - gap) v) w).Perm w := by
    intro l
    induction l with
    | nil => intro _ w _; exact List.Perm.refl _
    | cons i l ih =>
      intro hl w hw
      simp only [List.foldl_cons]
      have hi := hl i (List.mem_cons_self _ _)
      have h1 : (argsort_inner cmp gap (i + 1) (i - gap) w).Perm w :=
        argsort_inner_perm cmp gap hgap (i + 1) (i - gap) w (by omega)
      exact (ih (fun x hx => hl x (List.mem_cons_of_mem _ hx)) _
        (h1.length_eq.trans hw)).trans h1
  apply key _ _ v hv
  intro i hi
  rw [List.mem_range'_1] at hi
  omega

theorem argsort_gaps_perm (cmp : List α) (n : Nat) :
    ∀ (fuel gap : Nat) (v : List Nat), v.length = n →
      (argsort_gaps cmp n fuel gap v).Perm v := by
  intro fuel
  induction fuel with
  | zero => intro gap v _; exact List.Perm.refl _
  | succ fuel ih =>
    intro gap v hv
    simp only [argsort_gaps]
    split
    · next hgap =>
      have h1 := argsort_pass_perm cmp n gap hgap v hv
      exact (ih _ _ (h1.length_eq.trans hv)).trans h1
    · exact List.Perm.refl _

/-- The call `stable_argsort_desc(v, cmp)` only rearranges `v`. -/
theorem stable_argsort_desc_perm (v : List Nat) (cmp : List α) :
    (stable_argsort_desc v cmp).Perm v :=
  argsort_gaps_perm cmp v.length v.length (v.length / 2) v rfl

end ArgsortProofs

/-! ## `stable_argsort_desc` ranks -/

theorem adjacent_getD (l : List Nat) (a x : Nat) (r : List Nat) :
    (l ++ a :: x :: r).getD l.length 0 = a ∧ (l ++ a :: x :: r).getD (l.length + 1) 0 = x := by
  constructor
  · rw [List.getD_append_right _ _ _ _ (le_refl _)]
    simp
  · rw [List.getD_append_right _ _ _ _ (by omega)]
    simp

theorem adjacent_swap (l : List Nat) (a x : Nat) (r : List Nat) :
    ((l ++ a :: x :: r).set (l.length + 1) a).set l.length x = l ++ x :: a :: r := by
  rw [List.set_append_right _ _ (by omega)]
  rw [List.set_append_right _ _ (by simp)]
  simp

theorem exists_concat_of_length_pos (l : List Nat) (h : 1 ≤ l.length) :
    ∃ L b, l = L ++ [b] := by
  rcases List.eq_nil_or_concat l with rfl | ⟨L, b, rfl⟩
  · simp at h
  · exact ⟨L, b, by simp⟩

section ArgsortSorted

variable {α : Type} [LinearOrder α] [Inhabited α]

/-- The inner loop at gap 1 inserts the entry after a ranked run into the run. -/
theorem argsort_inner_one (cmp : List α) :
    ∀ (fuel : Nat) (l : List Nat) (a x : Nat) (r : List Nat), l.length < fuel →
      RankedDesc cmp (l ++ [a]) →
      ∃ pre, argsort_inner cmp 1 fuel l.length (l ++ a :: x :: r) = pre ++ r ∧
        pre.Perm (l ++ [a, x]) ∧ RankedDesc cmp pre := by
  intro fuel
  induction fuel with
  | zero => intro l a x r h; omega
  | succ fuel ih =>
    intro l a x r hfuel hl
    obtain ⟨hg1, hg2⟩ := adjacent_getD l a x r
    have hla : ∀ y ∈ l, cmp.getD a default ≤ cmp.getD y default := by
      intro y hy
      exact (List.pairwise_append.1 hl).2.2 y hy a (List.mem_singleton.2 rfl)
    simp only [argsort_inner, hg1, hg2, adjacent_swap]
    split
    · next hlt =>
      split
      · next hj =>
        obtain ⟨L, b, rfl⟩ := exists_concat_of_length_pos l hj
        have hlen : (L ++ [b]).length - 1 = L.length := by simp
        have hrank : RankedDesc cmp (L ++ [b]) := (List.pairwise_append.1 hl).1
        obtain ⟨pre, hpre, hperm, hr⟩ := ih L b x (a :: r) (by
          simp only [List.length_append, List.length_singleton] at hfuel
          omega) hrank
        refine ⟨pre ++ [a], ?_, ?_, ?_⟩
        · rw [hlen]
          simp only [List.append_assoc, List.singleton_append] at hpre ⊢
          exact hpre
        · have h1 : (pre ++ [a]).Perm ((L ++ [b, x]) ++ [a]) := hperm.append_right _
          refine h1.trans ?_
          simp only [List.append_assoc, List.cons_append, List.nil_append]
          exact List.Perm.append_left L (List.Perm.cons b (List.Perm.swap a x []))
        · refine List.pairwise_append.2 ⟨hr, List.pairwise_singleton _ _, ?_⟩
          intro y hy z hz
          rw [List.mem_singleton] at hz
          subst hz
          have hy2 := hperm.mem_iff.1 hy
          simp only [List.mem_append, List.mem_cons, List.mem_singleton, List.not_mem_nil,
            or_false] at hy2
          rcases hy2 with hy2 | rfl | rfl
          · exact hla y (List.mem_append_left _ hy2)
          · exact hla y (List.mem_append_right _ (List.mem_singleton.2 rfl))
          · exact le_of_lt hlt
      · next hj =>
        have hnil : l = [] := List.length_eq_zero.1 (by omega)
        subst hnil
        refine ⟨[x, a], by simp, List.Perm.swap a x [], ?_⟩
        simp only [RankedDesc, List.pairwise_cons, List.mem_singleton, forall_eq,
          List.not_mem_nil, false_implies, implies_true, List.Pairwise.nil, and_true]
        exact le_of_lt hlt
    · next hge =>
      refine ⟨l ++ [a, x], by simp, List.Perm.refl _, ?_⟩
      have h2 : l ++ [a, x] = (l ++ [a]) ++ [x] := by simp
      rw [h2]
      refine List.pairwise_append.2 ⟨hl, List.pairwise_singleton _ _, ?_⟩
      intro y hy z hz
      rw [List.mem_singleton] at hz
      subst hz
      have hax : cmp.getD z default ≤ cmp.getD a default := not_lt.1 hge
      rcases List.mem_append.1 hy with hy | hy
      · exact le_trans hax (hla y hy)
      · rw [List.mem_singleton] at hy
        subst hy
        exact hax

/-- The pass with gap 1 is an insertion sort: it ranks the whole vector. -/
theorem argsort_pass_one_ranked (cmp : List α) (n : Nat) (v : List Nat) (hv : v.length = n) :
    RankedDesc cmp (argsort_pass cmp n 1 v) := by
  have key : ∀ (m i : Nat) (w : List Nat), 1 ≤ i → i + m = n → w.length = n →
      RankedDesc cmp (w.take i) →
      RankedDesc cmp ((List.range' i m).foldl
        (fun v i => argsort_inner cmp 1 (i + 1) (i - 1) v) w) := by
    intro m
    induction m with
    | zero =>
      intro i w _ him hw hr
      rw [List.take_of_length_le (by omega)] at hr
      simpa using hr
    | succ m ih =>
      intro i w hi him hw hr
      rw [List.range'_succ, List.foldl_cons]
      have htake : (w.take i).length = i := by
        rw [List.length_take]
        omega
      obtain ⟨l, a, hla⟩ := exists_concat_of_length_pos (w.take i) (by omega)
      have hdrop : (w.drop i).length = m + 1 := by
        rw [List.length_drop]
        omega
      obtain ⟨x, r, hxr⟩ : ∃ x r, w.drop i = x :: r := by
        cases hd : w.drop i with
        | nil => rw [hd] at hdrop; simp at hdrop
        | cons x r => exact ⟨x, r, rfl⟩
      have hw2 : w = l ++ a :: x :: r := by
        rw [← List.take_append_drop i w, hla, hxr]
        simp
      have hl : l.length = i - 1 := by
        have := congrArg List.length hla
        rw [htake] at this
        simp only [List.length_append, List.length_singleton] at this
        omega
      rw [hla] at hr
      obtain ⟨pre, hpre, hperm, hrank⟩ := argsort_inner_one cmp (i + 1) l a x r (by omega) hr
      subst hw2
      rw [← hl, hpre]
      have hprelen : pre.length = i + 1 := by
        rw [hperm.length_eq]
        simp only [List.length_append, List.length_cons, List.length_nil]
        omega
      apply ih (i + 1) (pre ++ r) (by omega) (by omega)
      · simp only [List.length_append, List.length_cons] at hw ⊢
        omega
      · rw [List.take_left' hprelen]
        exact hrank
  unfold argsort_pass
  rcases Nat.lt_or_ge n 2 with hn | hn
  · have h0 : n - 1 = 0 := by omega
    rw [h0]
    simp only [List.range'_zero, List.foldl_nil]
    unfold RankedDesc
    match v, hv with
    | [], _ => exact List.Pairwise.nil
    | [a], _ => exact List.pairwise_singleton _ _
    | a :: b :: t, hv => simp only [List.length_cons] at hv; omega
  · apply key (n - 1) 1 v (le_refl _) (by omega) hv
    match v, hv with
    | [], hv => simp at hv; omega
    | a :: t, _ => simp [RankedDesc]

theorem argsort_gaps_ranked (cmp : List α) (n : Nat) :
    ∀ (fuel gap : Nat) (v : List Nat), 1 ≤ gap → gap ≤ fuel → v.length = n →
      RankedDesc cmp (argsort_gaps cmp n fuel gap v) := by
  intro fuel
  induction fuel with
  | zero => intro gap v h1 h2; omega
  | succ fuel ih =>
    intro gap v h1 h2 hv
    simp only [argsort_gaps, shiftRight_one_eq]
    rw [if_pos (by omega)]
    have hlen : (argsort_pass cmp n gap v).length = n :=
      (argsort_pass_perm cmp n gap (by omega) v hv).length_eq.trans hv
    rcases Nat.lt_or_ge gap 2 with hg | hg
    · have hg1 : gap = 1 := by omega
      subst hg1
      have hr := argsort_pass_one_ranked cmp n v hv
      cases fuel with
      | zero => simpa [argsort_gaps] using hr
      | succ f => simpa [argsort_gaps] using hr
    · exact ih (gap / 2) _ (by omega) (by omega) hlen

/-- The call `stable_argsort_desc(v, cmp)` leaves `v` ranked by descending score. -/
theorem stable_argsort_desc_ranked (v : List Nat) (cmp : List α) :
    RankedDesc cmp (stable_argsort_desc v cmp) := by
  unfold stable_argsort_desc
  rcases Nat.lt_or_ge v.length 2 with hn | hn
  · have h0 : v.length / 2 = 0 := by omega
    rw [h0]
    match v, hn with
    | [], _ => simp [argsort_gaps, RankedDesc]
    | [a], _ => simp [argsort_gaps, RankedDesc]
    | a :: b :: t, hn => simp only [List.length_cons] at hn; omega
  · exact argsort_gaps_ranked cmp v.length v.length (v.length / 2) v (by omega) (by omega) rfl

end ArgsortSorted

section ArgsortFuel

variable {α : Type} [LT α] [DecidableRel (fun a b : α => a < b)] [Inhabited α]

/-- The inner loop of `stable_argsort_desc` has ended before its bound is used up. -/
theorem argsort_inner_fuel (cmp : List α) (gap : Nat) (hgap : 0 < gap) :
    ∀ (fuel fuel2 j : Nat) (v : List Nat), j < fuel → j < fuel2 →
      argsort_inner cmp gap fuel j v = argsort_inner cmp gap fuel2 j v := by
  intro fuel
  induction fuel with
  | zero => intro fuel2 j v h; omega
  | succ fuel ih =>
    intro fuel2 j v h1 h2
    cases fuel2 with
    | zero => omega
    | succ f =>
      simp only [argsort_inner]
      split
      · split
        · exact ih f _ _ (by omega) (by omega)
        · rfl
      · rfl

/-- The outer loop of `stable_argsort_desc` has ended before its bound is used up. -/
theorem argsort_gaps_fuel (cmp : List α) (n : Nat) :
    ∀ (fuel fuel2 gap : Nat) (v : List Nat), gap ≤ fuel → gap ≤ fuel2 →
      argsort_gaps cmp n fuel gap v = argsort_gaps cmp n fuel2 gap v := by
  intro fuel
  induction fuel with
  | zero =>
    intro fuel2 gap v h1 _
    have h0 : gap = 0 := by omega
    subst h0
    cases fuel2 <;> simp [argsort_gaps]
  | succ fuel ih =>
    intro fuel2 gap v h1 h2
    cases fuel2 with
    | zero =>
      have h0 : gap = 0 := by omega
      subst h0
      simp [argsort_gaps]
    | succ f =>
      simp only [argsort_gaps, shiftRight_one_eq]
      split
      · exact ih f _ _ (by omega) (by omega)
      · rfl

end ArgsortFuel

theorem map_range_getD {β : Type} (g : Nat → β) :
    ∀ (k : Nat) (l : List Nat), k ≤ l.length →
      (List.range k).map (fun i => g (l.getD i 0)) = (l.take k).map g := by
  intro k
  induction k with
  | zero => intro l _; simp
  | succ k ih =>
    intro l hk
    rw [List.range_succ, List.map_append, ih l (by omega)]
    have hlt : k < l.length := by omega
    rw [List.take_succ, List.getElem?_eq_getElem hlt, List.map_append]
    simp only [List.map_cons, List.map_nil, Option.toList, List.getD_eq_getElem _ _ hlt]

/-! ## The result list of `predict` -/

theorem split_context_append (hist : List WString) (p : WString) :
    LanguageModel.split_context (hist ++ [p]) = (hist, p) := by
  unfold LanguageModel.split_context
  simp only [List.length_append, List.length_singleton, Nat.add_sub_cancel]
  rw [List.take_left, List.getD_append_right _ _ _ _ (le_refl _)]
  simp

section PredictProofs

variable {P : Type} [LT P] [DecidableRel (fun a b : P => a < b)] [Inhabited P]

/-- For a non-empty context `predict` reports the first `result_size` positions of the
ranking of the candidates (of the candidate list itself under NO_SORT), each as the word
and the probability of that position. -/
theorem predict_eq_map (E : Env) (m : LanguageModel P) (results : List (Result P))
    (context : List WString) (limit : Int) (options : Nat) (wids : List Nat) (probs : List P)
    (hctx : context ≠ [])
    (hwids : m.get_candidates (m.words_to_ids (LanguageModel.split_context context).1)
      (LanguageModel.split_context context).2 options = wids)
    (hprobs : m.get_probs (m.words_to_ids (LanguageModel.split_context context).1) wids = probs) :
    m.predict E results context limit options =
      ((if isSet options E.flags.NO_SORT then List.range wids.length
          else stable_argsort_desc (List.range wids.length) probs).take
        (if 0 ≤ limit then min limit.toNat wids.length else wids.length)).map
        (fun j => Result.mk (m.id_to_word (wids.getD j 0)) (probs.getD j default)) := by
  have hne : ¬ context.length = 0 := fun h => hctx (List.length_eq_zero.1 h)
  have hsize : (if 0 ≤ limit ∧ limit < (wids.length : Int) then limit.toNat else wids.length)
      = (if 0 ≤ limit then min limit.toNat wids.length else wids.length) := by
    split <;> split <;> omega
  have hk : (if 0 ≤ limit then min limit.toNat wids.length else wids.length) ≤ wids.length := by
    split <;> omega
  simp only [LanguageModel.predict, hne, if_false, hwids, hprobs, hsize]
  cases hs : isSet options E.flags.NO_SORT with
  | true =>
    simp only [not_true_eq_false, if_false, if_true]
    rw [List.take_range, Nat.min_eq_left hk]
  | false =>
    simp only [Bool.false_eq_true, not_false_eq_true, if_true, if_false]
    exact map_range_getD
      (fun j => Result.mk (m.id_to_word (wids.getD j 0)) (probs.getD j default)) _ _
      (by rw [(stable_argsort_desc_perm _ _).length_eq, List.length_range]; exact hk)

/-- The positions that `predict` reports are a permutation of all candidate positions,
cut off at the result size. -/
theorem predict_order_perm (E : Env) (options : Nat) (wids : List Nat) (probs : List P) :
    (if isSet options E.flags.NO_SORT then List.range wids.length
      else stable_argsort_desc (List.range wids.length) probs).Perm (List.range wids.length) := by
  split
  · exact List.Perm.refl _
  · exact stable_argsort_desc_perm _ _

end PredictProofs

/-! ## `LanguageModel::word_to_id` -/

/-- The method `LanguageModel::word_to_id` never returns WIDNONE. -/
theorem lm_word_to_id_ne_widnone {P : Type} (m : LanguageModel P) (w : WString) :
    m.word_to_id w ≠ WIDNONE := by
  unfold LanguageModel.word_to_id
  simp only
  split
  · decide
  · next h => exact h

/-- On a valid dictionary of at most 65535 words a stored word keeps its dictionary id. -/
theorem lm_word_to_id_stored {P : Type} (m : LanguageModel P) (hv : m.dictionary.Valid)
    (hsize : m.dictionary.words.length ≤ 65535) {w : WString} (hw : w ∈ m.dictionary.words) :
    m.word_to_id w = m.dictionary.word_to_id w ∧
      m.dictionary.id_to_word (m.word_to_id w) = some w := by
  obtain ⟨A, B, hAB, hB⟩ := exists_last_occurrence hw
  have hid := word_to_id_last hv hAB hB
  have hlt : A.length < m.dictionary.words.length := by
    rw [hAB]
    simp
  have hne : m.dictionary.word_to_id w ≠ WIDNONE := by
    rw [hid]
    unfold WIDNONE
    omega
  have heq : m.word_to_id w = m.dictionary.word_to_id w := by
    unfold LanguageModel.word_to_id
    simp only
    rw [if_neg hne]
  refine ⟨heq, ?_⟩
  rw [heq, hid]
  unfold Dictionary.id_to_word
  rw [if_pos hlt, hAB, List.getD_append_right _ _ _ _ (le_refl _)]
  simp

/-- On a valid dictionary a word that is not stored resolves to UNKNOWN_WORD_ID. -/
theorem lm_word_to_id_unknown {P : Type} (m : LanguageModel P) (hv : m.dictionary.Valid)
    {w : WString} (hw : w ∉ m.dictionary.words) : m.word_to_id w = UNKNOWN_WORD_ID := by
  unfold LanguageModel.word_to_id
  simp only
  rw [if_pos (word_to_id_none hv hw)]

theorem predict_calls_append {P : Type} (m : LanguageModel P) (hist : List WString)
    (p : WString) (options : Nat) :
    m.predict_calls (hist ++ [p]) options =
      [BackendCall.get_candidates (hist.map m.word_to_id) p options,
        BackendCall.get_probs (hist.map m.word_to_id)
          (m.get_candidates (hist.map m.word_to_id) p options)] := by
  unfold LanguageModel.predict_calls
  rw [if_neg (by simp)]
  simp only [split_context_append, LanguageModel.words_to_ids]

/-! ## `lookup_word` -/

/-- When the sorted index is in word order, the words that start with `p` form the run
that begins at `search_index(p)`. -/
theorem prefix_run_eq_filter {d : Dictionary}
    (hs : (d.sorted.map (fun wid => d.words.getD wid [])).Pairwise (fun a b => wcscmp a b ≤ 0))
    (p : WString) :
    (d.sorted.drop (d.search_index p)).takeWhile (fun wid => decide (p <+: d.words.getD wid []))
      = d.sorted.filter (fun wid => decide (p <+: d.words.getD wid [])) := by
  obtain ⟨hlo, hhi⟩ := search_index_mem hs p
  have hsplit : d.sorted.filter (fun wid => decide (p <+: d.words.getD wid [])) =
      (d.sorted.drop (d.search_index p)).filter
        (fun wid => decide (p <+: d.words.getD wid [])) := by
    conv => lhs; rw [← List.take_append_drop (d.search_index p) d.sorted]
    rw [List.filter_append]
    have hnil : (d.sorted.take (d.search_index p)).filter
        (fun wid => decide (p <+: d.words.getD wid [])) = [] := by
      apply List.filter_eq_nil_iff.2
      intro a ha hpa
      have hpa2 : p <+: d.words.getD a [] := by simpa using hpa
      have h1 := wcscmp_of_isPrefix hpa2
      have h2 := wcscmp_neg_iff_pos.1 (hlo a ha)
      omega
    rw [hnil, List.nil_append]
  rw [hsplit]
  symm
  apply filter_eq_takeWhile
  have hord : (d.sorted.drop (d.search_index p)).Pairwise
      (fun a b => wcscmp (d.words.getD a []) (d.words.getD b []) ≤ 0) :=
    (List.pairwise_map.1 hs).sublist (List.drop_sublist _ _)
  refine hord.imp_of_mem ?_
  intro a b ha _ hab hpb
  have hpb2 : p <+: d.words.getD b [] := by simpa using hpb
  have hpa : wcscmp p (d.words.getD a []) ≤ 0 := by
    have h1 := hhi a ha
    by_contra hgt
    exact h1 (wcscmp_neg_iff_pos.2 (by omega))
  simpa using isPrefix_of_between hpa hab hpb2

/-- The counting loop of `lookup_word` adds the length of the leading run of words that
start with the query. -/
theorem count_loop_eq (d : Dictionary) (w : WString) :
    ∀ (l : List Nat) (c : Nat), d.count_loop w w.length l c =
      c + (l.takeWhile (fun wid => decide (w <+: d.words.getD wid []))).length := by
  intro l
  induction l with
  | nil => intro c; simp [Dictionary.count_loop]
  | cons x l ih =>
    intro c
    simp only [Dictionary.count_loop]
    by_cases hx : w <+: d.words.getD x []
    · have h0 : wcsncmp (d.words.getD x []) w w.length = 0 := (wcsncmp_eq_zero_iff _ _).2 hx
      rw [if_neg (fun hne => hne h0), List.takeWhile_cons_of_pos (by simpa using hx), ih]
      simp only [List.length_cons]
      omega
    · have h0 : wcsncmp (d.words.getD x []) w w.length ≠ 0 :=
        fun h => hx ((wcsncmp_eq_zero_iff _ _).1 h)
      rw [if_pos h0, List.takeWhile_cons_of_neg (by simpa using hx)]
      simp

/-- On a sorted index that holds every id, `search_index(w)` points at a word equal to
`w` exactly when `w` is stored. -/
theorem search_index_hit_iff {d : Dictionary}
    (hperm : d.sorted.Perm (List.range d.words.length))
    (hs : (d.sorted.map (fun wid => d.words.getD wid [])).Pairwise (fun a b => wcscmp a b ≤ 0))
    (w : WString) :
    (d.search_index w < d.sorted.length ∧
      wcscmp (d.words.getD (d.sorted.getD (d.search_index w) 0) []) w = 0) ↔ w ∈ d.words := by
  obtain ⟨hlo, hhi⟩ := search_index_spec d w (keys_of_sorted_words hs)
  constructor
  · rintro ⟨hr, h0⟩
    have hw := wcscmp_eq_zero.1 h0
    rw [List.getD_eq_getElem _ _ hr] at hw
    have hlt : d.sorted[d.search_index w] < d.words.length :=
      List.mem_range.1 (hperm.mem_iff.1 (List.getElem_mem hr))
    rw [List.getD_eq_getElem _ _ hlt] at hw
    exact hw ▸ List.getElem_mem _
  · intro hw
    obtain ⟨id, hid, hwid⟩ := List.mem_iff_getElem.1 hw
    have hmem : id ∈ d.sorted := hperm.mem_iff.2 (List.mem_range.2 hid)
    obtain ⟨p, hp, hpid⟩ := List.mem_iff_getElem.1 hmem
    have hkp : d.keyAt p = w := by
      rw [Dictionary.keyAt_eq hp, hpid, List.getD_eq_getElem _ _ hid, hwid]
    have hrp : d.search_index w ≤ p := by
      by_contra hlt
      have := hlo p (by omega)
      rw [hkp, wcscmp_self] at this
      omega
    have hr : d.search_index w < d.sorted.length := by omega
    refine ⟨hr, ?_⟩
    have hkr : d.keyAt (d.search_index w) = w := by
      apply wcscmp_le_antisymm
      · have := keys_of_sorted_words hs (d.search_index w) p hrp hp
        rwa [hkp] at this
      · have := hhi (d.search_index w) (le_refl _) hr
        by_contra hgt
        exact this (wcscmp_neg_iff_pos.2 (by omega))
    unfold Dictionary.keyAt at hkr
    rw [hkr, wcscmp_self]

/-- Counting over the ids `0 .. n-1` is counting over the stored words. -/
theorem countP_range_words (Q : WString → Bool) (words : List WString) :
    (List.range words.length).countP (fun i => Q (words.getD i [])) = words.countP Q := by
  induction words using List.reverseRecOn with
  | nil => rfl
  | append_singleton ws x ih =>
    rw [List.length_append, List.length_singleton, List.range_succ, List.countP_append,
      List.countP_append]
    congr 1
    · rw [← ih]
      apply List.countP_congr
      intro i hi
      rw [List.getD_append _ _ _ _ (List.mem_range.1 hi)]
    · simp only [List.countP_cons, List.countP_nil]
      rw [List.getD_append_right _ _ _ _ (le_refl _)]
      simp

/-! ## `PrefixCmp::matches` -/

theorem isSet_eq_true_iff (options flag : Nat) : isSet options flag = true ↔ options &&& flag ≠ 0 := by
  unfold isSet
  simp

theorem headD_eq_getD (s : WString) : s.headD 0 = s.getD 0 0 := by
  cases s <;> rfl

theorem tail_getD (s : WString) (i : Nat) : s.tail.getD i 0 = s.getD (i + 1) 0 := by
  cases s with
  | nil => rfl
  | cons a t => rfl

/-- The folding of the NUL character is NUL when `towlower` maps NUL to NUL. -/
theorem fold_zero (E : Env) (options : Nat) (h0 : E.towlower 0 = 0) :
    PrefixCmp.fold E options 0 = 0 := by
  unfold PrefixCmp.fold
  simp only [h0, ite_self]
  split
  · unfold op_remove_accent
    simp
  · rfl

/-- The constructor folds every character of the prefix as `matches` folds the
characters of the word. -/
theorem new_pfx (E : Env) (p : WString) (options : Nat) :
    (PrefixCmp.new E (some p) options).pfx = p.map (PrefixCmp.fold E options) ∧
    (PrefixCmp.new E (some p) options).options = options := by
  unfold PrefixCmp.new PrefixCmp.fold op_lower
  refine ⟨?_, rfl⟩
  simp only
  cases isSet options E.flags.CASE_INSENSITIVE <;>
    cases isSet options E.flags.ACCENT_INSENSITIVE <;> simp

/-- The comparison loop of `matches`, run for `n + 1` characters, succeeds exactly when
each folded character of the word is not NUL and equals the character of the prefix. -/
theorem matches_loop_iff (E : Env) (options : Nat) :
    ∀ (n : Nat) (s p : WString), PrefixCmp.matches_loop E options n s p = true ↔
      ∀ i, i ≤ n → PrefixCmp.fold E options (s.getD i 0) ≠ 0 ∧
        PrefixCmp.fold E options (s.getD i 0) = p.getD i 0 := by
  intro n
  induction n with
  | zero =>
    intro s p
    rw [PrefixCmp.matches_loop, headD_eq_getD, headD_eq_getD]
    constructor
    · intro h
      split at h
      · exact absurd h (by simp)
      · next hc =>
        intro i hi
        have hi0 : i = 0 := by omega
        subst hi0
        rw [not_or, not_not] at hc
        exact hc
    · intro h
      obtain ⟨h1, h2⟩ := h 0 (le_refl _)
      rw [if_neg (by rw [not_or, not_not]; exact ⟨h1, h2⟩)]
      simpa using h2
  | succ n ih =>
    intro s p
    rw [PrefixCmp.matches_loop, headD_eq_getD, headD_eq_getD]
    constructor
    · intro h
      split at h
      · exact absurd h (by simp)
      · next hc =>
        rw [not_or, not_not] at hc
        have hrest := (ih s.tail p.tail).1 h
        intro i hi
        cases i with
        | zero => exact hc
        | succ j =>
          have := hrest j (by omega)
          rwa [tail_getD, tail_getD] at this
    · intro h
      obtain ⟨h1, h2⟩ := h 0 (Nat.zero_le _)
      rw [if_neg (by rw [not_or, not_not]; exact ⟨h1, h2⟩)]
      apply (ih s.tail p.tail).2
      intro i hi
      rw [tail_getD, tail_getD]
      exact h (i + 1) (by omega)

/-! ## Accent folding -/

/-- The binary search of `lookup_transform` stays between its bounds. -/
theorem lookup_loop_bounds (table : List (Nat × Nat)) (c : Nat) :
    ∀ (fuel lo hi : Nat), lo ≤ hi →
      lo ≤ lookup_loop table c fuel lo hi ∧ lookup_loop table c fuel lo hi ≤ hi := by
  intro fuel
  induction fuel with
  | zero => intro lo hi h; simp [lookup_loop, h]
  | succ fuel ih =>
    intro lo hi h
    rw [lookup_loop]
    split
    · next hlt =>
      have hmid : (lo + hi) >>> 1 = (lo + hi) / 2 := shiftRight_one_eq _
      simp only [hmid]
      split
      · have := ih ((lo + hi) / 2 + 1) hi (by omega)
        omega
      · have := ih lo ((lo + hi) / 2) (by omega)
        omega
    · omega

/-- In a table whose first column ascends strictly, a later entry has a larger first
column. -/
theorem table_mono (table : List (Nat × Nat))
    (hs : (table.map Prod.fst).Pairwise (fun a b => a < b)) :
    ∀ i j, i < j → j < table.length →
      (table.getD i (0, 0)).1 < (table.getD j (0, 0)).1 := by
  intro i j hij hj
  have hi : i < table.length := by omega
  have h := List.pairwise_iff_getElem.1 hs i j (by simpa using hi) (by simpa using hj) hij
  rw [List.getD_eq_getElem _ _ hj, List.getD_eq_getElem _ _ hi]
  simpa using h

/-- The binary search of `lookup_transform` returns a lower bound: every entry before the
result has a first column below `c`, no entry from the result on has one. -/
theorem lookup_loop_spec (table : List (Nat × Nat)) (c : Nat)
    (hs : (table.map Prod.fst).Pairwise (fun a b => a < b)) :
    ∀ (fuel lo hi : Nat), hi - lo ≤ fuel → lo ≤ hi → hi ≤ table.length →
      (∀ i, i < lo → (table.getD i (0, 0)).1 < c) →
      (∀ i, hi ≤ i → i < table.length → ¬ (table.getD i (0, 0)).1 < c) →
      (∀ i, i < lookup_loop table c fuel lo hi → (table.getD i (0, 0)).1 < c) ∧
      (∀ i, lookup_loop table c fuel lo hi ≤ i → i < table.length →
        ¬ (table.getD i (0, 0)).1 < c) := by
  have hmono := table_mono table hs
  intro fuel
  induction fuel with
  | zero =>
    intro lo hi hf hle _ hlo hhi
    have : lo = hi := by omega
    subst this
    simp only [lookup_loop]
    exact ⟨hlo, hhi⟩
  | succ fuel ih =>
    intro lo hi hf hle hlen hlo hhi
    rw [lookup_loop]
    split
    · next hlt =>
      have hmid : (lo + hi) >>> 1 = (lo + hi) / 2 := shiftRight_one_eq _
      simp only [hmid]
      split
      · next hc =>
        apply ih _ _ (by omega) (by omega) hlen
        · intro i hi2
          rcases Nat.lt_or_ge i ((lo + hi) / 2) with h | h
          · exact lt_trans (hmono i _ h (by omega)) hc
          · have : i = (lo + hi) / 2 := by omega
            subst this
            exact hc
        · exact hhi
      · next hc =>
        apply ih _ _ (by omega) (by omega) (by omega) hlo
        intro i hi2 hil
        rcases Nat.eq_or_lt_of_le hi2 with h | h
        · subst h
          exact hc
        · have := hmono _ i h hil
          omega
    · have : lo = hi := by omega
      subst this
      exact ⟨hlo, hhi⟩

/-- Code points up to 0x7F are returned before the table is looked at. -/
theorem op_remove_accent_ascii (E : Env) (c : Nat) (h : c ≤ 0x7f) : op_remove_accent E c = c := by
  unfold op_remove_accent
  rw [if_pos h]

/-- A code point above 0x7F that is a first-column entry of a strictly ascending table is
replaced by the second column of its pair. -/
theorem op_remove_accent_hit (E : Env) (c b : Nat)
    (hs : (E.accent_transform.map Prod.fst).Pairwise (fun a b => a < b))
    (hc : 0x7f < c) (hmem : (c, b) ∈ E.accent_transform) : op_remove_accent E c = b := by
  obtain ⟨k, hk, hkb⟩ := List.getElem_of_mem hmem
  have hkd : E.accent_transform.getD k (0, 0) = (c, b) := by
    rw [List.getD_eq_getElem _ _ hk, hkb]
  have hmono := table_mono E.accent_transform hs
  obtain ⟨h1, h2⟩ := lookup_loop_spec E.accent_transform c hs E.accent_transform.length 0
    E.accent_transform.length (by omega) (by omega) (le_refl _) (by intro i hi; omega)
    (by intro i hi hil; omega)
  have hr : lookup_transform c E.accent_transform E.accent_transform.length = k := by
    unfold lookup_transform
    rcases Nat.lt_trichotomy (lookup_loop E.accent_transform c E.accent_transform.length 0
      E.accent_transform.length) k with h | h | h
    · have := hmono _ k h hk
      rw [hkd] at this
      exact absurd this (h2 _ (le_refl _) (by omega))
    · exact h
    · have := h1 k h
      rw [hkd] at this
      simp at this
  unfold op_remove_accent
  rw [if_neg (by omega)]
  simp only [hr, hkd]
  rw [if_pos ⟨hk, trivial⟩]

/-- A code point above 0x7F that is no first-column entry of the table is returned
unchanged. -/
theorem op_remove_accent_miss (E : Env) (c : Nat)
    (hmem : c ∉ E.accent_transform.map Prod.fst) : op_remove_accent E c = c := by
  unfold op_remove_accent
  split
  · rfl
  · simp only
    split
    · next h =>
      exfalso
      apply hmem
      rw [List.getD_eq_getElem _ _ h.1] at h
      rw [← h.2]
      exact List.mem_map_of_mem _ (List.getElem_mem _)
    · rfl

/-- When the capitalization gate lets the word pass, `matches` is decided by the length
of the prefix and the comparison loop. -/
theorem matches_gate_open (E : Env) (self : PrefixCmp) (w : WString)
    (hcap : ¬ (w.headD 0 ≠ 0 ∧ self.options &&& E.flags.IGNORE_CAPITALIZED ≠ 0 ∧
      E.iswupper (w.headD 0) = true))
    (hnon : ¬ (w.headD 0 ≠ 0 ∧ self.options &&& E.flags.IGNORE_NON_CAPITALIZED ≠ 0 ∧
      E.iswupper (w.headD 0) = false)) :
    self.matches E w =
      if self.pfx.length = 0 then true
      else PrefixCmp.matches_loop E self.options (self.pfx.length - 1) w self.pfx := by
  unfold PrefixCmp.matches
  simp only
  rw [if_neg (by
    rintro ⟨h1, h2, h3⟩
    exact hcap ⟨h1, (isSet_eq_true_iff _ _).1 h2, h3⟩)]
  rw [if_neg (by
    rintro ⟨h1, h2, h3⟩
    exact hnon ⟨h1, (isSet_eq_true_iff _ _).1 h2, by simpa using h3⟩)]

/-- A missing prefix is folded to the empty prefix. -/
theorem new_pfx_none (E : Env) (options : Nat) :
    (PrefixCmp.new E none options).pfx = [] ∧ (PrefixCmp.new E none options).options = options := by
  unfold PrefixCmp.new
  constructor
  · simp only
    split <;> split <;> rfl
  · rfl

/-- The folding of a character under the options, spelled out with the option tests. -/
theorem fold_eq (E : Env) (options c : Nat) :
    PrefixCmp.fold E options c =
      (if options &&& E.flags.ACCENT_INSENSITIVE ≠ 0 then
        op_remove_accent E (if options &&& E.flags.CASE_INSENSITIVE ≠ 0 then E.towlower c else c)
      else (if options &&& E.flags.CASE_INSENSITIVE ≠ 0 then E.towlower c else c)) := by
  unfold PrefixCmp.fold
  simp only [← isSet_eq_true_iff]

/-- With the capitalization gate open, `matches` succeeds when the folded word agrees with the folded
prefix on the length of the prefix and has no NUL there. -/
theorem matches_of_fold (E : Env) (p w : WString) (options : Nat)
    (hcap : ¬ (w.headD 0 ≠ 0 ∧ options &&& E.flags.IGNORE_CAPITALIZED ≠ 0 ∧
      E.iswupper (w.headD 0) = true))
    (hnon : ¬ (w.headD 0 ≠ 0 ∧ options &&& E.flags.IGNORE_NON_CAPITALIZED ≠ 0 ∧
      E.iswupper (w.headD 0) = false))
    (h : ∀ i, i < p.length → PrefixCmp.fold E options (w.getD i 0) ≠ 0 ∧
      PrefixCmp.fold E options (w.getD i 0) = PrefixCmp.fold E options (p.getD i 0)) :
    (PrefixCmp.new E (some p) options).matches E w = true := by
  obtain ⟨hpfx, hopt⟩ := new_pfx E p options
  rw [matches_gate_open E _ w (by rw [hopt]; exact hcap) (by rw [hopt]; exact hnon)]
  split
  · rfl
  · next hlen =>
    rw [hpfx, List.length_map] at hlen
    rw [hopt, matches_loop_iff, hpfx, List.length_map]
    intro i hi
    have hi2 : i < p.length := by omega
    refine ⟨(h i hi2).1, ?_⟩
    rw [(h i hi2).2, List.getD_eq_getElem _ _ hi2,
      List.getD_eq_getElem _ _ (show i < (p.map (PrefixCmp.fold E options)).length by
        simpa using hi2)]
    simp

/-- With case folding on, a character whose lower-case form is ASCII folds to that form. -/
theorem fold_case_ascii (E : Env) (options c : Nat)
    (hci : options &&& E.flags.CASE_INSENSITIVE ≠ 0) (h : E.towlower c ≤ 0x7f) :
    PrefixCmp.fold E options c = E.towlower c := by
  rw [fold_eq, if_pos hci]
  split
  · exact op_remove_accent_ascii E _ h
  · rfl

/-- With accent folding on and case folding off, a character folds to its base form. -/
theorem fold_accent_only (E : Env) (options c : Nat)
    (hai : options &&& E.flags.ACCENT_INSENSITIVE ≠ 0)
    (hci : options &&& E.flags.CASE_INSENSITIVE = 0) :
    PrefixCmp.fold E options c = op_remove_accent E c := by
  rw [fold_eq, if_pos hai, if_neg (by simpa using hci)]

/-- A loop that appends an element on each pass that meets a condition appends the
elements of the filtered list, in order. -/
theorem foldl_push_eq_filter {α β : Type} (p : α → Prop) [DecidablePred p] (f : α → β) :
    ∀ (l : List α) (out : List β),
      l.foldl (fun out x => if p x then out ++ [f x] else out) out =
        out ++ (l.filter (fun x => decide (p x))).map f := by
  intro l
  induction l with
  | nil => intro out; simp
  | cons x rest ih =>
    intro out
    rw [List.foldl_cons, ih]
    by_cases h : p x
    · simp [h, List.filter_cons]
    · simp [h, List.filter_cons]

/-- The options of a `PrefixCmp` are the options it was built with. -/
theorem new_options (E : Env) (pfx : Option WString) (options : Nat) :
    (PrefixCmp.new E pfx options).options = options := by
  cases pfx with
  | none => exact (new_pfx_none E options).2
  | some p => exact (new_pfx E p options).2

/-- With both capitalization filters set, a word with a first character is rejected. -/
theorem matches_both_ignored (E : Env) (self : PrefixCmp) (w : WString)
    (hcap : self.options &&& E.flags.IGNORE_CAPITALIZED ≠ 0)
    (hnon : self.options &&& E.flags.IGNORE_NON_CAPITALIZED ≠ 0)
    (hw : w.headD 0 ≠ 0) : self.matches E w = false := by
  unfold PrefixCmp.matches
  simp only
  by_cases hu : E.iswupper (w.headD 0) = true
  · rw [if_pos ⟨hw, (isSet_eq_true_iff _ _).2 hcap, hu⟩]
  · rw [if_neg (fun h => hu h.2.2), if_pos ⟨hw, (isSet_eq_true_iff _ _).2 hnon, hu⟩]

/-- The empty word skips the capitalization gate and fails the comparison with a prefix
that is not empty. -/
theorem matches_empty_word (E : Env) (self : PrefixCmp) (h0 : E.towlower 0 = 0)
    (hp : self.pfx ≠ []) : self.matches E [] = false := by
  unfold PrefixCmp.matches
  simp only [List.headD_nil]
  rw [if_neg (fun h => h.1 rfl), if_neg (fun h => h.1 rfl),
    if_neg (fun h => hp (List.length_eq_zero.1 h))]
  apply Bool.eq_false_iff.2
  rw [Ne, matches_loop_iff]
  intro h
  exact (h 0 (Nat.zero_le _)).1 (fold_zero E _ h0)

/-- The scan of `get_probability` finds the first result that carries the word. -/
theorem find_result_eq {P : Type} (word : WString) :
    ∀ results : List (Result P), LanguageModel.find_result word results =
      (results.find? (fun r => decide (r.word = word))).map (fun r => r.p) := by
  intro results
  induction results with
  | nil => rfl
  | cons r rest ih =>
    rw [LanguageModel.find_result, List.find?_cons]
    by_cases h : r.word = word
    · rw [if_pos (wcscmp_eq_zero.2 h)]
      simp [h]
    · rw [if_neg (fun hc => h (wcscmp_eq_zero.1 hc)), ih]
      simp [h]

/-- In the candidate-list branch `prefix_search` appends the candidates that pass the
two tests, in input order. -/
theorem prefix_search_some (E : Env) (d : Dictionary) (pfx : Option WString)
    (wids wids_out : List Nat) (options : Nat) :
    Dictionary.prefix_search E d pfx (some wids) wids_out options =
      wids_out ++ wids.filter (fun wid => decide
        ((if isSet options E.flags.INCLUDE_CONTROL_WORDS = true then 0 else NUM_CONTROL_WORDS) ≤ wid ∧
          (PrefixCmp.new E pfx options).matches E (d.words.getD wid []) = true)) := by
  unfold Dictionary.prefix_search
  simp only
  rw [foldl_push_eq_filter]
  exact congrArg _ (List.map_id _)

/-! ## Mode selection of `prefix_search` and the exit of the search loop -/

/-- With a bound of at least `hi - lo` iterations the loop of `search_index` is left
through its loop condition, with the result that `search_loop` computes. -/
theorem search_loop_exit_eq (d : Dictionary) (word : WString) :
    ∀ (fuel lo hi : Nat), hi - lo ≤ fuel →
      d.search_loop_exit word fuel lo hi = some (d.search_loop word fuel lo hi) := by
  intro fuel
  induction fuel with
  | zero =>
    intro lo hi h
    rw [Dictionary.search_loop_exit, Dictionary.search_loop, if_neg (by omega)]
  | succ fuel ih =>
    intro lo hi h
    rw [Dictionary.search_loop_exit, Dictionary.search_loop]
    split
    · next hlt =>
      have hmid : (lo + hi) >>> 1 = (lo + hi) / 2 := shiftRight_one_eq _
      simp only [hmid]
      split
      · exact ih _ _ (by omega)
      · exact ih _ _ (by omega)
    · rfl

/-- An option that is set and belongs to a mask shows in the test against the mask. -/
theorem land_ne_zero_of_cover {o f F : Nat} (h : o &&& f ≠ 0) (hc : f &&& F = f) :
    o &&& F ≠ 0 := by
  intro h0
  apply h
  rw [← hc, Nat.land_comm f F, ← Nat.land_assoc, h0]
  simp

/-- No option of a mask is set when the test against the mask fails. -/
theorem land_eq_zero_of_cover {o f F : Nat} (h : o &&& F = 0) (hc : f &&& F = f) :
    o &&& f = 0 := by
  by_contra hne
  exact land_ne_zero_of_cover hne hc h

/-- The exhaustive branch of `prefix_search`: the positions from `min_wid` on whose word
matches are appended in ascending order, each cast to a word id. -/
theorem prefix_search_exhaustive (E : Env) (d : Dictionary) (pfx : Option WString)
    (wids_out : List Nat) (options : Nat)
    (hmode : pfx.getD [] = [] ∨ options &&& E.flags.FILTER_OPTIONS ≠ 0) :
    Dictionary.prefix_search E d pfx none wids_out options =
      wids_out ++ ((List.range'
          (if isSet options E.flags.INCLUDE_CONTROL_WORDS = true then 0 else NUM_CONTROL_WORDS)
          (d.words.length -
            (if isSet options E.flags.INCLUDE_CONTROL_WORDS = true then 0 else NUM_CONTROL_WORDS))).filter
        (fun i => decide ((PrefixCmp.new E pfx options).matches E (d.words.getD i []) = true))).map
        toWordId := by
  unfold Dictionary.prefix_search
  simp only
  split
  · rw [foldl_push_eq_filter]
  · next hno =>
    exfalso
    apply hno
    rcases hmode with h | h
    · left
      cases pfx with
      | none => rfl
      | some p =>
        have hp : p = [] := h
        rw [hp]
        rfl
    · exact Or.inr ((isSet_eq_true_iff _ _).2 h)

/-! ## `stable_argsort_desc` on a ranked input -/

section ArgsortRanked

variable {α : Type} [LinearOrder α] [Inhabited α]

/-- Scores that never increase from one position to the next never increase between any
two positions. -/
theorem ranked_of_adjacent (cmp : List α) (v : List Nat)
    (hadj : ∀ i, i + 1 < v.length →
      cmp.getD (v.getD (i + 1) 0) default ≤ cmp.getD (v.getD i 0) default) :
    ∀ k i, i + k < v.length →
      cmp.getD (v.getD (i + k) 0) default ≤ cmp.getD (v.getD i 0) default := by
  intro k
  induction k with
  | zero => intro i _; exact le_refl _
  | succ k ih =>
    intro i hi
    exact le_trans (hadj (i + k) (by omega)) (ih i (by omega))

/-- On a ranked index vector the inner loop of `stable_argsort_desc` breaks at its first
test: nothing is exchanged. -/
theorem argsort_inner_of_ranked (cmp : List α) (v : List Nat)
    (hr : ∀ k i, i + k < v.length →
      cmp.getD (v.getD (i + k) 0) default ≤ cmp.getD (v.getD i 0) default)
    (gap fuel j : Nat) (hj : j + gap < v.length) : argsort_inner cmp gap fuel j v = v := by
  cases fuel with
  | zero => rfl
  | succ fuel =>
    rw [argsort_inner, if_neg (not_lt.2 (hr gap j hj))]

/-- A pass of `stable_argsort_desc` leaves a ranked index vector as it is. -/
theorem argsort_pass_of_ranked (cmp : List α) (v : List Nat)
    (hr : ∀ k i, i + k < v.length →
      cmp.getD (v.getD (i + k) 0) default ≤ cmp.getD (v.getD i 0) default)
    (gap : Nat) : argsort_pass cmp v.length gap v = v := by
  unfold argsort_pass
  have hfold : ∀ (l : List Nat), (∀ i ∈ l, gap ≤ i ∧ i < v.length) →
      l.foldl (fun v i => argsort_inner cmp gap (i + 1) (i - gap) v) v = v := by
    intro l
    induction l with
    | nil => intro _; rfl
    | cons x l ih =>
      intro hl
      have hx := hl x (List.mem_cons_self _ _)
      rw [List.foldl_cons, argsort_inner_of_ranked cmp v hr gap (x + 1) (x - gap) (by omega)]
      exact ih (fun i hi => hl i (List.mem_cons_of_mem _ hi))
  apply hfold
  intro i hi
  have := List.mem_range'_1.1 hi
  omega

/-- All passes of `stable_argsort_desc` leave a ranked index vector as it is. -/
theorem argsort_gaps_of_ranked (cmp : List α) (v : List Nat)
    (hr : ∀ k i, i + k < v.length →
      cmp.getD (v.getD (i + k) 0) default ≤ cmp.getD (v.getD i 0) default) :
    ∀ (fuel gap : Nat), argsort_gaps cmp v.length fuel gap v = v := by
  intro fuel
  induction fuel with
  | zero => intro gap; rfl
  | succ fuel ih =>
    intro gap
    rw [argsort_gaps]
    split
    · rw [argsort_pass_of_ranked cmp v hr gap]
      exact ih _
    · rfl

/-- The index form of `RankedDesc`. -/
theorem rankedDesc_getD (cmp : List α) (v : List Nat) (h : RankedDesc cmp v) :
    ∀ i, i + 1 < v.length →
      cmp.getD (v.getD (i + 1) 0) default ≤ cmp.getD (v.getD i 0) default := by
  intro i hi
  have h1 : i < v.length := by omega
  rw [List.getD_eq_getElem _ _ h1, List.getD_eq_getElem _ _ hi]
  exact (List.pairwise_iff_getElem.1 h) i (i + 1) h1 hi (by omega)

end ArgsortRanked

/-! ## The ids in the sorted index -/

/-- After a successful `add_word` the sorted index holds the new id and the ids it held
before. -/
theorem add_word_sorted_mem (d : Dictionary) (w : WString) (x : Nat) :
    x ∈ (d.add_word w true).1.sorted ↔ x = toWordId d.words.length ∨ x ∈ d.sorted := by
  simp only [Dictionary.add_word, Bool.not_true, Bool.false_eq_true, if_false,
    List.mem_append, List.mem_cons]
  constructor
  · rintro (h | h | h)
    · exact Or.inr (List.mem_of_mem_take h)
    · exact Or.inl h
    · exact Or.inr (List.mem_of_mem_drop h)
  · rintro (h | h)
    · exact Or.inr (Or.inl h)
    · rw [← List.take_append_drop (Dictionary.search_index
        { words := d.words ++ [w], sorted := d.sorted } w) d.sorted, List.mem_append] at h
      rcases h with h | h
      · exact Or.inl h
      · exact Or.inr (Or.inr h)

/-- A sequence of `add_word` calls keeps the ids of the sorted index and adds the id of
every word it stores: the number of words before the insertion, cast to a word id. -/
theorem run_calls_sorted_mem (calls : List (WString × Bool)) :
    ∀ d : Dictionary,
      (∀ x ∈ d.sorted, x ∈ (run_calls d calls).1.sorted) ∧
      (∀ i, i < (stored calls).length →
        toWordId (d.words.length + i) ∈ (run_calls d calls).1.sorted) := by
  induction calls with
  | nil =>
    intro d
    refine ⟨fun x hx => hx, fun i hi => ?_⟩
    simp [stored] at hi
  | cons c calls ih =>
    intro d
    obtain ⟨w, mem⟩ := c
    simp only [run_calls]
    cases mem with
    | false =>
      rw [add_word_fail]
      have hst : stored ((w, false) :: calls) = stored calls := by
        rw [stored_cons]
        rfl
      rw [hst]
      exact ih d
    | true =>
      obtain ⟨h1, h2⟩ := ih (d.add_word w true).1
      have hst : (stored ((w, true) :: calls)).length = (stored calls).length + 1 := by
        rw [stored_cons]
        simp
      have hwords : (d.add_word w true).1.words.length = d.words.length + 1 := by
        rw [add_word_words]
        simp
      constructor
      · intro x hx
        exact h1 x ((add_word_sorted_mem d w x).2 (Or.inr hx))
      · intro i hi
        rw [hst] at hi
        cases i with
        | zero => exact h1 _ ((add_word_sorted_mem d w _).2 (Or.inl rfl))
        | succ i =>
          have := h2 i (by omega)
          rw [hwords] at this
          rwa [show d.words.length + (i + 1) = d.words.length + 1 + i by omega]

/-! ## The binary-search branch against the linear scan -/

/-- Without the two folding options a character is compared as it is. -/
theorem fold_plain (E : Env) (options c : Nat)
    (hci : options &&& E.flags.CASE_INSENSITIVE = 0)
    (hai : options &&& E.flags.ACCENT_INSENSITIVE = 0) : PrefixCmp.fold E options c = c := by
  rw [fold_eq, if_neg (by simpa using hai), if_neg (by simpa using hci)]

/-- With none of the four filter options set, `matches` is the test whether the word
starts with the prefix. -/
theorem matches_plain_iff (E : Env) (p w : WString) (options : Nat)
    (hci : options &&& E.flags.CASE_INSENSITIVE = 0)
    (hai : options &&& E.flags.ACCENT_INSENSITIVE = 0)
    (hcap : options &&& E.flags.IGNORE_CAPITALIZED = 0)
    (hnon : options &&& E.flags.IGNORE_NON_CAPITALIZED = 0)
    (hnul : 0 ∉ p) :
    (PrefixCmp.new E (some p) options).matches E w = true ↔ p <+: w := by
  obtain ⟨hpfx, hopt⟩ := new_pfx E p options
  have hmap : p.map (PrefixCmp.fold E options) = p := by
    conv => rhs; rw [← List.map_id p]
    exact List.map_congr_left (fun c _ => fold_plain E options c hci hai)
  rw [hmap] at hpfx
  rw [matches_gate_open E _ w (by rw [hopt]; rintro ⟨_, h, _⟩; exact h hcap)
    (by rw [hopt]; rintro ⟨_, h, _⟩; exact h hnon), hpfx, hopt]
  split
  · next h0 =>
    rw [List.length_eq_zero.1 h0]
    simp
  · next h0 =>
    rw [matches_loop_iff]
    simp only [fold_plain E options _ hci hai]
    constructor
    · intro h
      have hall : ∀ i, i < p.length → w.getD i 0 ≠ 0 ∧ w.getD i 0 = p.getD i 0 :=
        fun i hi => h i (by omega)
      have hle : p.length ≤ w.length := by
        by_contra hshort
        have := (hall w.length (by omega)).1
        rw [List.getD_eq_default _ _ (le_refl _)] at this
        exact this rfl
      have htake : p = w.take p.length := by
        apply List.ext_getElem
        · rw [List.length_take]
          omega
        · intro i h1 h2
          have := (hall i h1).2
          rw [List.getD_eq_getElem _ _ h1, List.getD_eq_getElem _ _ (by omega)] at this
          rw [List.getElem_take]
          exact this.symm
      rw [htake]
      exact List.take_prefix _ _
    · rintro ⟨t, rfl⟩ i hi
      have hi2 : i < p.length := by omega
      have hget : (p ++ t).getD i 0 = p.getD i 0 := List.getD_append _ _ _ _ hi2
      rw [hget, List.getD_eq_getElem _ _ hi2]
      refine ⟨?_, rfl⟩
      intro hz
      exact hnul (hz ▸ List.getElem_mem _)

/-- The binary-search branch of `prefix_search`, on any dictionary state: from the
position that `search_index` returns, the leading run of ids whose word starts with the
prefix, without the ids below `min_wid`. -/
theorem prefix_search_binary_run (E : Env) (d : Dictionary) (p : WString) (out : List Nat)
    (options : Nat) (hp : p ≠ []) (hopt : options &&& E.flags.FILTER_OPTIONS = 0) :
    d.prefix_search E (some p) none out options =
      out ++ ((d.sorted.drop (d.search_index p)).takeWhile
        (fun wid => decide (p <+: d.words.getD wid []))).filter
        (fun wid => decide
          ((if isSet options E.flags.INCLUDE_CONTROL_WORDS then 0 else NUM_CONTROL_WORDS) ≤ wid)) := by
  have hlen : ¬ wcslen p = 0 := by
    unfold wcslen
    intro h0
    exact hp (List.length_eq_zero.1 h0)
  have hset : isSet options E.flags.FILTER_OPTIONS = false := by
    unfold isSet
    simp [hopt]
  simp only [Dictionary.prefix_search, hlen, hset, false_or, Bool.false_eq_true, if_false,
    Option.getD_some]
  unfold wcslen
  rw [collect_loop_eq]

/-- The words after `n` insertions of one word and one insertion of another. -/
theorem run_overflow_words (n : Nat) (a b : WString) :
    (run_calls Dictionary.empty (List.replicate n (a, true) ++ [(b, true)])).1.words =
      List.replicate n a ++ [b] := by
  rw [run_calls_words, stored_append, stored_replicate]
  rfl

/-- After 65536 or more insertions of one word and one insertion of another word, the
binary-search branch finds nothing for a prefix that the first word does not start
with: every id of the sorted index is a 16-bit value and leads to the first word. -/
theorem prefix_search_overflow_nil (E : Env) (n : Nat) (a b p : WString) (options : Nat)
    (hn : 65536 ≤ n) (hpa : ¬ p <+: a) (hp : p ≠ [])
    (hopt : options &&& E.flags.FILTER_OPTIONS = 0) :
    (run_calls Dictionary.empty (List.replicate n (a, true) ++ [(b, true)])).1.prefix_search E
      (some p) none [] options = [] := by
  rw [prefix_search_binary_run E _ p [] options hp hopt, List.nil_append]
  have hnil : ((run_calls Dictionary.empty
      (List.replicate n (a, true) ++ [(b, true)])).1.sorted.drop
        ((run_calls Dictionary.empty
          (List.replicate n (a, true) ++ [(b, true)])).1.search_index p)).takeWhile
      (fun wid => decide (p <+: (run_calls Dictionary.empty
        (List.replicate n (a, true) ++ [(b, true)])).1.words.getD wid [])) = [] := by
    apply List.eq_nil_iff_forall_not_mem.2
    intro x hx
    have hP := List.mem_takeWhile_imp hx
    have hmem := List.mem_of_mem_drop ((List.takeWhile_sublist _).subset hx)
    have hlt := run_calls_sorted_lt _ Dictionary.empty (by simp [Dictionary.empty]) x hmem
    rw [run_overflow_words, List.getD_append _ _ _ _ (by rw [List.length_replicate]; omega),
      List.getD_eq_getElem _ _ (by rw [List.length_replicate]; omega),
      List.getElem_replicate] at hP
    exact hpa (of_decide_eq_true hP)
  rw [hnil]
  rfl

/-- After `n` insertions of one word and one insertion of another word, the position
`n` belongs to the linear scan for a prefix that the last word matches. -/
theorem linear_scan_overflow_mem (E : Env) (n : Nat) (a b : WString) (pfx : Option WString)
    (options : Nat)
    (hmin : (if isSet options E.flags.INCLUDE_CONTROL_WORDS then 0 else NUM_CONTROL_WORDS) ≤ n)
    (hb : (PrefixCmp.new E pfx options).matches E b = true) :
    n ∈ (run_calls Dictionary.empty (List.replicate n (a, true) ++ [(b, true)])).1.linear_scan_spec
      E pfx options := by
  unfold Dictionary.linear_scan_spec
  rw [List.mem_filter, run_overflow_words]
  constructor
  · rw [List.mem_range, List.length_append, List.length_replicate]
    simp
  · rw [List.getD_append_right _ _ _ _ (by rw [List.length_replicate]),
      List.length_replicate, Nat.sub_self]
    rw [Bool.and_eq_true]
    exact ⟨decide_eq_true hmin, hb⟩

/-! ## Dictionaries beyond 65536 words -/

/-- When no word of the interval is below the query, the loop of `search_index` returns
the lower end of the interval. -/
theorem search_loop_all_ge (d : Dictionary) (word : WString) :
    ∀ (fuel lo hi : Nat),
      (∀ i, lo ≤ i → i < hi → ¬ wcscmp (d.keyAt i) word < 0) →
      d.search_loop word fuel lo hi = lo := by
  intro fuel
  induction fuel with
  | zero => intro lo hi _; rfl
  | succ fuel ih =>
    intro lo hi h
    rw [Dictionary.search_loop]
    split
    · next hlt =>
      have hmid : (lo + hi) >>> 1 = (lo + hi) / 2 := shiftRight_one_eq _
      simp only [hmid]
      have hk := h ((lo + hi) / 2) (by omega) (by omega)
      unfold Dictionary.keyAt at hk
      rw [if_neg hk]
      exact ih lo _ (fun i h1 h2 => h i h1 (by omega))
    · rfl

/-- When every word of the interval is below the query, the loop of `search_index`
returns the upper end of the interval. -/
theorem search_loop_all_lt (d : Dictionary) (word : WString) :
    ∀ (fuel lo hi : Nat), hi - lo ≤ fuel → lo ≤ hi →
      (∀ i, lo ≤ i → i < hi → wcscmp (d.keyAt i) word < 0) →
      d.search_loop word fuel lo hi = hi := by
  intro fuel
  induction fuel with
  | zero =>
    intro lo hi hf hle _
    rw [Dictionary.search_loop]
    omega
  | succ fuel ih =>
    intro lo hi hf hle h
    rw [Dictionary.search_loop]
    split
    · next hlt =>
      have hmid : (lo + hi) >>> 1 = (lo + hi) / 2 := shiftRight_one_eq _
      simp only [hmid]
      have hk := h ((lo + hi) / 2) (by omega) (by omega)
      unfold Dictionary.keyAt at hk
      rw [if_pos hk]
      exact ih _ hi (by omega) (by omega) (fun i h1 h2 => h i (by omega) h2)
    · omega

/-- The word at every position of the sorted index, when all its ids lead to one word. -/
theorem keyAt_of_all (d : Dictionary) (a : WString)
    (hall : ∀ x ∈ d.sorted, d.words.getD x [] = a) (i : Nat) (hi : i < d.sorted.length) :
    d.keyAt i = a := by
  unfold Dictionary.keyAt
  apply hall
  rw [List.getD_eq_getElem _ _ hi]
  exact List.getElem_mem _

/-- When all ids of the sorted index lead to the query, `search_index` returns 0. -/
theorem search_index_zero (d : Dictionary) (a : WString)
    (hall : ∀ x ∈ d.sorted, d.words.getD x [] = a) : d.search_index a = 0 := by
  unfold Dictionary.search_index
  apply search_loop_all_ge
  intro i _ hi
  rw [keyAt_of_all d a hall i hi, wcscmp_self]
  decide

/-- When all ids of the sorted index lead to a word below the query, `search_index`
returns the size of the sorted index. -/
theorem search_index_length (d : Dictionary) (a b : WString) (hab : wcscmp a b < 0)
    (hall : ∀ x ∈ d.sorted, d.words.getD x [] = a) : d.search_index b = d.sorted.length := by
  unfold Dictionary.search_index
  apply search_loop_all_lt d b _ _ _ (by omega) (Nat.zero_le _)
  intro i _ hi
  rw [keyAt_of_all d a hall i hi]
  exact hab

/-- The last call of a sequence of `add_word` calls acts on the dictionary that the
calls before it have built. -/
theorem run_calls_concat (l : List (WString × Bool)) (w : WString) (mem : Bool) :
    ∀ d : Dictionary,
      (run_calls d (l ++ [(w, mem)])).1 = ((run_calls d l).1.add_word w mem).1 := by
  induction l with
  | nil => intro d; rfl
  | cons c l ih =>
    intro d
    obtain ⟨w0, mem0⟩ := c
    simp only [List.cons_append, run_calls]
    exact ih _

/-- After 65536 or more insertions of one word and one further insertion, every id of
the sorted index is a 16-bit value and leads to the first word. -/
theorem run_overflow_all (n : Nat) (a b : WString) (hn : 65536 ≤ n) :
    ∀ x ∈ (run_calls Dictionary.empty (List.replicate n (a, true) ++ [(b, true)])).1.sorted,
      (run_calls Dictionary.empty
        (List.replicate n (a, true) ++ [(b, true)])).1.words.getD x [] = a := by
  intro x hx
  have hlt := run_calls_sorted_lt _ Dictionary.empty (by simp [Dictionary.empty]) x hx
  rw [run_overflow_words, List.getD_append _ _ _ _ (by rw [List.length_replicate]; omega),
    List.getD_eq_getElem _ _ (by rw [List.length_replicate]; omega), List.getElem_replicate]

/-- In binary-search mode with INCLUDE_CONTROL_WORDS, a dictionary whose sorted index
leads to the prefix itself at every id returns the whole sorted index. -/
theorem prefix_search_all_same (E : Env) (d : Dictionary) (a : WString) (options : Nat)
    (hall : ∀ x ∈ d.sorted, d.words.getD x [] = a) (ha : a ≠ [])
    (hopt : options &&& E.flags.FILTER_OPTIONS = 0)
    (hinc : isSet options E.flags.INCLUDE_CONTROL_WORDS = true) :
    d.prefix_search E (some a) none [] options = d.sorted := by
  rw [prefix_search_binary_run E d a [] options ha hopt, List.nil_append,
    search_index_zero d a hall, List.drop_zero]
  have h1 : d.sorted.takeWhile (fun wid => decide (a <+: d.words.getD wid [])) = d.sorted := by
    apply List.takeWhile_eq_self_iff.2
    intro x hx
    rw [hall x hx]
    exact decide_eq_true (List.prefix_refl a)
  rw [h1]
  apply List.filter_eq_self.2
  intro x _
  rw [hinc]
  exact decide_eq_true (Nat.zero_le _)

/-- The exhaustive scan after `n` insertions of a word that does not match and one
insertion of a word that matches, with INCLUDE_CONTROL_WORDS: the only id appended is the
position `n` cast to a word id. -/
theorem prefix_search_overflow_scan (E : Env) (n : Nat) (a b : WString)
    (pfx : Option WString) (options : Nat)
    (hmode : pfx.getD [] = [] ∨ options &&& E.flags.FILTER_OPTIONS ≠ 0)
    (hinc : isSet options E.flags.INCLUDE_CONTROL_WORDS = true)
    (hma : (PrefixCmp.new E pfx options).matches E a = false)
    (hmb : (PrefixCmp.new E pfx options).matches E b = true) :
    Dictionary.prefix_search E
      (run_calls Dictionary.empty (List.replicate n (a, true) ++ [(b, true)])).1 pfx none []
      options = [toWordId n] := by
  rw [prefix_search_exhaustive E _ pfx [] options hmode, List.nil_append, run_overflow_words]
  simp only [hinc, if_true, List.length_append, List.length_replicate, List.length_singleton,
    Nat.sub_zero]
  rw [List.range'_concat, List.filter_append]
  have h1 : (List.range' 0 n).filter (fun i => decide
      ((PrefixCmp.new E pfx options).matches E ((List.replicate n a ++ [b]).getD i []) = true))
      = [] := by
    apply List.filter_eq_nil_iff.2
    intro i hi hdec
    have hlt : i < n := by
      have := List.mem_range'_1.1 hi
      omega
    rw [List.getD_append _ _ _ _ (by rw [List.length_replicate]; exact hlt),
      List.getD_eq_getElem _ _ (by rw [List.length_replicate]; exact hlt),
      List.getElem_replicate, hma] at hdec
    exact absurd hdec (by decide)
  have h2 : [0 + 1 * n].filter (fun i => decide
      ((PrefixCmp.new E pfx options).matches E ((List.replicate n a ++ [b]).getD i []) = true))
      = [n] := by
    have hn : 0 + 1 * n = n := by omega
    rw [hn, List.filter_cons_of_pos]
    · rfl
    · rw [List.getD_append_right _ _ _ _ (by rw [List.length_replicate]),
        List.length_replicate, Nat.sub_self]
      exact decide_eq_true hmb
  rw [h1, h2]
  rfl

/-! ## Statements under the invariant of the sorted index -/

/-- Binary-search mode of `prefix_search` on a dictionary whose sorted index is a
permutation of the ids in non-decreasing word order: the ids not below `min_wid` whose
word starts with the prefix, each once, in word order. -/
theorem prefix_search_binary_valid (E : Env) (d : Dictionary) (p : WString) (out : List Nat)
    (options : Nat) (hperm : d.sorted.Perm (List.range d.words.length))
    (hsorted : (d.sorted.map (fun wid => d.words.getD wid [])).Pairwise
      (fun a b => wcscmp a b ≤ 0))
    (hp : p ≠ []) (hopt : options &&& E.flags.FILTER_OPTIONS = 0) :
    ∃ r : List Nat,
      d.prefix_search E (some p) none out options = out ++ r ∧
      r.Nodup ∧
      (∀ wid, wid ∈ r ↔ (wid < d.words.length ∧
        (if options &&& E.flags.INCLUDE_CONTROL_WORDS ≠ 0 then 0 else 4) ≤ wid ∧
        p <+: d.words.getD wid [])) ∧
      r.Pairwise (fun a b => wcscmp (d.words.getD a []) (d.words.getD b []) ≤ 0) := by
  refine ⟨_, prefix_search_binary_eq E hsorted p out options hp hopt, ?_, ?_, ?_⟩
  · exact ((hperm.nodup_iff.2 (List.nodup_range _)).filter _).filter _
  · intro wid
    simp only [List.mem_filter, decide_eq_true_eq, hperm.mem_iff, List.mem_range, isSet,
      NUM_CONTROL_WORDS, bne_iff_ne, ne_eq]
    tauto
  · exact ((List.pairwise_map.1 hsorted).filter _).filter _

/-- The value of `lookup_word` on a dictionary whose sorted index is a permutation of the
ids in non-decreasing word order. -/
theorem lookup_word_valid (d : Dictionary) (w : WString)
    (hperm : d.sorted.Perm (List.range d.words.length))
    (hsorted : (d.sorted.map (fun wid => d.words.getD wid [])).Pairwise
      (fun a b => wcscmp a b ≤ 0)) :
    (d.lookup_word w = 1 ↔ w ∈ d.words) ∧
    (w ∉ d.words →
      d.lookup_word w = -((d.words.countP (fun s => decide (w <+: s)) : Nat) : Int)) ∧
    (d.lookup_word w = 0 ↔ ∀ s ∈ d.words, ¬ w <+: s) := by
  have hit := search_index_hit_iff hperm hsorted w
  have hcount : d.count_loop w w.length (d.sorted.drop (d.search_index w)) 0 =
      d.words.countP (fun s => decide (w <+: s)) := by
    rw [count_loop_eq, prefix_run_eq_filter hsorted, Nat.zero_add,
      ← List.countP_eq_length_filter, hperm.countP_eq,
      countP_range_words (fun s => decide (w <+: s))]
  have hzero : d.words.countP (fun s => decide (w <+: s)) = 0 ↔ ∀ s ∈ d.words, ¬ w <+: s := by
    rw [List.countP_eq_zero]
    simp
  unfold Dictionary.lookup_word
  simp only [wcslen, hcount]
  by_cases hw : w ∈ d.words
  · rw [if_pos (hit.2 hw)]
    refine ⟨⟨fun _ => hw, fun _ => rfl⟩, fun h => absurd hw h, ?_⟩
    constructor
    · intro h
      omega
    · intro h
      exact absurd (List.prefix_refl w) (h w hw)
  · rw [if_neg (fun h => hw (hit.1 h))]
    refine ⟨⟨fun h => ?_, fun h => absurd h hw⟩, fun _ => rfl, ?_⟩
    · omega
    · rw [← hzero]
      omega

/-- The insertion of a word that is already stored, on a dictionary with the invariant of
the sorted index and fewer than 65536 words. -/
theorem add_word_duplicate_valid (d : Dictionary) (w : WString) (hv : d.Valid)
    (hlen : d.words.length < 65536) (hw : w ∈ d.words) :
    (d.add_word w true).1.words = d.words ++ [w] ∧
    (d.add_word w true).2 = d.words.length ∧
    (d.add_word w true).2 ∉ d.sorted ∧
    (∃ old, old ∈ d.sorted ∧ d.words.getD old [] = w) ∧
    (∃ k, (d.add_word w true).1.sorted =
        d.sorted.take k ++ (d.add_word w true).2 :: d.sorted.drop k ∧
      (∀ a ∈ d.sorted.take k, d.words.getD a [] ≠ w) ∧
      (∀ a ∈ d.sorted, d.words.getD a [] = w → a ∈ d.sorted.drop k)) ∧
    (d.add_word w true).1.word_to_id w = (d.add_word w true).2 ∧
    (∀ i, i < d.words.length → (d.add_word w true).1.word_to_id w ≠ i) := by
  have hwords := add_word_words d w true
  simp only [if_true] at hwords
  have hid : (d.add_word w true).2 = d.words.length := by
    rw [add_word_id, if_pos rfl]
    exact Nat.mod_eq_of_lt hlen
  have hlook : (d.add_word w true).1.word_to_id w = d.words.length :=
    word_to_id_last (add_word_valid hv w hlen) hwords (List.not_mem_nil w)
  obtain ⟨_, hlo, _⟩ := add_word_search hv w
  have hne : ∀ a ∈ d.sorted.take (Dictionary.search_index
      { words := d.words ++ [w], sorted := d.sorted } w), d.words.getD a [] ≠ w := by
    intro a ha heq
    have := hlo a ha
    rw [heq, wcscmp_self] at this
    exact absurd this (by decide)
  refine ⟨hwords, hid, ?_, ?_, ⟨_, ?_, hne, ?_⟩, ?_, ?_⟩
  · intro hmem
    have := hv.mem_lt hmem
    omega
  · obtain ⟨i, hi, heq⟩ := List.getElem_of_mem hw
    refine ⟨i, hv.perm.mem_iff.2 (List.mem_range.2 hi), ?_⟩
    rw [List.getD_eq_getElem _ _ hi, heq]
  · simp only [Dictionary.add_word, Bool.not_true, Bool.false_eq_true, if_false]
  · intro a ha heq
    rw [← List.take_append_drop (Dictionary.search_index
      { words := d.words ++ [w], sorted := d.sorted } w) d.sorted, List.mem_append] at ha
    rcases ha with ha | ha
    · exact absurd heq (hne a ha)
    · exact ha
  · rw [hlook, hid]
  · intro i hi
    rw [hlook]
    omega

/-! ## The id 0 after 65537 insertions -/

/-- After a successful `add_word` the sorted index is the old one with the new id put in. -/
theorem add_word_sorted_perm (d : Dictionary) (w : WString) :
    (d.add_word w true).1.sorted.Perm (toWordId d.words.length :: d.sorted) := by
  simp only [Dictionary.add_word, Bool.not_true, Bool.false_eq_true, if_false]
  refine List.perm_middle.trans (List.Perm.cons _ ?_)
  rw [List.take_append_drop]

/-- The number of words after `n` insertions of one word. -/
theorem run_replicate_length (n : Nat) (a : WString) :
    (run_calls Dictionary.empty (List.replicate n (a, true))).1.words.length = n := by
  rw [run_replicate_words, List.length_replicate]

/-- After 65536 insertions of one word, one more insertion of it leaves the id 0 twice in
the sorted index, which then has 65537 entries. -/
theorem run_wrap_count (n : Nat) (a : WString) (hn : n = 65536) :
    (run_calls Dictionary.empty (List.replicate n (a, true) ++ [(a, true)])).1.sorted.count 0
      = 2 ∧
    (run_calls Dictionary.empty (List.replicate n (a, true) ++ [(a, true)])).1.sorted.length
      = n + 1 := by
  have hv := run_calls_empty_valid (List.replicate n (a, true))
    (by rw [stored_replicate, List.length_replicate]; omega)
  have hlen := run_replicate_length n a
  have hperm := add_word_sorted_perm
    (run_calls Dictionary.empty (List.replicate n (a, true))).1 a
  have hid : toWordId
      (run_calls Dictionary.empty (List.replicate n (a, true))).1.words.length = 0 := by
    rw [hlen, hn]
    rfl
  rw [hid] at hperm
  have hmem : 0 ∈ (run_calls Dictionary.empty (List.replicate n (a, true))).1.sorted :=
    hv.perm.mem_iff.2 (List.mem_range.2 (by rw [hlen]; omega))
  have hnodup : (run_calls Dictionary.empty (List.replicate n (a, true))).1.sorted.Nodup :=
    hv.perm.nodup_iff.2 (List.nodup_range _)
  rw [run_calls_concat]
  constructor
  · rw [hperm.count_eq, List.count_cons_self, List.count_eq_one_of_mem hnodup hmem]
  · rw [hperm.length_eq, List.length_cons, hv.perm.length_eq, List.length_range, hlen]

/-- After 65536 insertions of one word, one more insertion of it puts the id 0 at the
front of the sorted index, and `word_to_id` of the word then returns 0. -/
theorem run_wrap_lookup (n : Nat) (a : WString) (hn : n = 65536) :
    ((run_calls Dictionary.empty (List.replicate n (a, true))).1.add_word a true).1.word_to_id a
      = 0 := by
  have hlen := run_replicate_length n a
  have hall := run_overflow_all n a a (by omega)
  rw [run_calls_concat] at hall
  have hlt : ∀ x ∈ (run_calls Dictionary.empty (List.replicate n (a, true))).1.sorted,
      x < 65536 :=
    run_calls_sorted_lt _ Dictionary.empty (by simp [Dictionary.empty])
  have hmid : Dictionary.search_index
      { words := (run_calls Dictionary.empty (List.replicate n (a, true))).1.words ++ [a],
        sorted := (run_calls Dictionary.empty (List.replicate n (a, true))).1.sorted } a = 0 := by
    apply search_index_zero
    intro x hx
    have := hlt x hx
    rw [run_replicate_words]
    show (List.replicate n a ++ [a]).getD x [] = a
    rw [List.getD_append _ _ _ _ (by rw [List.length_replicate]; omega),
      List.getD_eq_getElem _ _ (by rw [List.length_replicate]; omega), List.getElem_replicate]
  have hsorted : ((run_calls Dictionary.empty
      (List.replicate n (a, true))).1.add_word a true).1.sorted =
      0 :: (run_calls Dictionary.empty (List.replicate n (a, true))).1.sorted := by
    simp only [Dictionary.add_word, Bool.not_true, Bool.false_eq_true, if_false, hmid,
      List.take_zero, List.drop_zero, List.nil_append, hlen]
    rw [hn]
    rfl
  have h0 := hall 0 (by rw [hsorted]; exact List.mem_cons_self _ _)
  unfold Dictionary.word_to_id
  simp only [search_index_zero _ a hall]
  rw [if_pos (by rw [hsorted]; simp), hsorted]
  show (if wcscmp (((run_calls Dictionary.empty
    (List.replicate n (a, true))).1.add_word a true).1.words.getD 0 []) a = 0 then 0
    else WIDNONE) = 0
  rw [h0, wcscmp_self, if_pos rfl]

/-- After 65536 or more insertions of one word and the insertion of a greater word,
`lookup_word` of the last word finds nothing. -/
theorem lookup_word_overflow_zero (n : Nat) (a b : WString) (hn : 65536 ≤ n)
    (hab : wcscmp a b < 0) :
    (run_calls Dictionary.empty (List.replicate n (a, true) ++ [(b, true)])).1.lookup_word b
      = 0 := by
  have hidx := search_index_length _ a b hab (run_overflow_all n a b hn)
  unfold Dictionary.lookup_word
  simp only [hidx]
  rw [if_neg (fun h => Nat.lt_irrefl _ h.1), List.drop_length]
  rfl

/-! ## The history that `predict` resolves -/

/-- For a context that ends in the prefix `p`, `predict` assembles its results from the
answers of the back-end to the resolved history and `p`. -/
theorem predict_append_eq {P : Type} [LT P] [DecidableRel (fun a b : P => a < b)]
    [Inhabited P] (E : Env) (m : LanguageModel P) (results : List (Result P))
    (hist : List WString) (p : WString) (limit : Int) (options : Nat) :
    m.predict E results (hist ++ [p]) limit options =
      ((if isSet options E.flags.NO_SORT then
          List.range (m.get_candidates (hist.map m.word_to_id) p options).length
        else stable_argsort_desc
          (List.range (m.get_candidates (hist.map m.word_to_id) p options).length)
          (m.get_probs (hist.map m.word_to_id)
            (m.get_candidates (hist.map m.word_to_id) p options))).take
        (if 0 ≤ limit then
          min limit.toNat (m.get_candidates (hist.map m.word_to_id) p options).length
        else (m.get_candidates (hist.map m.word_to_id) p options).length)).map
        (fun j => Result.mk
          (m.id_to_word ((m.get_candidates (hist.map m.word_to_id) p options).getD j 0))
          ((m.get_probs (hist.map m.word_to_id)
            (m.get_candidates (hist.map m.word_to_id) p options)).getD j default)) := by
  apply predict_eq_map E m results (hist ++ [p]) limit options _ _ (by simp)
  · rw [split_context_append]
    rfl
  · rw [split_context_append]
    rfl

/-- The dictionary after `n` insertions of one word and the insertion of another word,
65536 words at most: the last word has the id `n`, the first word the id 0. -/
theorem run_ceiling_ids (n : Nat) (a b : WString) (hn : 0 < n) (hn2 : n < 65536) :
    b ∈ (run_calls Dictionary.empty (List.replicate n (a, true) ++ [(b, true)])).1.words ∧
    (run_calls Dictionary.empty
      (List.replicate n (a, true) ++ [(b, true)])).1.word_to_id b = n ∧
    (run_calls Dictionary.empty
      (List.replicate n (a, true) ++ [(b, true)])).1.id_to_word n = some b ∧
    (run_calls Dictionary.empty
      (List.replicate n (a, true) ++ [(b, true)])).1.id_to_word 0 = some a := by
  have hwords := run_overflow_words n a b
  have hv := run_calls_empty_valid (List.replicate n (a, true) ++ [(b, true)]) (by
    rw [stored_append, stored_replicate, List.length_append, List.length_replicate]
    show n + 1 ≤ 65536
    omega)
  refine ⟨?_, ?_, ?_, ?_⟩
  · rw [hwords]
    exact List.mem_append_right _ (List.mem_singleton.2 rfl)
  · rw [word_to_id_last hv hwords (List.not_mem_nil b), List.length_replicate]
  · unfold Dictionary.id_to_word
    rw [hwords, if_pos (by rw [List.length_append, List.length_replicate]; simp),
      List.getD_append_right _ _ _ _ (by rw [List.length_replicate]), List.length_replicate,
      Nat.sub_self]
    rfl
  · unfold Dictionary.id_to_word
    rw [hwords, if_pos (by rw [List.length_append, List.length_replicate]; omega),
      List.getD_append _ _ _ _ (by rw [List.length_replicate]; exact hn),
      List.getD_eq_getElem _ _ (by rw [List.length_replicate]; exact hn),
      List.getElem_replicate]

/-! ## A model at the 16-bit ceiling -/


/-- The dictionary of `ceilingModel`. -/
theorem ceilingModel_dictionary :
    ceilingModel.dictionary = (run_calls Dictionary.empty ceilingCalls).1 := by
  rw [ceilingModel]

/-- The back-end of `ceilingModel` answers with the history it is handed. -/
theorem ceilingModel_candidates (history : List Nat) (p : WString) (options : Nat) :
    ceilingModel.get_candidates history p options = history := by
  rw [ceilingModel]

/-- The back-end of `ceilingModel` gives every candidate the score 0. -/
theorem ceilingModel_probs (history wids : List Nat) :
    ceilingModel.get_probs history wids = wids.map (fun _ => 0) := by
  rw [ceilingModel]

/-- The dictionary of `ceilingModel`, with the calls written out. -/
theorem ceiling_dictionary : ceilingModel.dictionary = (run_calls Dictionary.empty
    (List.replicate 65535 (wstr "a", true) ++ [(wstr "b", true)])).1 := by
  have hdict := ceilingModel_dictionary
  unfold ceilingCalls at hdict
  exact hdict

/-- In the dictionary of `ceilingModel` the word "b" has the id 65535 and "a" the id 0. -/
theorem ceiling_ids :
    wstr "b" ∈ ceilingModel.dictionary.words ∧
    ceilingModel.dictionary.word_to_id (wstr "b") = 65535 ∧
    ceilingModel.dictionary.id_to_word 65535 = some (wstr "b") ∧
    ceilingModel.dictionary.id_to_word 0 = some (wstr "a") := by
  rw [ceiling_dictionary]
  exact run_ceiling_ids 65535 (wstr "a") (wstr "b") (by omega) (by omega)

/-- A word whose dictionary lookup gives WIDNONE resolves to UNKNOWN_WORD_ID. -/
theorem lm_word_to_id_of_widnone {P : Type} (m : LanguageModel P) (w : WString)
    (h : m.dictionary.word_to_id w = WIDNONE) : m.word_to_id w = UNKNOWN_WORD_ID := by
  unfold LanguageModel.word_to_id
  simp only
  rw [if_pos h]

/-- The word of an id that the dictionary knows. -/
theorem lm_id_to_word_of_some {P : Type} (m : LanguageModel P) (wid : Nat) (w : WString)
    (h : m.dictionary.id_to_word wid = some w) : m.id_to_word wid = w := by
  unfold LanguageModel.id_to_word
  rw [h]

/-- The model resolves "b" to UNKNOWN_WORD_ID: its dictionary id is WIDNONE. -/
theorem ceiling_word_to_id : ceilingModel.word_to_id (wstr "b") = 0 :=
  lm_word_to_id_of_widnone ceilingModel (wstr "b") ceiling_ids.2.1

/-- The dictionary of `ceilingModel` holds 65536 words. -/
theorem ceiling_length : ceilingModel.dictionary.words.length = 65536 := by
  rw [ceiling_dictionary, run_overflow_words, List.length_append, List.length_replicate]
  rfl

/-- The history ("b") is resolved to `[0]`. -/
theorem ceiling_history : [wstr "b"].map ceilingModel.word_to_id = [0] := by
  rw [List.map_cons, List.map_nil, ceiling_word_to_id]

/-- The calls of the back-end for the context ("b", "c"). -/
theorem ceiling_calls : ceilingModel.predict_calls [wstr "b", wstr "c"] 0 =
      [BackendCall.get_candidates [0] (wstr "c") 0, BackendCall.get_probs [0] [0]] := by
  have hcalls := predict_calls_append ceilingModel [wstr "b"] (wstr "c") 0
  rw [ceiling_history, ceilingModel_candidates] at hcalls
  exact hcalls

/-- The word of the id 0 in `ceilingModel`. -/
theorem ceiling_first_word : ceilingModel.id_to_word 0 = wstr "a" :=
  lm_id_to_word_of_some ceilingModel 0 (wstr "a") ceiling_ids.2.2.2

/-- The result of `predict` on `ceilingModel` for the context ("b", "c"). -/
theorem ceiling_predict :
    ceilingModel.predict sampleEnv [] [wstr "b", wstr "c"] (-1) 0 =
      [Result.mk (wstr "a") 0] := by
  have hpred := predict_append_eq sampleEnv ceilingModel [] [wstr "b"] (wstr "c") (-1) 0
  rw [ceiling_history, ceilingModel_candidates, ceilingModel_probs] at hpred
  have hidx : ((if isSet 0 sampleEnv.flags.NO_SORT = true then List.range [0].length
      else stable_argsort_desc (List.range [0].length) ([0].map (fun _ => 0))).take
      (if (0 : Int) ≤ -1 then min (-1 : Int).toNat [0].length else [0].length)) = [0] := by
    decide
  rw [hidx, List.map_cons, List.map_nil] at hpred
  have e : [wstr "b", wstr "c"] = [wstr "b"] ++ [wstr "c"] := rfl
  rw [e, hpred]
  have h1 : ([0] : List Nat).getD 0 0 = 0 := rfl
  have h2 : ([0] : List Nat).getD 0 default = 0 := rfl
  have h3 : (([0] : List Nat).map (fun _ => (0 : Nat))).getD 0 default = 0 := rfl
  rw [h1, h3, ceiling_first_word]

/-! ## The claims -/

/-- C1, as amended. After any sequence of `add_word` calls on an empty dictionary that
stores at most 65536 words, for every successful call `add_word(w)` with returned id
`id`: `id_to_word(id)` is `w`, `id_to_word(word_to_id(w))` is `w`, and `word_to_id(w)`
is `id` when no later successful call inserted `w` again (`word_to_id` returns the id
of the most recent insertion of `w`). -/
theorem add_word_roundtrip (calls : List (WString × Bool)) (k : Nat) (w : WString)
    (hsize : (stored calls).length ≤ 65536) (hk : calls[k]? = some (w, true)) :
    (run_calls Dictionary.empty calls).1.id_to_word
        ((run_calls Dictionary.empty calls).2.getD k 0) = some w ∧
    (run_calls Dictionary.empty calls).1.id_to_word
        ((run_calls Dictionary.empty calls).1.word_to_id w) = some w ∧
    ((∀ j, k < j → calls[j]? ≠ some (w, true)) →
      (run_calls Dictionary.empty calls).1.word_to_id w =
        (run_calls Dictionary.empty calls).2.getD k 0) := by
  have hv := run_calls_empty_valid calls hsize
  have hwords : (run_calls Dictionary.empty calls).1.words = stored calls := by
    rw [run_calls_words]
    rfl
  have hsplit := stored_split hk
  have hlen : (stored (calls.take k)).length < (stored calls).length := by
    rw [hsplit]
    simp
  have hid : (run_calls Dictionary.empty calls).2.getD k 0 = (stored (calls.take k)).length := by
    rw [run_calls_ids calls Dictionary.empty k w true hk]
    simp only [if_true, Dictionary.empty, List.length_nil, Nat.zero_add]
    exact Nat.mod_eq_of_lt (by omega)
  have hget : ∀ (A B : List WString), stored calls = A ++ w :: B →
      (run_calls Dictionary.empty calls).1.id_to_word A.length = some w := by
    intro A B hAB
    unfold Dictionary.id_to_word
    rw [hwords, hAB, if_pos (by simp), List.getD_append_right _ _ _ _ (le_refl _)]
    simp
  refine ⟨?_, ?_, ?_⟩
  · rw [hid]
    exact hget _ _ hsplit
  · have hmem : w ∈ (run_calls Dictionary.empty calls).1.words := by
      rw [hwords, hsplit]
      simp
    obtain ⟨A, B, hAB, hB⟩ := exists_last_occurrence hmem
    rw [word_to_id_last hv hAB hB]
    exact hget A B (hwords ▸ hAB)
  · intro hlast
    rw [hid]
    apply word_to_id_last hv (hwords.trans hsplit)
    intro hmem
    have hmem2 := mem_stored.1 hmem
    obtain ⟨i, hi, heq⟩ := List.mem_drop_iff_getElem.1 hmem2
    apply hlast (k + 1 + i) (by omega)
    rw [List.getElem?_eq_getElem (by omega), heq]

theorem add_word_roundtrip_witness :
    ((stored exCalls).length ≤ 65536 ∧ exCalls[3]? = some (wstr "cat", true)) ∧
    ((run_calls Dictionary.empty exCalls).1.id_to_word
        ((run_calls Dictionary.empty exCalls).2.getD 3 0) = some (wstr "cat") ∧
    (run_calls Dictionary.empty exCalls).1.id_to_word
        ((run_calls Dictionary.empty exCalls).1.word_to_id (wstr "cat")) = some (wstr "cat") ∧
    ((∀ j, 3 < j → exCalls[j]? ≠ some (wstr "cat", true)) →
      (run_calls Dictionary.empty exCalls).1.word_to_id (wstr "cat") =
        (run_calls Dictionary.empty exCalls).2.getD 3 0)) :=
  ⟨⟨by decide, by decide⟩, add_word_roundtrip exCalls 3 (wstr "cat") (by decide) (by decide)⟩

/-- C1 as stated fails when a word is inserted twice: `add_word("a")` returns 0, a second
`add_word("a")` returns 1, and afterwards `word_to_id("a")` is 1, not the id 0 that the
first call assigned (while `id_to_word(0)` is still "a"). -/
theorem add_word_roundtrip_duplicate :
    (run_calls Dictionary.empty [(wstr "a", true), (wstr "a", true)]).2 = [0, 1] ∧
    (run_calls Dictionary.empty [(wstr "a", true), (wstr "a", true)]).1.id_to_word 0
      = some (wstr "a") ∧
    (run_calls Dictionary.empty [(wstr "a", true), (wstr "a", true)]).1.word_to_id (wstr "a")
      = 1 ∧
    (run_calls Dictionary.empty [(wstr "a", true), (wstr "a", true)]).1.word_to_id (wstr "a")
      ≠ 0 := by
  decide

/-- C2, as amended. After any sequence of `add_word` calls on an empty dictionary that
stores at most 65536 words, `sorted` is a permutation of the ids `0 .. n-1` (`n` the
number of words) and the words `words[sorted[0]], words[sorted[1]], ...` are
non-decreasing in `wcscmp` order. -/
theorem sorted_index_invariant (calls : List (WString × Bool))
    (hsize : (stored calls).length ≤ 65536) :
    (run_calls Dictionary.empty calls).1.sorted.Perm
      (List.range (run_calls Dictionary.empty calls).1.words.length) ∧
    ((run_calls Dictionary.empty calls).1.sorted.map
      (fun wid => (run_calls Dictionary.empty calls).1.words.getD wid [])).Pairwise
      (fun a b => wcscmp a b ≤ 0) := by
  have hv := run_calls_empty_valid calls hsize
  refine ⟨hv.perm, ?_⟩
  rw [List.pairwise_map]
  refine hv.ordered.imp ?_
  intro a b hab
  rcases hab with hab | ⟨hab, _⟩
  · omega
  · rw [hab, wcscmp_self]

theorem sorted_index_invariant_witness :
    (stored exCalls).length ≤ 65536 ∧
    ((run_calls Dictionary.empty exCalls).1.sorted.Perm
      (List.range (run_calls Dictionary.empty exCalls).1.words.length) ∧
    ((run_calls Dictionary.empty exCalls).1.sorted.map
      (fun wid => (run_calls Dictionary.empty exCalls).1.words.getD wid [])).Pairwise
      (fun a b => wcscmp a b ≤ 0)) :=
  ⟨by decide, sorted_index_invariant exCalls (by decide)⟩

/-- C2 as stated fails beyond the 16-bit id range: after 65537 successful `add_word`
calls the dictionary holds 65537 words, but `sorted` is not a permutation of the ids
`0 .. 65536` (the last call stored the id `65536 % 65536 = 0` a second time). -/
theorem sorted_index_overflow :
    (run_calls Dictionary.empty (List.replicate 65537 (wstr "a", true))).1.words.length
      = 65537 ∧
    ¬ (run_calls Dictionary.empty (List.replicate 65537 (wstr "a", true))).1.sorted.Perm
      (List.range 65537) := by
  constructor
  · rw [run_replicate_words, List.length_replicate]
  · intro hperm
    have hmem : 65536 ∈
        (run_calls Dictionary.empty (List.replicate 65537 (wstr "a", true))).1.sorted :=
      hperm.mem_iff.2 (List.mem_range.2 (by omega))
    have := run_calls_sorted_lt _ Dictionary.empty (by simp [Dictionary.empty]) _ hmem
    omega

/-- C3, as amended. After any sequence of `add_word` calls on an empty dictionary that
stores at most 65535 words, `word_to_id(w)` returns WIDNONE if and only if no stored
word equals `w`, and when it returns another id, the word stored under that id is `w`. -/
theorem word_to_id_exact (calls : List (WString × Bool)) (w : WString)
    (hsize : (stored calls).length ≤ 65535) :
    ((run_calls Dictionary.empty calls).1.word_to_id w = WIDNONE ↔
      w ∉ (run_calls Dictionary.empty calls).1.words) ∧
    ((run_calls Dictionary.empty calls).1.word_to_id w ≠ WIDNONE →
      (run_calls Dictionary.empty calls).1.id_to_word
        ((run_calls Dictionary.empty calls).1.word_to_id w) = some w) := by
  have hv := run_calls_empty_valid calls (by omega)
  have hwords : (run_calls Dictionary.empty calls).1.words = stored calls := by
    rw [run_calls_words]
    rfl
  refine ⟨⟨?_, word_to_id_none hv⟩, ?_⟩
  · intro hnone hmem
    obtain ⟨A, B, hAB, hB⟩ := exists_last_occurrence hmem
    rw [word_to_id_last hv hAB hB] at hnone
    have hlen : A.length < (stored calls).length := by
      rw [← hwords, hAB]
      simp
    unfold WIDNONE at hnone
    omega
  · intro hne
    obtain ⟨h1, h2⟩ := word_to_id_word _ w hne
    unfold Dictionary.id_to_word
    rw [if_pos (hv.mem_lt h2), h1]

theorem word_to_id_exact_witness :
    (stored exCalls).length ≤ 65535 ∧
    (((run_calls Dictionary.empty exCalls).1.word_to_id (wstr "car") = WIDNONE ↔
      wstr "car" ∉ (run_calls Dictionary.empty exCalls).1.words) ∧
    ((run_calls Dictionary.empty exCalls).1.word_to_id (wstr "car") ≠ WIDNONE →
      (run_calls Dictionary.empty exCalls).1.id_to_word
        ((run_calls Dictionary.empty exCalls).1.word_to_id (wstr "car")) = some (wstr "car"))) :=
  ⟨by decide, word_to_id_exact exCalls (wstr "car") (by decide)⟩

/-- C3 as stated fails at 65536 stored words: the most recent insertion of "a" then has
the id 65535, which is WIDNONE, so `word_to_id("a")` returns WIDNONE although "a" is
stored. -/
theorem word_to_id_widnone_collision :
    wstr "a" ∈ (run_calls Dictionary.empty (List.replicate 65536 (wstr "a", true))).1.words ∧
    (run_calls Dictionary.empty (List.replicate 65536 (wstr "a", true))).1.word_to_id (wstr "a")
      = WIDNONE := by
  constructor
  · rw [run_replicate_words]
    exact List.mem_replicate.2 ⟨by omega, rfl⟩
  · exact run_replicate_lookup 65535 (wstr "a") (by omega)

/-- C4, as amended. In a sequence of `add_word` calls on an empty dictionary, a
successful call made while fewer than 65536 words are stored returns the number of
words stored before the call, and that id is strictly greater than the id returned
by every earlier successful call (so it is none of the ids assigned before). -/
theorem add_word_fresh_id (calls : List (WString × Bool)) (k : Nat) (w : WString)
    (hk : calls[k]? = some (w, true))
    (hsize : (run_calls Dictionary.empty (calls.take k)).1.get_num_word_types < 65536) :
    (run_calls Dictionary.empty calls).2.getD k 0 =
      (run_calls Dictionary.empty (calls.take k)).1.get_num_word_types ∧
    ∀ j v, j < k → calls[j]? = some (v, true) →
      (run_calls Dictionary.empty calls).2.getD j 0 <
        (run_calls Dictionary.empty calls).2.getD k 0 := by
  have hnum : (run_calls Dictionary.empty (calls.take k)).1.get_num_word_types =
      (stored (calls.take k)).length := by
    unfold Dictionary.get_num_word_types
    rw [run_calls_words]
    simp [Dictionary.empty]
  rw [hnum] at hsize ⊢
  have hid : (run_calls Dictionary.empty calls).2.getD k 0 = (stored (calls.take k)).length := by
    rw [run_calls_ids calls Dictionary.empty k w true hk]
    simp only [if_true, Dictionary.empty, List.length_nil, Nat.zero_add]
    exact Nat.mod_eq_of_lt hsize
  refine ⟨hid, ?_⟩
  intro j v hjk hj
  have hlt := stored_take_lt hjk hj
  rw [hid, run_calls_ids calls Dictionary.empty j v true hj]
  simp only [if_true, Dictionary.empty, List.length_nil, Nat.zero_add]
  rw [toWordId, Nat.mod_eq_of_lt (by omega)]
  exact hlt

theorem add_word_fresh_id_witness :
    (exCalls[3]? = some (wstr "cat", true) ∧
      (run_calls Dictionary.empty (exCalls.take 3)).1.get_num_word_types < 65536) ∧
    ((run_calls Dictionary.empty exCalls).2.getD 3 0 =
      (run_calls Dictionary.empty (exCalls.take 3)).1.get_num_word_types ∧
    ∀ j v, j < 3 → exCalls[j]? = some (v, true) →
      (run_calls Dictionary.empty exCalls).2.getD j 0 <
        (run_calls Dictionary.empty exCalls).2.getD 3 0) :=
  ⟨⟨by decide, by decide⟩, add_word_fresh_id exCalls 3 (wstr "cat") (by decide) (by decide)⟩

/-- C4 as stated fails beyond the 16-bit id range: on a dictionary that holds 65536
words a successful `add_word` returns 0, which is not the number of stored words and
is the id that the very first call returned. -/
theorem add_word_id_wraps :
    (run_calls Dictionary.empty (List.replicate 65536 (wstr "a", true))).1.get_num_word_types
      = 65536 ∧
    ((run_calls Dictionary.empty (List.replicate 65536 (wstr "a", true))).1.add_word
      (wstr "a") true).2 = 0 ∧
    (run_calls Dictionary.empty (List.replicate 65536 (wstr "a", true))).2.getD 0 1 = 0 := by
  have hwords : (run_calls Dictionary.empty (List.replicate 65536 (wstr "a", true))).1.words.length
      = 65536 := by
    rw [run_replicate_words, List.length_replicate]
  refine ⟨hwords, ?_, run_replicate_first 65535 (wstr "a")⟩
  rw [add_word_id, if_pos rfl, hwords]
  rfl

/-- C6, as amended. For the words "cat", "car", "dog" added in that order to an empty
dictionary (ids 0, 1, 2), `prefix_search` with prefix "ca", no candidate list,
INCLUDE_CONTROL_WORDS set and no filter option set returns exactly the ids of "car" and
"cat", "car" first; with no option set it returns them when the three words were added
after the four control words (ids 4, 5, 6). -/
theorem prefix_search_cat_car (E : Env) (options : Nat)
    (hinc : options &&& E.flags.INCLUDE_CONTROL_WORDS ≠ 0)
    (hfil : options &&& E.flags.FILTER_OPTIONS = 0) :
    ((run_calls Dictionary.empty catCarDog).2 = [0, 1, 2] ∧
      (run_calls Dictionary.empty catCarDog).1.prefix_search E (some (wstr "ca")) none []
        options = [1, 0]) ∧
    ((run_calls Dictionary.empty (controlWords ++ catCarDog)).2 = [0, 1, 2, 3, 4, 5, 6] ∧
      (run_calls Dictionary.empty (controlWords ++ catCarDog)).1.prefix_search E
        (some (wstr "ca")) none [] 0 = [5, 4]) := by
  have hset : isSet options E.flags.FILTER_OPTIONS = false := by
    unfold isSet
    simp [hfil]
  have hset2 : isSet options E.flags.INCLUDE_CONTROL_WORDS = true := by
    unfold isSet
    simpa using hinc
  have hset3 : ∀ x, isSet 0 x = false := by
    intro x
    unfold isSet
    simp
  refine ⟨⟨by decide, ?_⟩, by decide, ?_⟩
  · have hlen : ¬ wcslen (wstr "ca") = 0 := by decide
    simp only [Dictionary.prefix_search, hlen, hset, hset2, false_or, Bool.false_eq_true,
      if_false, if_true, Option.getD_some]
    decide
  · have hlen : ¬ wcslen (wstr "ca") = 0 := by decide
    simp only [Dictionary.prefix_search, hlen, hset3, false_or, Bool.false_eq_true,
      if_false, Option.getD_some]
    decide

theorem prefix_search_cat_car_witness :
    ((64 : Nat) &&& sampleEnv.flags.INCLUDE_CONTROL_WORDS ≠ 0 ∧
      (64 : Nat) &&& sampleEnv.flags.FILTER_OPTIONS = 0) ∧
    (((run_calls Dictionary.empty catCarDog).2 = [0, 1, 2] ∧
      (run_calls Dictionary.empty catCarDog).1.prefix_search sampleEnv (some (wstr "ca")) none []
        64 = [1, 0]) ∧
    ((run_calls Dictionary.empty (controlWords ++ catCarDog)).2 = [0, 1, 2, 3, 4, 5, 6] ∧
      (run_calls Dictionary.empty (controlWords ++ catCarDog)).1.prefix_search sampleEnv
        (some (wstr "ca")) none [] 0 = [5, 4])) :=
  ⟨⟨by decide, by decide⟩, prefix_search_cat_car sampleEnv 64 (by decide) (by decide)⟩

/-- C6 as stated fails: "cat", "car", "dog" added to an empty dictionary get the ids 0, 1, 2,
and with no option set `prefix_search("ca")` drops every id below NUM_CONTROL_WORDS = 4,
so it returns nothing. -/
theorem prefix_search_cat_car_empty :
    (run_calls Dictionary.empty catCarDog).2 = [0, 1, 2] ∧
    (run_calls Dictionary.empty catCarDog).1.prefix_search sampleEnv (some (wstr "ca")) none [] 0
      = [] := by
  decide

/-- C7. For an index vector `v` whose entries are valid indices into `cmp` and scores
of a totally ordered type, `stable_argsort_desc(v, cmp)` keeps the length of `v` and the
validity of its entries, and afterwards `cmp[v[i]] >= cmp[v[i+1]]` for every adjacent
pair `0 <= i < n-1`. -/
theorem stable_argsort_desc_sorts {α : Type} [LinearOrder α] [Inhabited α] (v : List Nat)
    (cmp : List α) (hvalid : ∀ x ∈ v, x < cmp.length) :
    (stable_argsort_desc v cmp).length = v.length ∧
    (∀ x ∈ stable_argsort_desc v cmp, x < cmp.length) ∧
    ∀ i, i + 1 < v.length →
      cmp.getD ((stable_argsort_desc v cmp).getD (i + 1) 0) default ≤
        cmp.getD ((stable_argsort_desc v cmp).getD i 0) default := by
  have hperm := stable_argsort_desc_perm v cmp
  refine ⟨hperm.length_eq, fun x hx => hvalid x (hperm.mem_iff.1 hx), ?_⟩
  intro i hi
  have hlen := hperm.length_eq
  have h1 : i < (stable_argsort_desc v cmp).length := by omega
  have h2 : i + 1 < (stable_argsort_desc v cmp).length := by omega
  rw [List.getD_eq_getElem _ _ h1, List.getD_eq_getElem _ _ h2]
  exact (List.pairwise_iff_getElem.1 (stable_argsort_desc_ranked v cmp)) i (i + 1) h1 h2
    (by omega)

theorem stable_argsort_desc_sorts_witness :
    (∀ x ∈ [2, 0, 1, 3], x < [5, 7, 6, 7].length) ∧
    ((stable_argsort_desc [2, 0, 1, 3] [5, 7, 6, 7]).length = [2, 0, 1, 3].length ∧
    (∀ x ∈ stable_argsort_desc [2, 0, 1, 3] [5, 7, 6, 7], x < [5, 7, 6, 7].length) ∧
    ∀ i, i + 1 < [2, 0, 1, 3].length →
      [5, 7, 6, 7].getD ((stable_argsort_desc [2, 0, 1, 3] [5, 7, 6, 7]).getD (i + 1) 0) default ≤
        [5, 7, 6, 7].getD ((stable_argsort_desc [2, 0, 1, 3] [5, 7, 6, 7]).getD i 0) default) :=
  ⟨by decide, stable_argsort_desc_sorts [2, 0, 1, 3] [5, 7, 6, 7] (by decide)⟩

/-- C8 fails on the code: for the identity index vector `[0,1,2,3]` and the scores
`[1,2,2,1]` the first pass (gap 2) exchanges the entries 0 and 2, and the result is
`[2,1,0,3]`: the entries 1 and 2 have the same score 2 and have changed their order. -/
theorem stable_argsort_desc_unstable :
    stable_argsort_desc [0, 1, 2, 3] [1, 2, 2, 1] = [2, 1, 0, 3] := by
  decide

/-- C9. With the scores `[a, b, a]` where `a < b` (such as 0.5, 0.9, 0.5),
`stable_argsort_desc` applied to the identity index vector `[0,1,2]` yields `[1,0,2]`. -/
theorem stable_argsort_desc_example {α : Type} [LinearOrder α] [Inhabited α] (a b : α)
    (hab : a < b) : stable_argsort_desc [0, 1, 2] [a, b, a] = [1, 0, 2] := by
  have h1 : ¬ b < a := not_lt.2 (le_of_lt hab)
  simp [stable_argsort_desc, argsort_gaps, argsort_pass, argsort_inner, List.range', hab, h1]

theorem stable_argsort_desc_example_witness :
    ((1 / 2 : ℚ) < 9 / 10) ∧
    stable_argsort_desc [0, 1, 2] [(1 / 2 : ℚ), 9 / 10, 1 / 2] = [1, 0, 2] :=
  ⟨by norm_num, stable_argsort_desc_example (1 / 2 : ℚ) (9 / 10) (by norm_num)⟩

/-- C10. When the context is not empty, NO_SORT is not set, the back-end returns one
probability per candidate and the limit `k` is not negative, `predict` returns
`min(k, number of candidates)` results: the candidates at the first positions of the
ranking `stable_argsort_desc` of all candidate positions, each with its probability;
and the probability of every returned result is at least the probability of every
candidate that is not returned. -/
theorem predict_limit_top {α : Type} [LinearOrder α] [Inhabited α] (E : Env)
    (m : LanguageModel α) (results : List (Result α)) (context : List WString) (limit : Int)
    (options : Nat) (wids : List Nat) (probs : List α) (hctx : context ≠ [])
    (hwids : m.get_candidates (m.words_to_ids (LanguageModel.split_context context).1)
      (LanguageModel.split_context context).2 options = wids)
    (hprobs : m.get_probs (m.words_to_ids (LanguageModel.split_context context).1) wids = probs)
    (_hlen : probs.length = wids.length) (hlimit : 0 ≤ limit)
    (hsort : options &&& E.flags.NO_SORT = 0) :
    (m.predict E results context limit options).length = min limit.toNat wids.length ∧
    (stable_argsort_desc (List.range wids.length) probs).Perm (List.range wids.length) ∧
    m.predict E results context limit options =
      ((stable_argsort_desc (List.range wids.length) probs).take
        (min limit.toNat wids.length)).map
        (fun j => { word := m.id_to_word (wids.getD j 0), p := probs.getD j default }) ∧
    ∀ res ∈ m.predict E results context limit options,
      ∀ j ∈ (stable_argsort_desc (List.range wids.length) probs).drop
          (min limit.toNat wids.length),
        probs.getD j default ≤ res.p := by
  have hperm := stable_argsort_desc_perm (List.range wids.length) probs
  have hrank := stable_argsort_desc_ranked (List.range wids.length) probs
  have hlen2 : (stable_argsort_desc (List.range wids.length) probs).length = wids.length := by
    rw [hperm.length_eq, List.length_range]
  have hset : isSet options E.flags.NO_SORT = false := by
    unfold isSet
    simp [hsort]
  have hsize : (if 0 ≤ limit ∧ limit < (wids.length : Int) then limit.toNat else wids.length)
      = min limit.toNat wids.length := by
    split
    · next h => omega
    · next h => omega
  have hne : ¬ context.length = 0 := fun h => hctx (List.length_eq_zero.1 h)
  have heq : m.predict E results context limit options =
      ((stable_argsort_desc (List.range wids.length) probs).take
        (min limit.toNat wids.length)).map
        (fun j => { word := m.id_to_word (wids.getD j 0), p := probs.getD j default }) := by
    simp only [LanguageModel.predict, hne, if_false, hwids, hprobs, hset, Bool.false_eq_true,
      not_false_eq_true, if_true, hsize]
    exact map_range_getD
      (fun j => (Result.mk (m.id_to_word (wids.getD j 0)) (probs.getD j default) : Result α))
      _ _ (by omega)
  refine ⟨?_, hperm, heq, ?_⟩
  · rw [heq, List.length_map, List.length_take, hlen2]
    omega
  · intro res hres j hj
    rw [heq, List.mem_map] at hres
    obtain ⟨a, ha, rfl⟩ := hres
    have hsplit := hrank
    unfold RankedDesc at hsplit
    rw [← List.take_append_drop (min limit.toNat wids.length)
      (stable_argsort_desc (List.range wids.length) probs), List.pairwise_append] at hsplit
    exact hsplit.2.2 a ha j hj

theorem predict_limit_top_witness :
    ([wstr "the", wstr "ca"] ≠ [] ∧
      sampleModel.get_candidates
        (sampleModel.words_to_ids (LanguageModel.split_context [wstr "the", wstr "ca"]).1)
        (LanguageModel.split_context [wstr "the", wstr "ca"]).2 0 = [7, 8, 9, 5, 4] ∧
      sampleModel.get_probs
        (sampleModel.words_to_ids (LanguageModel.split_context [wstr "the", wstr "ca"]).1)
        [7, 8, 9, 5, 4] = [4, 1, 3, 0, 3] ∧
      [4, 1, 3, 0, 3].length = [7, 8, 9, 5, 4].length ∧ (0 : Int) ≤ 2 ∧
      (0 : Nat) &&& sampleEnv.flags.NO_SORT = 0) ∧
    (sampleModel.predict sampleEnv [] [wstr "the", wstr "ca"] 2 0).length = 2 ∧
    (sampleModel.predict sampleEnv [] [wstr "the", wstr "ca"] 2 0).map (fun r => r.p) = [4, 3] :=
  ⟨⟨by decide, by decide, by decide, by decide, by decide, by decide⟩,
    (predict_limit_top sampleEnv sampleModel [] [wstr "the", wstr "ca"] 2 0 [7, 8, 9, 5, 4]
      [4, 1, 3, 0, 3] (by decide) (by decide) (by decide) (by decide) (by decide)
      (by decide)).1,
    by decide⟩

/-- C11. For a non-empty context `predict` returns exactly `min(limit, c)` results when
`limit >= 0` and exactly `c` results when `limit < 0`, where `c` is the number of
candidate ids that `get_candidates` produced; with `limit = 0` the result is empty. -/
theorem predict_result_length {P : Type} [LT P] [DecidableRel (fun a b : P => a < b)]
    [Inhabited P] (E : Env) (m : LanguageModel P) (results : List (Result P))
    (context : List WString) (limit : Int) (options : Nat) (hctx : context ≠ []) :
    (0 ≤ limit → (m.predict E results context limit options).length =
      min limit.toNat (m.get_candidates (m.words_to_ids (LanguageModel.split_context context).1)
        (LanguageModel.split_context context).2 options).length) ∧
    (limit < 0 → (m.predict E results context limit options).length =
      (m.get_candidates (m.words_to_ids (LanguageModel.split_context context).1)
        (LanguageModel.split_context context).2 options).length) ∧
    (limit = 0 → m.predict E results context limit options = []) := by
  have heq := predict_eq_map E m results context limit options _ _ hctx rfl rfl
  have hlen : ∀ k, k ≤ (m.get_candidates (m.words_to_ids (LanguageModel.split_context context).1)
        (LanguageModel.split_context context).2 options).length →
      ((if isSet options E.flags.NO_SORT then List.range (m.get_candidates
          (m.words_to_ids (LanguageModel.split_context context).1)
          (LanguageModel.split_context context).2 options).length
        else stable_argsort_desc (List.range (m.get_candidates
          (m.words_to_ids (LanguageModel.split_context context).1)
          (LanguageModel.split_context context).2 options).length)
          (m.get_probs (m.words_to_ids (LanguageModel.split_context context).1)
            (m.get_candidates (m.words_to_ids (LanguageModel.split_context context).1)
              (LanguageModel.split_context context).2 options))).take k).length = k := by
    intro k hk
    rw [List.length_take, (predict_order_perm E options _ _).length_eq, List.length_range]
    omega
  refine ⟨?_, ?_, ?_⟩
  · intro h
    rw [heq, List.length_map, if_pos h, hlen _ (Nat.min_le_right _ _)]
  · intro h
    rw [heq, List.length_map, if_neg (by omega), hlen _ (le_refl _)]
  · intro h
    subst h
    rw [heq]
    simp

theorem predict_result_length_witness :
    ([wstr "the", wstr "ca"] ≠ []) ∧
    (((0 : Int) ≤ 2 → (sampleModel.predict sampleEnv [] [wstr "the", wstr "ca"] 2 0).length =
      min (2 : Int).toNat (sampleModel.get_candidates
        (sampleModel.words_to_ids (LanguageModel.split_context [wstr "the", wstr "ca"]).1)
        (LanguageModel.split_context [wstr "the", wstr "ca"]).2 0).length) ∧
    ((2 : Int) < 0 → (sampleModel.predict sampleEnv [] [wstr "the", wstr "ca"] 2 0).length =
      (sampleModel.get_candidates
        (sampleModel.words_to_ids (LanguageModel.split_context [wstr "the", wstr "ca"]).1)
        (LanguageModel.split_context [wstr "the", wstr "ca"]).2 0).length) ∧
    ((2 : Int) = 0 → sampleModel.predict sampleEnv [] [wstr "the", wstr "ca"] 2 0 = [])) :=
  ⟨by decide, predict_result_length sampleEnv sampleModel [] [wstr "the", wstr "ca"] 2 0
    (by decide)⟩

/-- C12. For a non-empty context and any back-end, when NO_SORT is not set the
probabilities of the results that `predict` returns never increase from the first
result to the last (probabilities compared in a total order). -/
theorem predict_ranked {α : Type} [LinearOrder α] [Inhabited α] (E : Env)
    (m : LanguageModel α) (results : List (Result α)) (context : List WString) (limit : Int)
    (options : Nat) (hctx : context ≠ []) (hsort : options &&& E.flags.NO_SORT = 0) :
    ((m.predict E results context limit options).map (fun r => r.p)).Pairwise
      (fun a b => b ≤ a) := by
  have hset : isSet options E.flags.NO_SORT = false := by
    unfold isSet
    simp [hsort]
  rw [predict_eq_map E m results context limit options _ _ hctx rfl rfl, hset, List.map_map,
    List.pairwise_map]
  simp only [Bool.false_eq_true, if_false, Function.comp]
  exact (stable_argsort_desc_ranked _ _).sublist (List.take_sublist _ _)

theorem predict_ranked_witness :
    ([wstr "the", wstr "ca"] ≠ [] ∧ (0 : Nat) &&& sampleEnv.flags.NO_SORT = 0) ∧
    ((sampleModel.predict sampleEnv [] [wstr "the", wstr "ca"] (-1) 0).map
      (fun r => r.p)).Pairwise (fun a b => b ≤ a) :=
  ⟨⟨by decide, by decide⟩,
    predict_ranked sampleEnv sampleModel [] [wstr "the", wstr "ca"] (-1) 0 (by decide)
      (by decide)⟩

/-- C13. For a non-empty context, with `wids` the candidates and `probabilities` the
vector the back-end filled (one entry per candidate): there is a list of distinct
candidate positions such that the results of `predict` are, in order, the pairs
`(id_to_word(wids[j]), probabilities[j])` for the positions `j` of the list, and with a
negative limit the list is a rearrangement of all candidate positions. -/
theorem predict_alignment {P : Type} [LT P] [DecidableRel (fun a b : P => a < b)]
    [Inhabited P] (E : Env) (m : LanguageModel P) (results : List (Result P))
    (context : List WString) (limit : Int) (options : Nat) (wids : List Nat) (probs : List P)
    (hctx : context ≠ [])
    (hwids : m.get_candidates (m.words_to_ids (LanguageModel.split_context context).1)
      (LanguageModel.split_context context).2 options = wids)
    (hprobs : m.get_probs (m.words_to_ids (LanguageModel.split_context context).1) wids = probs)
    (hlen : probs.length = wids.length) :
    ∃ positions : List Nat,
      positions.Nodup ∧ (∀ j ∈ positions, j < wids.length ∧ j < probs.length) ∧
      m.predict E results context limit options =
        positions.map (fun j => Result.mk (m.id_to_word (wids.getD j 0)) (probs.getD j default)) ∧
      (limit < 0 → positions.Perm (List.range wids.length)) := by
  have hperm := predict_order_perm E options wids probs
  have hsub := List.take_sublist (if 0 ≤ limit then min limit.toNat wids.length else wids.length)
    (if isSet options E.flags.NO_SORT then List.range wids.length
      else stable_argsort_desc (List.range wids.length) probs)
  refine ⟨_, ?_, ?_, predict_eq_map E m results context limit options wids probs hctx hwids
    hprobs, ?_⟩
  · exact (hperm.nodup_iff.2 (List.nodup_range _)).sublist hsub
  · intro j hj
    have := List.mem_range.1 (hperm.mem_iff.1 (hsub.subset hj))
    omega
  · intro hneg
    rw [if_neg (by omega), List.take_of_length_le (by rw [hperm.length_eq, List.length_range])]
    exact hperm

theorem predict_alignment_witness :
    ([wstr "the", wstr "ca"] ≠ [] ∧
      sampleModel.get_candidates
        (sampleModel.words_to_ids (LanguageModel.split_context [wstr "the", wstr "ca"]).1)
        (LanguageModel.split_context [wstr "the", wstr "ca"]).2 0 = [7, 8, 9, 5, 4] ∧
      sampleModel.get_probs
        (sampleModel.words_to_ids (LanguageModel.split_context [wstr "the", wstr "ca"]).1)
        [7, 8, 9, 5, 4] = [4, 1, 3, 0, 3] ∧
      [4, 1, 3, 0, 3].length = [7, 8, 9, 5, 4].length) ∧
    ∃ positions : List Nat,
      positions.Nodup ∧
      (∀ j ∈ positions, j < [7, 8, 9, 5, 4].length ∧ j < [4, 1, 3, 0, 3].length) ∧
      sampleModel.predict sampleEnv [] [wstr "the", wstr "ca"] (-1) 0 =
        positions.map (fun j => Result.mk (sampleModel.id_to_word ([7, 8, 9, 5, 4].getD j 0))
          ([4, 1, 3, 0, 3].getD j default)) ∧
      ((-1 : Int) < 0 → positions.Perm (List.range [7, 8, 9, 5, 4].length)) :=
  ⟨⟨by decide, by decide, by decide, by decide⟩,
    predict_alignment sampleEnv sampleModel [] [wstr "the", wstr "ca"] (-1) 0 [7, 8, 9, 5, 4]
      [4, 1, 3, 0, 3] (by decide) (by decide) (by decide) (by decide)⟩

/-- C14 fails on the code: with an empty context `predict` returns before
`results.clear()`, so a result vector that holds an entry on entry still holds it
afterwards (no call of the back-end is made). -/
theorem predict_empty_context_keeps_results :
    (sampleModel.predict sampleEnv [Result.mk (wstr "old") 7] [] 10 0).map
        (fun r => (r.word, r.p)) = [(wstr "old", 7)] ∧
    sampleModel.predict_calls [] 0 = [] := by
  constructor
  · decide
  · rfl

/-- C16. The method `Dictionary::id_to_word(id)` returns the word stored at position `id`
when `id` is below the number of stored words and NULL otherwise, and
`LanguageModel::id_to_word(id)` returns that word in the first case and the empty
string in the second, for every id. -/
theorem id_to_word_total {P : Type} (m : LanguageModel P) (id : Nat) :
    m.dictionary.id_to_word id = m.dictionary.words[id]? ∧
    (∀ h : id < m.dictionary.get_num_word_types,
      m.dictionary.id_to_word id = some (m.dictionary.words.get ⟨id, h⟩) ∧
      m.id_to_word id = m.dictionary.words.get ⟨id, h⟩) ∧
    (m.dictionary.get_num_word_types ≤ id →
      m.dictionary.id_to_word id = none ∧ m.id_to_word id = []) := by
  unfold LanguageModel.id_to_word Dictionary.id_to_word Dictionary.get_num_word_types
  refine ⟨?_, ?_, ?_⟩
  · split
    · next h => rw [List.getD_eq_getElem _ _ h, List.getElem?_eq_getElem h]
    · next h => rw [List.getElem?_eq_none (by omega)]
  · intro h
    rw [if_pos h, List.getD_eq_getElem _ _ h]
    exact ⟨rfl, rfl⟩
  · intro h
    rw [if_neg (by omega)]
    exact ⟨rfl, rfl⟩

/-- C17. When `MemAlloc` fails inside `Dictionary::add_word`, the call returns
`(WordId)-1` (65535, the value of WIDNONE) and leaves the word list and the sorted
index as they were. -/
theorem add_word_alloc_failure (d : Dictionary) (word : WString) :
    (d.add_word word false).2 = 65535 ∧ (d.add_word word false).2 = WIDNONE ∧
    (d.add_word word false).1.words = d.words ∧
    (d.add_word word false).1.sorted = d.sorted ∧ (d.add_word word false).1 = d := by
  simp [Dictionary.add_word, WIDNONE]

/-- C19 (amended). For every prefix (also the empty and the NULL prefix) and every
candidate word with a first character `c` (a word that is not empty): `matches` returns
false when IGNORE_CAPITALIZED is set and `c` is upper-case, and when
IGNORE_NON_CAPITALIZED is set and `c` is not upper-case. -/
theorem matches_capitalization_gate (E : Env) (pfx : Option WString) (options : Nat)
    (w : WString) (c : Nat) (rest : WString) (hw : w = c :: rest) (hc : c ≠ 0) :
    (options &&& E.flags.IGNORE_CAPITALIZED ≠ 0 → E.iswupper c = true →
      (PrefixCmp.new E pfx options).matches E w = false) ∧
    (options &&& E.flags.IGNORE_NON_CAPITALIZED ≠ 0 → E.iswupper c = false →
      (PrefixCmp.new E pfx options).matches E w = false) := by
  subst hw
  have hopt : (PrefixCmp.new E pfx options).options = options := by
    unfold PrefixCmp.new
    rfl
  constructor
  · intro hset hup
    unfold PrefixCmp.matches
    simp only [hopt, List.headD_cons]
    rw [if_pos ⟨hc, (isSet_eq_true_iff _ _).2 hset, hup⟩]
  · intro hset hup
    unfold PrefixCmp.matches
    simp only [hopt, List.headD_cons]
    rw [if_neg (by rw [hup]; simp), if_pos ⟨hc, (isSet_eq_true_iff _ _).2 hset, by rw [hup]; simp⟩]

theorem matches_capitalization_gate_witness :
    (wstr "Cat" = 67 :: wstr "at" ∧ (67 : Nat) ≠ 0) ∧
    (((16 : Nat) &&& sampleEnv.flags.IGNORE_CAPITALIZED ≠ 0 → sampleEnv.iswupper 67 = true →
      (PrefixCmp.new sampleEnv (some []) 16).matches sampleEnv (wstr "Cat") = false) ∧
    ((16 : Nat) &&& sampleEnv.flags.IGNORE_NON_CAPITALIZED ≠ 0 → sampleEnv.iswupper 67 = false →
      (PrefixCmp.new sampleEnv (some []) 16).matches sampleEnv (wstr "Cat") = false)) ∧
    (PrefixCmp.new sampleEnv (some []) 16).matches sampleEnv (wstr "Cat") = false ∧
    (PrefixCmp.new sampleEnv (some []) 32).matches sampleEnv (wstr "cat") = false :=
  ⟨⟨by decide, by decide⟩,
    matches_capitalization_gate sampleEnv (some []) 16 (wstr "Cat") 67 (wstr "at") (by decide)
      (by decide),
    by decide, by decide⟩

/-- C20. For a non-empty prefix `p` of length `n` and a word `w` that the capitalization
gate does not reject (`towlower` mapping NUL to NUL): the constructor folds every
character of `p` by `fold`, and `matches(w)` returns true if and only if `w` has at
least `n` characters and, for every `i < n`, `fold(w[i])` is not NUL and equals the
`i`-th character of the folded prefix; `fold` applies `towlower` when CASE_INSENSITIVE
is set and then `op_remove_accent` when ACCENT_INSENSITIVE is set. -/
theorem matches_character_comparison (E : Env) (p w : WString) (options : Nat) (hp : p ≠ [])
    (h0 : E.towlower 0 = 0)
    (hcap : ¬ (w.headD 0 ≠ 0 ∧ options &&& E.flags.IGNORE_CAPITALIZED ≠ 0 ∧
      E.iswupper (w.headD 0) = true))
    (hnon : ¬ (w.headD 0 ≠ 0 ∧ options &&& E.flags.IGNORE_NON_CAPITALIZED ≠ 0 ∧
      E.iswupper (w.headD 0) = false)) :
    (PrefixCmp.new E (some p) options).pfx = p.map (PrefixCmp.fold E options) ∧
    (∀ c, PrefixCmp.fold E options c =
      (if options &&& E.flags.ACCENT_INSENSITIVE ≠ 0 then
        op_remove_accent E (if options &&& E.flags.CASE_INSENSITIVE ≠ 0 then E.towlower c else c)
      else (if options &&& E.flags.CASE_INSENSITIVE ≠ 0 then E.towlower c else c))) ∧
    ((PrefixCmp.new E (some p) options).matches E w = true ↔
      p.length ≤ w.length ∧ ∀ i, i < p.length →
        PrefixCmp.fold E options (w.getD i 0) ≠ 0 ∧
        PrefixCmp.fold E options (w.getD i 0) = (p.map (PrefixCmp.fold E options)).getD i 0) := by
  obtain ⟨hpfx, hopt⟩ := new_pfx E p options
  have hlen : p.length ≠ 0 := fun h => hp (List.length_eq_zero.1 h)
  refine ⟨hpfx, ?_, ?_⟩
  · intro c
    unfold PrefixCmp.fold
    simp only [← isSet_eq_true_iff]
  · unfold PrefixCmp.matches
    simp only [hopt, hpfx, List.length_map]
    rw [if_neg (by
      rintro ⟨h1, h2, h3⟩
      exact hcap ⟨h1, (isSet_eq_true_iff _ _).1 h2, h3⟩)]
    rw [if_neg (by
      rintro ⟨h1, h2, h3⟩
      exact hnon ⟨h1, (isSet_eq_true_iff _ _).1 h2, by simpa using h3⟩)]
    rw [if_neg hlen, matches_loop_iff]
    constructor
    · intro h
      have hall : ∀ i, i < p.length →
          PrefixCmp.fold E options (w.getD i 0) ≠ 0 ∧
          PrefixCmp.fold E options (w.getD i 0) =
            (p.map (PrefixCmp.fold E options)).getD i 0 :=
        fun i hi => h i (by omega)
      refine ⟨?_, hall⟩
      by_contra hshort
      have hlt : w.length < p.length := by omega
      have := (hall w.length hlt).1
      rw [List.getD_eq_default _ _ (le_refl _)] at this
      exact this (fold_zero E options h0)
    · rintro ⟨_, h⟩ i hi
      exact h i (by omega)

theorem matches_character_comparison_witness :
    (wstr "Ca" ≠ [] ∧ sampleEnv.towlower 0 = 0 ∧
      ¬ ((wstr "cat").headD 0 ≠ 0 ∧ (1 : Nat) &&& sampleEnv.flags.IGNORE_CAPITALIZED ≠ 0 ∧
        sampleEnv.iswupper ((wstr "cat").headD 0) = true) ∧
      ¬ ((wstr "cat").headD 0 ≠ 0 ∧ (1 : Nat) &&& sampleEnv.flags.IGNORE_NON_CAPITALIZED ≠ 0 ∧
        sampleEnv.iswupper ((wstr "cat").headD 0) = false)) ∧
    ((PrefixCmp.new sampleEnv (some (wstr "Ca")) 1).matches sampleEnv (wstr "cat") = true ↔
      (wstr "Ca").length ≤ (wstr "cat").length ∧ ∀ i, i < (wstr "Ca").length →
        PrefixCmp.fold sampleEnv 1 ((wstr "cat").getD i 0) ≠ 0 ∧
        PrefixCmp.fold sampleEnv 1 ((wstr "cat").getD i 0) =
          ((wstr "Ca").map (PrefixCmp.fold sampleEnv 1)).getD i 0) ∧
    (PrefixCmp.new sampleEnv (some (wstr "Ca")) 1).matches sampleEnv (wstr "cat") = true ∧
    (PrefixCmp.new sampleEnv (some (wstr "Ca")) 1).matches sampleEnv (wstr "c") = false :=
  ⟨⟨by decide, by decide, by decide, by decide⟩,
    (matches_character_comparison sampleEnv (wstr "Ca") (wstr "cat") 1 (by decide) (by decide)
      (by decide) (by decide)).2.2,
    by decide, by decide⟩

/-- C21. With an empty prefix (the empty string, or no prefix at all) `matches` returns
true for every word that the capitalization gate does not reject, whatever the options,
the case- and accent-insensitivity options among them, are. -/
theorem matches_empty_prefix (E : Env) (options : Nat) (w : WString)
    (hcap : ¬ (w.headD 0 ≠ 0 ∧ options &&& E.flags.IGNORE_CAPITALIZED ≠ 0 ∧
      E.iswupper (w.headD 0) = true))
    (hnon : ¬ (w.headD 0 ≠ 0 ∧ options &&& E.flags.IGNORE_NON_CAPITALIZED ≠ 0 ∧
      E.iswupper (w.headD 0) = false)) :
    (PrefixCmp.new E (some []) options).matches E w = true ∧
    (PrefixCmp.new E none options).matches E w = true := by
  obtain ⟨hpfx, hopt⟩ := new_pfx E [] options
  obtain ⟨hpfx2, hopt2⟩ := new_pfx_none E options
  constructor
  · rw [matches_gate_open E _ w (by rw [hopt]; exact hcap) (by rw [hopt]; exact hnon), hpfx]
    rfl
  · rw [matches_gate_open E _ w (by rw [hopt2]; exact hcap) (by rw [hopt2]; exact hnon), hpfx2]
    rfl

theorem matches_empty_prefix_witness :
    (¬ ((wstr "cat").headD 0 ≠ 0 ∧ (21 : Nat) &&& sampleEnv.flags.IGNORE_CAPITALIZED ≠ 0 ∧
        sampleEnv.iswupper ((wstr "cat").headD 0) = true) ∧
      ¬ ((wstr "cat").headD 0 ≠ 0 ∧ (21 : Nat) &&& sampleEnv.flags.IGNORE_NON_CAPITALIZED ≠ 0 ∧
        sampleEnv.iswupper ((wstr "cat").headD 0) = false)) ∧
    ((PrefixCmp.new sampleEnv (some []) 21).matches sampleEnv (wstr "cat") = true ∧
      (PrefixCmp.new sampleEnv none 21).matches sampleEnv (wstr "cat") = true) ∧
    (PrefixCmp.new sampleEnv (some []) 21).matches sampleEnv (wstr "Cat") = false :=
  ⟨⟨by decide, by decide⟩,
    matches_empty_prefix sampleEnv 21 (wstr "cat") (by decide) (by decide), by decide⟩

/-- C22. With CASE_INSENSITIVE set and no capitalization filter set, a `PrefixCmp` built
from the prefix "Ca" matches the word "cat", when `towlower` maps `C` to `c` and leaves
the lower-case ASCII letters unchanged; ACCENT_INSENSITIVE may be set or not. -/
theorem matches_case_insensitive_example (E : Env) (options : Nat)
    (hci : options &&& E.flags.CASE_INSENSITIVE ≠ 0)
    (hcap : options &&& E.flags.IGNORE_CAPITALIZED = 0)
    (hnon : options &&& E.flags.IGNORE_NON_CAPITALIZED = 0)
    (hC : E.towlower 0x43 = 0x63)
    (hlow : ∀ c, 0x61 ≤ c → c ≤ 0x7a → E.towlower c = c) :
    (PrefixCmp.new E (some (wstr "Ca")) options).matches E (wstr "cat") = true := by
  have hp : wstr "Ca" = [0x43, 0x61] := by decide
  have hw : wstr "cat" = [0x63, 0x61, 0x74] := by decide
  have hc := hlow 0x63 (by decide) (by decide)
  have ha := hlow 0x61 (by decide) (by decide)
  have f43 := fold_case_ascii E options 0x43 hci (by rw [hC]; decide)
  have f63 := fold_case_ascii E options 0x63 hci (by rw [hc]; decide)
  have f61 := fold_case_ascii E options 0x61 hci (by rw [ha]; decide)
  rw [hC] at f43
  rw [hc] at f63
  rw [ha] at f61
  apply matches_of_fold
  · rintro ⟨_, h, _⟩
    exact h hcap
  · rintro ⟨_, h, _⟩
    exact h hnon
  · rw [hp, hw]
    intro i hi
    have hi2 : i < 2 := hi
    interval_cases i
    · show PrefixCmp.fold E options 0x63 ≠ 0 ∧
        PrefixCmp.fold E options 0x63 = PrefixCmp.fold E options 0x43
      rw [f63, f43]
      exact ⟨by decide, rfl⟩
    · show PrefixCmp.fold E options 0x61 ≠ 0 ∧
        PrefixCmp.fold E options 0x61 = PrefixCmp.fold E options 0x61
      rw [f61]
      exact ⟨by decide, rfl⟩

theorem matches_case_insensitive_example_witness :
    ((1 : Nat) &&& sampleEnv.flags.CASE_INSENSITIVE ≠ 0 ∧
      (1 : Nat) &&& sampleEnv.flags.IGNORE_CAPITALIZED = 0 ∧
      (1 : Nat) &&& sampleEnv.flags.IGNORE_NON_CAPITALIZED = 0 ∧
      sampleEnv.towlower 0x43 = 0x63 ∧
      ∀ c, 0x61 ≤ c → c ≤ 0x7a → sampleEnv.towlower c = c) ∧
    (PrefixCmp.new sampleEnv (some (wstr "Ca")) 1).matches sampleEnv (wstr "cat") = true ∧
    (PrefixCmp.new sampleEnv (some (wstr "Ca")) 0).matches sampleEnv (wstr "cat") = false :=
  ⟨⟨by decide, by decide, by decide, by decide, fun c h1 h2 => by
      show (if 65 ≤ c ∧ c ≤ 90 then c + 32 else c) = c
      rw [if_neg (by omega)]⟩,
    matches_case_insensitive_example sampleEnv 1 (by decide) (by decide) (by decide) (by decide)
      (fun c h1 h2 => by
        show (if 65 ≤ c ∧ c ≤ 90 then c + 32 else c) = c
        rw [if_neg (by omega)]),
    by decide⟩

/-- C23. With ACCENT_INSENSITIVE set (and neither case folding nor a capitalization filter
set) and a strictly ascending fold table that holds the pair (U+00E9, `e`), a `PrefixCmp`
built from "café" matches the word "cafe", and one built from "cafe" matches "café". -/
theorem matches_accent_insensitive_example (E : Env) (options : Nat)
    (hai : options &&& E.flags.ACCENT_INSENSITIVE ≠ 0)
    (hci : options &&& E.flags.CASE_INSENSITIVE = 0)
    (hcap : options &&& E.flags.IGNORE_CAPITALIZED = 0)
    (hnon : options &&& E.flags.IGNORE_NON_CAPITALIZED = 0)
    (hs : (E.accent_transform.map Prod.fst).Pairwise (fun a b => a < b))
    (hmem : (0xe9, 0x65) ∈ E.accent_transform) :
    (PrefixCmp.new E (some cafeAccent) options).matches E cafePlain = true ∧
    (PrefixCmp.new E (some cafePlain) options).matches E cafeAccent = true := by
  have f63 : PrefixCmp.fold E options 0x63 = 0x63 := by
    rw [fold_accent_only E options _ hai hci, op_remove_accent_ascii E _ (by decide)]
  have f61 : PrefixCmp.fold E options 0x61 = 0x61 := by
    rw [fold_accent_only E options _ hai hci, op_remove_accent_ascii E _ (by decide)]
  have f66 : PrefixCmp.fold E options 0x66 = 0x66 := by
    rw [fold_accent_only E options _ hai hci, op_remove_accent_ascii E _ (by decide)]
  have f65 : PrefixCmp.fold E options 0x65 = 0x65 := by
    rw [fold_accent_only E options _ hai hci, op_remove_accent_ascii E _ (by decide)]
  have fe9 : PrefixCmp.fold E options 0xe9 = 0x65 := by
    rw [fold_accent_only E options _ hai hci, op_remove_accent_hit E _ _ hs (by decide) hmem]
  constructor
  · apply matches_of_fold
    · rintro ⟨_, h, _⟩
      exact h hcap
    · rintro ⟨_, h, _⟩
      exact h hnon
    · intro i hi
      have hi2 : i < 4 := hi
      interval_cases i
      · show PrefixCmp.fold E options 0x63 ≠ 0 ∧
          PrefixCmp.fold E options 0x63 = PrefixCmp.fold E options 0x63
        rw [f63]
        exact ⟨by decide, rfl⟩
      · show PrefixCmp.fold E options 0x61 ≠ 0 ∧
          PrefixCmp.fold E options 0x61 = PrefixCmp.fold E options 0x61
        rw [f61]
        exact ⟨by decide, rfl⟩
      · show PrefixCmp.fold E options 0x66 ≠ 0 ∧
          PrefixCmp.fold E options 0x66 = PrefixCmp.fold E options 0x66
        rw [f66]
        exact ⟨by decide, rfl⟩
      · show PrefixCmp.fold E options 0x65 ≠ 0 ∧
          PrefixCmp.fold E options 0x65 = PrefixCmp.fold E options 0xe9
        rw [f65, fe9]
        exact ⟨by decide, rfl⟩
  · apply matches_of_fold
    · rintro ⟨_, h, _⟩
      exact h hcap
    · rintro ⟨_, h, _⟩
      exact h hnon
    · intro i hi
      have hi2 : i < 4 := hi
      interval_cases i
      · show PrefixCmp.fold E options 0x63 ≠ 0 ∧
          PrefixCmp.fold E options 0x63 = PrefixCmp.fold E options 0x63
        rw [f63]
        exact ⟨by decide, rfl⟩
      · show PrefixCmp.fold E options 0x61 ≠ 0 ∧
          PrefixCmp.fold E options 0x61 = PrefixCmp.fold E options 0x61
        rw [f61]
        exact ⟨by decide, rfl⟩
      · show PrefixCmp.fold E options 0x66 ≠ 0 ∧
          PrefixCmp.fold E options 0x66 = PrefixCmp.fold E options 0x66
        rw [f66]
        exact ⟨by decide, rfl⟩
      · show PrefixCmp.fold E options 0xe9 ≠ 0 ∧
          PrefixCmp.fold E options 0xe9 = PrefixCmp.fold E options 0x65
        rw [f65, fe9]
        exact ⟨by decide, rfl⟩

theorem matches_accent_insensitive_example_witness :
    ((4 : Nat) &&& sampleEnv.flags.ACCENT_INSENSITIVE ≠ 0 ∧
      (4 : Nat) &&& sampleEnv.flags.CASE_INSENSITIVE = 0 ∧
      (4 : Nat) &&& sampleEnv.flags.IGNORE_CAPITALIZED = 0 ∧
      (4 : Nat) &&& sampleEnv.flags.IGNORE_NON_CAPITALIZED = 0 ∧
      (sampleEnv.accent_transform.map Prod.fst).Pairwise (fun a b => a < b) ∧
      (0xe9, 0x65) ∈ sampleEnv.accent_transform) ∧
    ((PrefixCmp.new sampleEnv (some cafeAccent) 4).matches sampleEnv cafePlain = true ∧
      (PrefixCmp.new sampleEnv (some cafePlain) 4).matches sampleEnv cafeAccent = true) ∧
    (PrefixCmp.new sampleEnv (some cafeAccent) 0).matches sampleEnv cafePlain = false :=
  ⟨⟨by decide, by decide, by decide, by decide, by decide, by decide⟩,
    matches_accent_insensitive_example sampleEnv 4 (by decide) (by decide) (by decide)
      (by decide) (by decide) (by decide),
    by decide⟩

/-- C24. Accent folding: for a fold table sorted strictly ascending by its first column,
`op_remove_accent(c)` returns `c` for every code point `c ≤ 0x7F`, returns the base code
point `b` when the pair `(c, b)` is in the table (for the code points `c > 0x7F`, which
are the ones that reach the table), and returns `c` when `c > 0x7F` is not a
first-column entry of the table. -/
theorem op_remove_accent_spec (E : Env) (c : Nat)
    (hs : (E.accent_transform.map Prod.fst).Pairwise (fun a b => a < b)) :
    (c ≤ 0x7f → op_remove_accent E c = c) ∧
    (∀ b, 0x7f < c → (c, b) ∈ E.accent_transform → op_remove_accent E c = b) ∧
    (0x7f < c → c ∉ E.accent_transform.map Prod.fst → op_remove_accent E c = c) :=
  ⟨op_remove_accent_ascii E c, fun b hc hmem => op_remove_accent_hit E c b hs hc hmem,
    fun _ hmem => op_remove_accent_miss E c hmem⟩

theorem op_remove_accent_spec_witness :
    (sampleEnv.accent_transform.map Prod.fst).Pairwise (fun a b => a < b) ∧
    ((0xe9 ≤ 0x7f → op_remove_accent sampleEnv 0xe9 = 0xe9) ∧
      (∀ b, 0x7f < 0xe9 → (0xe9, b) ∈ sampleEnv.accent_transform →
        op_remove_accent sampleEnv 0xe9 = b) ∧
      (0x7f < 0xe9 → 0xe9 ∉ sampleEnv.accent_transform.map Prod.fst →
        op_remove_accent sampleEnv 0xe9 = 0xe9)) ∧
    op_remove_accent sampleEnv 0xe9 = 0x65 ∧
    op_remove_accent sampleEnv 0xea = 0xea ∧
    op_remove_accent sampleEnv 0x65 = 0x65 :=
  ⟨by decide, op_remove_accent_spec sampleEnv 0xe9 (by decide), by decide, by decide, by decide⟩

/-- C25 (as stated, refuted). Both capitalization filters are set; the dictionary holds
the empty word as its only word; with the empty prefix the exhaustive search returns its
id 0, and so does the search over the candidate list `[0]`: the gate is skipped for a
word without a first character. -/
theorem prefix_search_both_ignored_empty_word :
    (112 : Nat) &&& sampleEnv.flags.IGNORE_CAPITALIZED ≠ 0 ∧
    (112 : Nat) &&& sampleEnv.flags.IGNORE_NON_CAPITALIZED ≠ 0 ∧
    (run_calls Dictionary.empty emptyWordCalls).1.words = [[]] ∧
    Dictionary.prefix_search sampleEnv (run_calls Dictionary.empty emptyWordCalls).1
      (some []) none [] 112 = [0] ∧
    Dictionary.prefix_search sampleEnv (run_calls Dictionary.empty emptyWordCalls).1
      (some []) (some [0]) [] 112 = [0] := by
  decide

/-- C25 (amended). When both IGNORE_CAPITALIZED and IGNORE_NON_CAPITALIZED are set (they
are filter options), `prefix_search` appends nothing, for every dictionary, every prefix
and every candidate list of stored ids, provided the prefix is not empty or the
dictionary holds no empty word. -/
theorem prefix_search_both_ignored (E : Env) (d : Dictionary) (pfx : Option WString)
    (wids_in : Option (List Nat)) (wids_out : List Nat) (options : Nat)
    (hcap : options &&& E.flags.IGNORE_CAPITALIZED ≠ 0)
    (hnon : options &&& E.flags.IGNORE_NON_CAPITALIZED ≠ 0)
    (hfilter : options &&& E.flags.FILTER_OPTIONS ≠ 0)
    (h0 : E.towlower 0 = 0)
    (hwords : ∀ w, w ∈ d.words → 0 ∉ w)
    (hin : ∀ wids, wids_in = some wids → ∀ wid, wid ∈ wids → wid < d.words.length)
    (hne : pfx.getD [] ≠ [] ∨ [] ∉ d.words) :
    Dictionary.prefix_search E d pfx wids_in wids_out options = wids_out := by
  have hrej : ∀ w, w ∈ d.words → (PrefixCmp.new E pfx options).matches E w = false := by
    intro w hw
    cases w with
    | nil =>
      rcases hne with hp | hp
      · apply matches_empty_word E _ h0
        cases pfx with
        | none => exact absurd rfl hp
        | some p =>
          rw [(new_pfx E p options).1]
          intro h
          exact hp (List.map_eq_nil_iff.1 h)
      · exact absurd hw hp
    | cons c rest =>
      apply matches_both_ignored
      · rw [new_options]; exact hcap
      · rw [new_options]; exact hnon
      · intro hc
        apply hwords _ hw
        rw [show c = 0 from hc]
        exact List.mem_cons_self _ _
  unfold Dictionary.prefix_search
  simp only
  cases wids_in with
  | some wids =>
    simp only
    rw [foldl_push_eq_filter]
    have hnil : wids.filter (fun x => decide
        ((if isSet options E.flags.INCLUDE_CONTROL_WORDS = true then 0 else NUM_CONTROL_WORDS) ≤ x ∧
          (PrefixCmp.new E pfx options).matches E (d.words.getD x []) = true)) = [] := by
      apply List.filter_eq_nil_iff.2
      intro wid hwid hdec
      have hlt := hin wids rfl wid hwid
      have hr := hrej (d.words.getD wid []) (by
        rw [List.getD_eq_getElem _ _ hlt]
        exact List.getElem_mem _)
      have hm := (of_decide_eq_true hdec).2
      rw [hr] at hm
      exact Bool.noConfusion hm
    rw [hnil]
    simp
  | none =>
    simp only
    rw [if_pos (Or.inr ((isSet_eq_true_iff _ _).2 hfilter)), foldl_push_eq_filter]
    have hnil : (List.range' (if isSet options E.flags.INCLUDE_CONTROL_WORDS = true then 0
        else NUM_CONTROL_WORDS) (d.words.length -
          (if isSet options E.flags.INCLUDE_CONTROL_WORDS = true then 0
            else NUM_CONTROL_WORDS))).filter (fun x => decide
          ((PrefixCmp.new E pfx options).matches E (d.words.getD x []) = true)) = [] := by
      apply List.filter_eq_nil_iff.2
      intro i hi hdec
      have hlt : i < d.words.length := by
        have := List.mem_range'_1.1 hi
        omega
      have hr := hrej (d.words.getD i []) (by
        rw [List.getD_eq_getElem _ _ hlt]
        exact List.getElem_mem _)
      have hm := of_decide_eq_true hdec
      rw [hr] at hm
      exact Bool.noConfusion hm
    rw [hnil]
    simp

theorem prefix_search_both_ignored_witness :
    ((113 : Nat) &&& sampleEnv.flags.IGNORE_CAPITALIZED ≠ 0 ∧
      (113 : Nat) &&& sampleEnv.flags.IGNORE_NON_CAPITALIZED ≠ 0 ∧
      (113 : Nat) &&& sampleEnv.flags.FILTER_OPTIONS ≠ 0 ∧
      sampleEnv.towlower 0 = 0 ∧
      (∀ w, w ∈ (run_calls Dictionary.empty sampleCalls).1.words → 0 ∉ w) ∧
      (∀ wids, some [4, 5, 7] = some wids → ∀ wid, wid ∈ wids →
        wid < (run_calls Dictionary.empty sampleCalls).1.words.length) ∧
      ((some (wstr "Ca")).getD [] ≠ [] ∨ [] ∉ (run_calls Dictionary.empty sampleCalls).1.words)) ∧
    Dictionary.prefix_search sampleEnv (run_calls Dictionary.empty sampleCalls).1
      (some (wstr "Ca")) (some [4, 5, 7]) [9] 113 = [9] ∧
    Dictionary.prefix_search sampleEnv (run_calls Dictionary.empty sampleCalls).1
      (some (wstr "Ca")) (some [4, 5, 7]) [9] 1 = [9, 4, 5, 7] :=
  ⟨⟨by decide, by decide, by decide, by decide, by decide,
      fun wids h wid hwid => by
        cases h
        revert wid
        decide,
      Or.inl (by decide)⟩,
    prefix_search_both_ignored sampleEnv (run_calls Dictionary.empty sampleCalls).1
      (some (wstr "Ca")) (some [4, 5, 7]) [9] 113 (by decide) (by decide) (by decide) (by decide)
      (by decide)
      (fun wids h wid hwid => by
        cases h
        revert wid
        decide)
      (Or.inl (by decide)),
    by decide⟩

/-- C26. `get_probability(ngram, n)` returns 0.0 for `n = 0`; for `n ≥ 1` (the n-gram is
a history followed by a word) it runs `predict` on the history followed by the empty
prefix, with limit -1 and the options NORMALIZE, and returns the probability of the
first result whose word is the last word of the n-gram, else that of the first result
whose word is "<unk>", else 0.0. -/
theorem get_probability_spec {P : Type} [LT P] [DecidableRel (fun a b : P => a < b)]
    [Inhabited P] [Zero P] (E : Env) (m : LanguageModel P) (hist : List WString) (w : WString) :
    m.get_probability E [] = 0 ∧
    m.get_probability E (hist ++ [w]) =
      match (m.predict E [] (hist ++ [[]]) (-1) E.flags.NORMALIZE).find?
        (fun r => decide (r.word = w)) with
      | some r => r.p
      | none =>
        match (m.predict E [] (hist ++ [[]]) (-1) E.flags.NORMALIZE).find?
          (fun r => decide (r.word = wstr "<unk>")) with
        | some r => r.p
        | none => 0 := by
  constructor
  · rfl
  · unfold LanguageModel.get_probability
    have hlen : (hist ++ [w]).length ≠ 0 := by simp
    have htake : (hist ++ [w]).take ((hist ++ [w]).length - 1) = hist := by simp
    have hlast : (hist ++ [w]).getD ((hist ++ [w]).length - 1) [] = w := by
      rw [List.getD_eq_getElem _ _ (by simp)]
      simp
    rw [if_pos hlen]
    simp only [htake, hlast, find_result_eq]
    cases (m.predict E [] (hist ++ [[]]) (-1) E.flags.NORMALIZE).find?
      (fun r => decide (r.word = w)) with
    | some r => rfl
    | none =>
      simp only [Option.map_none']
      cases (m.predict E [] (hist ++ [[]]) (-1) E.flags.NORMALIZE).find?
        (fun r => decide (r.word = wstr "<unk>")) with
      | some r => rfl
      | none => rfl

/-- C27. Insertion is append-only: after a successful `add_word`, `id_to_word(i)` returns
the same word as before for every id `i` below the old number of words, and
`get_num_word_types()` has grown by exactly one. -/
theorem add_word_append_only (d : Dictionary) (w : WString) :
    (∀ i, i < d.get_num_word_types →
      (d.add_word w true).1.id_to_word i = d.id_to_word i ∧
      (d.add_word w true).1.id_to_word i = some (d.words.getD i [])) ∧
    (d.add_word w true).1.get_num_word_types = d.get_num_word_types + 1 := by
  have hw := add_word_words d w true
  simp only [if_true] at hw
  constructor
  · intro i hi
    unfold Dictionary.get_num_word_types at hi
    unfold Dictionary.id_to_word
    rw [hw, if_pos (by simp; omega), if_pos hi, List.getD_eq_getElem _ _ (by simp; omega),
      List.getD_eq_getElem _ _ hi, List.getElem_append_left hi]
    exact ⟨rfl, rfl⟩
  · unfold Dictionary.get_num_word_types
    rw [hw]
    simp

/-- C28. `NGramModel::set_order(n)` leaves `get_order()` equal to `n` and clears the
dictionary: afterwards `get_num_word_types()` is 0 and no word is stored, whatever the
model held before. -/
theorem set_order_clears {P : Type} (m : NGramModel P) (n : Int) :
    (m.set_order n).get_order = n ∧
    (m.set_order n).toLanguageModel.get_num_word_types = 0 ∧
    (m.set_order n).dictionary = Dictionary.empty ∧
    (∀ w, (m.set_order n).dictionary.word_to_id w = WIDNONE) :=
  ⟨rfl, rfl, rfl, fun _ => rfl⟩

/-- C29. `Dictionary::clear` empties the store: afterwards `get_num_word_types()` is 0,
the sorted index is empty, `word_to_id` returns WIDNONE for every word and `id_to_word`
returns NULL for every id; the words added afterwards are numbered from 0 again: the
first gets id 0, and each successful call gets the number of words stored since the
clear (as a 16-bit id). -/
theorem clear_empties (d : Dictionary) :
    d.clear.get_num_word_types = 0 ∧
    d.clear.sorted = [] ∧
    (∀ w, d.clear.word_to_id w = WIDNONE) ∧
    (∀ id, d.clear.id_to_word id = none) ∧
    (∀ w, (d.clear.add_word w true).2 = 0) ∧
    (∀ calls k w, calls[k]? = some (w, true) →
      (run_calls d.clear calls).2.getD k 0 = toWordId (stored (calls.take k)).length) := by
  refine ⟨rfl, rfl, fun _ => rfl, fun _ => rfl, fun _ => rfl, ?_⟩
  intro calls k w h
  have := run_calls_ids calls d.clear k w true h
  simpa [Dictionary.clear] using this

/-- C30. Filtered-candidate mode: with a candidate list `wids_in`, `prefix_search`
appends exactly the subsequence of `wids_in`, in input order and keeping repetitions, of
the ids `wid` with `wid ≥ min_wid` (0 with INCLUDE_CONTROL_WORDS, else
NUM_CONTROL_WORDS = 4) whose word `matches` the prefix under the options; the sorted
index has no influence on the result. -/
theorem prefix_search_filtered (E : Env) (d : Dictionary) (pfx : Option WString)
    (wids_in wids_out : List Nat) (options : Nat) :
    NUM_CONTROL_WORDS = 4 ∧
    Dictionary.prefix_search E d pfx (some wids_in) wids_out options =
      wids_out ++ wids_in.filter (fun wid => decide
        ((if options &&& E.flags.INCLUDE_CONTROL_WORDS ≠ 0 then 0 else NUM_CONTROL_WORDS) ≤ wid ∧
          (PrefixCmp.new E pfx options).matches E (d.words.getD wid []) = true)) ∧
    (∀ index : List Nat,
      Dictionary.prefix_search E { words := d.words, sorted := index } pfx (some wids_in)
        wids_out options =
      Dictionary.prefix_search E d pfx (some wids_in) wids_out options) := by
  refine ⟨rfl, ?_, ?_⟩
  · rw [prefix_search_some]
    simp only [isSet_eq_true_iff]
  · intro index
    rw [prefix_search_some, prefix_search_some]

/-- C31 (amended). Exhaustive mode and mode selection: with no candidate list, and the
prefix empty or one of the four filter options set (FILTER_OPTIONS contains their
masks), on a dictionary of at most 65536 words, `prefix_search` appends exactly the ids
`i` with `min_wid <= i < number of words` whose word `matches` the prefix under the
options, in ascending order; the sorted index has no influence on the result (no binary
search). -/
theorem prefix_search_exhaustive_mode (E : Env) (d : Dictionary) (pfx : Option WString)
    (wids_out : List Nat) (options : Nat)
    (hcov : E.filter_covers) (hsmall : d.words.length ≤ 65536)
    (hmode : pfx.getD [] = [] ∨ options &&& E.flags.CASE_INSENSITIVE ≠ 0 ∨
      options &&& E.flags.ACCENT_INSENSITIVE ≠ 0 ∨ options &&& E.flags.IGNORE_CAPITALIZED ≠ 0 ∨
      options &&& E.flags.IGNORE_NON_CAPITALIZED ≠ 0) :
    (∃ r : List Nat,
      Dictionary.prefix_search E d pfx none wids_out options = wids_out ++ r ∧
      r.Pairwise (fun a b => a < b) ∧
      (∀ i, i ∈ r ↔
        ((if options &&& E.flags.INCLUDE_CONTROL_WORDS ≠ 0 then 0 else NUM_CONTROL_WORDS) ≤ i ∧
          i < d.words.length ∧
          (PrefixCmp.new E pfx options).matches E (d.words.getD i []) = true))) ∧
    (∀ index : List Nat,
      Dictionary.prefix_search E { words := d.words, sorted := index } pfx none wids_out options =
        Dictionary.prefix_search E d pfx none wids_out options) := by
  have hmode2 : pfx.getD [] = [] ∨ options &&& E.flags.FILTER_OPTIONS ≠ 0 := by
    obtain ⟨c1, c2, c3, c4⟩ := hcov
    rcases hmode with h | h | h | h | h
    · exact Or.inl h
    · exact Or.inr (land_ne_zero_of_cover h c1)
    · exact Or.inr (land_ne_zero_of_cover h c2)
    · exact Or.inr (land_ne_zero_of_cover h c3)
    · exact Or.inr (land_ne_zero_of_cover h c4)
  have hid : ∀ (l : List Nat), (∀ i ∈ l, i < 65536) → l.map toWordId = l := by
    intro l hl
    conv => rhs; rw [← List.map_id l]
    exact List.map_congr_left (fun i hi => Nat.mod_eq_of_lt (hl i hi))
  constructor
  · refine ⟨_, prefix_search_exhaustive E d pfx wids_out options hmode2, ?_, ?_⟩
    · rw [hid]
      · exact (List.pairwise_lt_range' _ _).filter _
      · intro i hi
        have := List.mem_range'_1.1 (List.mem_of_mem_filter hi)
        omega
    · intro i
      rw [hid]
      · simp only [List.mem_filter, List.mem_range'_1, decide_eq_true_eq, isSet_eq_true_iff]
        constructor
        · rintro ⟨⟨h1, h2⟩, h3⟩
          exact ⟨h1, by omega, h3⟩
        · rintro ⟨h1, h2, h3⟩
          exact ⟨⟨h1, by omega⟩, h3⟩
      · intro i hi
        have := List.mem_range'_1.1 (List.mem_of_mem_filter hi)
        omega
  · intro index
    rw [prefix_search_exhaustive E d pfx wids_out options hmode2,
      prefix_search_exhaustive E _ pfx wids_out options hmode2]

theorem prefix_search_exhaustive_mode_witness :
    (sampleEnv.filter_covers ∧
      (run_calls Dictionary.empty sampleCalls).1.words.length ≤ 65536 ∧
      ((some (wstr "Ca")).getD [] = [] ∨ (1 : Nat) &&& sampleEnv.flags.CASE_INSENSITIVE ≠ 0 ∨
        (1 : Nat) &&& sampleEnv.flags.ACCENT_INSENSITIVE ≠ 0 ∨
        (1 : Nat) &&& sampleEnv.flags.IGNORE_CAPITALIZED ≠ 0 ∨
        (1 : Nat) &&& sampleEnv.flags.IGNORE_NON_CAPITALIZED ≠ 0)) ∧
    ((∃ r : List Nat,
      Dictionary.prefix_search sampleEnv (run_calls Dictionary.empty sampleCalls).1
        (some (wstr "Ca")) none [] 1 = [] ++ r ∧
      r.Pairwise (fun a b => a < b) ∧
      (∀ i, i ∈ r ↔
        ((if (1 : Nat) &&& sampleEnv.flags.INCLUDE_CONTROL_WORDS ≠ 0 then 0
            else NUM_CONTROL_WORDS) ≤ i ∧
          i < (run_calls Dictionary.empty sampleCalls).1.words.length ∧
          (PrefixCmp.new sampleEnv (some (wstr "Ca")) 1).matches sampleEnv
            ((run_calls Dictionary.empty sampleCalls).1.words.getD i []) = true))) ∧
    (∀ index : List Nat,
      Dictionary.prefix_search sampleEnv
        { words := (run_calls Dictionary.empty sampleCalls).1.words, sorted := index }
        (some (wstr "Ca")) none [] 1 =
      Dictionary.prefix_search sampleEnv (run_calls Dictionary.empty sampleCalls).1
        (some (wstr "Ca")) none [] 1)) ∧
    Dictionary.prefix_search sampleEnv (run_calls Dictionary.empty sampleCalls).1
      (some (wstr "Ca")) none [] 1 = [4, 5, 7, 8, 9] :=
  ⟨⟨⟨by decide, by decide, by decide, by decide⟩, by decide, Or.inr (Or.inl (by decide))⟩,
    prefix_search_exhaustive_mode sampleEnv (run_calls Dictionary.empty sampleCalls).1
      (some (wstr "Ca")) [] 1 ⟨by decide, by decide, by decide, by decide⟩ (by decide)
      (Or.inr (Or.inl (by decide))),
    by decide⟩

/-- C32. Skip-sort: when NO_SORT is set and the context is not empty, `predict` returns
the candidates in the order of the back-end: result `i` is
`(id_to_word(wids[i]), probabilities[i])` for every `i` below the result length, which is
the limit when `0 <= limit < wids.size()` and the number of candidates otherwise. -/
theorem predict_no_sort {P : Type} [LT P] [DecidableRel (fun a b : P => a < b)]
    [Inhabited P] (E : Env) (m : LanguageModel P) (results : List (Result P))
    (context : List WString) (limit : Int) (options : Nat) (wids : List Nat) (probs : List P)
    (hctx : context ≠ [])
    (hwids : m.get_candidates (m.words_to_ids (LanguageModel.split_context context).1)
      (LanguageModel.split_context context).2 options = wids)
    (hprobs : m.get_probs (m.words_to_ids (LanguageModel.split_context context).1) wids = probs)
    (hns : options &&& E.flags.NO_SORT ≠ 0) :
    (m.predict E results context limit options).length =
      (if 0 ≤ limit ∧ limit < (wids.length : Int) then limit.toNat else wids.length) ∧
    (∀ i, i < (m.predict E results context limit options).length →
      (m.predict E results context limit options)[i]? =
        some (Result.mk (m.id_to_word (wids.getD i 0)) (probs.getD i default))) := by
  have hk : (if 0 ≤ limit then min limit.toNat wids.length else wids.length) ≤ wids.length := by
    split <;> omega
  have hsize : (if 0 ≤ limit ∧ limit < (wids.length : Int) then limit.toNat else wids.length)
      = (if 0 ≤ limit then min limit.toNat wids.length else wids.length) := by
    split <;> split <;> omega
  rw [predict_eq_map E m results context limit options wids probs hctx hwids hprobs,
    if_pos ((isSet_eq_true_iff _ _).2 hns), List.take_range, Nat.min_eq_left hk, hsize]
  constructor
  · rw [List.length_map, List.length_range]
  · intro i hi
    rw [List.length_map, List.length_range] at hi
    rw [List.getElem?_map, List.getElem?_range hi]
    rfl

theorem predict_no_sort_witness :
    ([wstr "the", wstr "ca"] ≠ [] ∧
      sampleModel.get_candidates
        (sampleModel.words_to_ids (LanguageModel.split_context [wstr "the", wstr "ca"]).1)
        (LanguageModel.split_context [wstr "the", wstr "ca"]).2 128 = [7, 8, 9, 5, 4] ∧
      sampleModel.get_probs
        (sampleModel.words_to_ids (LanguageModel.split_context [wstr "the", wstr "ca"]).1)
        [7, 8, 9, 5, 4] = [4, 1, 3, 0, 3] ∧
      (128 : Nat) &&& sampleEnv.flags.NO_SORT ≠ 0) ∧
    ((sampleModel.predict sampleEnv [] [wstr "the", wstr "ca"] 3 128).length =
        (if (0 : Int) ≤ 3 ∧ (3 : Int) < ([7, 8, 9, 5, 4].length : Int) then (3 : Int).toNat
          else [7, 8, 9, 5, 4].length) ∧
      (∀ i, i < (sampleModel.predict sampleEnv [] [wstr "the", wstr "ca"] 3 128).length →
        (sampleModel.predict sampleEnv [] [wstr "the", wstr "ca"] 3 128)[i]? =
          some (Result.mk (sampleModel.id_to_word ([7, 8, 9, 5, 4].getD i 0))
            ([4, 1, 3, 0, 3].getD i default)))) ∧
    (sampleModel.predict sampleEnv [] [wstr "the", wstr "ca"] 3 128).map (fun r => (r.word, r.p))
      = [(wstr "cab", 4), (wstr "can", 1), (wstr "cap", 3)] :=
  ⟨⟨by decide, by decide, by decide, by decide⟩,
    predict_no_sort sampleEnv sampleModel [] [wstr "the", wstr "ca"] 3 128 [7, 8, 9, 5, 4]
      [4, 1, 3, 0, 3] (by decide) (by decide) (by decide) (by decide),
    by decide⟩

/-- C38. `Dictionary::search_index` is a lower bound: for every dictionary state the
loop is left after at most `sorted.size()` iterations with a result `r` in
`0 .. sorted.size()`, and when the sorted index is in non-decreasing word order, every
word at a sorted position below `r` compares less than the query and every word at a
position from `r` on compares greater than or equal to it. -/
theorem search_index_lower_bound (d : Dictionary) (word : WString) :
    d.search_index word ≤ d.sorted.length ∧
    (∀ fuel, d.sorted.length ≤ fuel →
      d.search_loop_exit word fuel 0 d.sorted.length = some (d.search_index word)) ∧
    ((∀ i j, i ≤ j → j < d.sorted.length → wcscmp (d.keyAt i) (d.keyAt j) ≤ 0) →
      (∀ i, i < d.search_index word → wcscmp (d.keyAt i) word < 0) ∧
      (∀ i, d.search_index word ≤ i → i < d.sorted.length → 0 ≤ wcscmp (d.keyAt i) word)) := by
  refine ⟨search_index_le d word, ?_, ?_⟩
  · intro fuel hfuel
    rw [search_loop_exit_eq d word fuel 0 d.sorted.length (by omega)]
    exact congrArg some
      (search_loop_fuel d word fuel d.sorted.length 0 d.sorted.length (by omega) (by omega))
  · intro hs
    obtain ⟨hlo, hhi⟩ := search_index_spec d word hs
    exact ⟨hlo, fun i h1 h2 => not_lt.1 (hhi i h1 h2)⟩

/-- C36. `stable_argsort_desc` only rearranges: for every input the output index vector
is a permutation of the input index vector (every entry with the same multiplicity) and
has its length; the score vector is only read; hence entries that were valid indices
into `cmp` remain valid. -/
theorem stable_argsort_desc_rearranges {α : Type} [LT α]
    [DecidableRel (fun a b : α => a < b)] [Inhabited α] (v : List Nat) (cmp : List α) :
    (stable_argsort_desc v cmp).Perm v ∧
    (∀ x, (stable_argsort_desc v cmp).count x = v.count x) ∧
    (stable_argsort_desc v cmp).length = v.length ∧
    ((∀ x ∈ v, x < cmp.length) → ∀ x ∈ stable_argsort_desc v cmp, x < cmp.length) := by
  have hperm := stable_argsort_desc_perm v cmp
  exact ⟨hperm, fun x => hperm.count_eq x, hperm.length_eq,
    fun hvalid x hx => hvalid x (hperm.mem_iff.1 hx)⟩

/-- C37. `stable_argsort_desc` leaves an already ranked input untouched: if
`cmp[v[i]] >= cmp[v[i+1]]` for every adjacent `i` on entry (scores of a totally ordered
type), every run of the inner loop breaks at its first test, so nothing is exchanged,
and the call returns `v` unchanged; consequently, for every input, applying
`stable_argsort_desc` twice gives the same result as applying it once. -/
theorem stable_argsort_desc_ranked_fixed {α : Type} [LinearOrder α] [Inhabited α]
    (v : List Nat) (cmp : List α) :
    ((∀ i, i + 1 < v.length →
        cmp.getD (v.getD (i + 1) 0) default ≤ cmp.getD (v.getD i 0) default) →
      stable_argsort_desc v cmp = v ∧
      (∀ gap fuel j, j + gap < v.length → argsort_inner cmp gap fuel j v = v) ∧
      (∀ gap, argsort_pass cmp v.length gap v = v)) ∧
    stable_argsort_desc (stable_argsort_desc v cmp) cmp = stable_argsort_desc v cmp := by
  have hfix : ∀ u : List Nat, (∀ i, i + 1 < u.length →
      cmp.getD (u.getD (i + 1) 0) default ≤ cmp.getD (u.getD i 0) default) →
      stable_argsort_desc u cmp = u :=
    fun u hu => argsort_gaps_of_ranked cmp u (ranked_of_adjacent cmp u hu) _ _
  constructor
  · intro hadj
    exact ⟨hfix v hadj,
      fun gap fuel j hj => argsort_inner_of_ranked cmp v (ranked_of_adjacent cmp v hadj) gap fuel j hj,
      fun gap => argsort_pass_of_ranked cmp v (ranked_of_adjacent cmp v hadj) gap⟩
  · exact hfix _ (rankedDesc_getD cmp _ (stable_argsort_desc_ranked v cmp))

/-- C35. The 16-bit id ceiling: a successful `add_word` returns the previous number of
words reduced modulo 2^16; on a dictionary of exactly 65535 words it returns 65535,
which is WIDNONE and the value returned when the allocation fails; and when a sequence
of `add_word` calls has stored 65536 or more words, the id that the next successful
call returns is already present in the sorted index. -/
theorem add_word_id_ceiling (calls : List (WString × Bool)) (d : Dictionary) (w : WString) :
    (d.add_word w true).2 = d.words.length % 2 ^ 16 ∧
    (d.words.length = 65535 →
      (d.add_word w true).2 = 65535 ∧ (d.add_word w true).2 = WIDNONE ∧
      (d.add_word w true).2 = (d.add_word w false).2) ∧
    (65536 ≤ (stored calls).length →
      (run_calls Dictionary.empty calls).1.words.length = (stored calls).length ∧
      ((run_calls Dictionary.empty calls).1.add_word w true).2 ∈
        (run_calls Dictionary.empty calls).1.sorted) := by
  have hid : ∀ e : Dictionary, (e.add_word w true).2 = e.words.length % 65536 := by
    intro e
    rw [add_word_id, if_pos rfl]
    rfl
  refine ⟨hid d, ?_, ?_⟩
  · intro h
    rw [hid, h, add_word_fail]
    exact ⟨rfl, rfl, rfl⟩
  · intro h
    have hwords : (run_calls Dictionary.empty calls).1.words.length = (stored calls).length := by
      rw [run_calls_words]
      simp [Dictionary.empty]
    refine ⟨hwords, ?_⟩
    rw [hid, hwords]
    have hmem := (run_calls_sorted_mem calls Dictionary.empty).2 ((stored calls).length % 65536)
      (by omega)
    have h0 : Dictionary.empty.words.length = 0 := rfl
    rw [h0, Nat.zero_add] at hmem
    unfold toWordId at hmem
    rwa [Nat.mod_mod] at hmem

/-- C33 (as stated, refuted). After 65536 calls `add_word("a")` and one call
`add_word("b")` the dictionary holds 65537 words; "b" is stored at position 65536 under
the id `65536 % 65536 = 0`, so every id of the sorted index leads to "a". For the prefix
"b" and the options INCLUDE_CONTROL_WORDS (no filter option) the binary-search branch
appends nothing, while the position 65536 belongs to the set of the linear scan. -/
theorem prefix_search_binary_overflow :
    (run_calls Dictionary.empty overflowCalls).1.words.length = 65537 ∧
    wstr "b" ≠ [] ∧ (64 : Nat) &&& sampleEnv.flags.FILTER_OPTIONS = 0 ∧
    Dictionary.prefix_search sampleEnv (run_calls Dictionary.empty overflowCalls).1
      (some (wstr "b")) none [] 64 = [] ∧
    65536 ∈ Dictionary.linear_scan_spec sampleEnv (run_calls Dictionary.empty overflowCalls).1
      (some (wstr "b")) 64 := by
  unfold overflowCalls
  refine ⟨?_, by decide, by decide, ?_, ?_⟩
  · rw [run_overflow_words, List.length_append, List.length_replicate]
    rfl
  · exact prefix_search_overflow_nil sampleEnv 65536 (wstr "a") (wstr "b") (wstr "b") 64
      (le_refl _) (by decide) (by decide) (by decide)
  · exact linear_scan_overflow_mem sampleEnv 65536 (wstr "a") (wstr "b") (some (wstr "b")) 64
      (Nat.zero_le _) (by decide)

/-- C33 (amended). Binary-search mode agrees with the linear scan: for every dictionary
built by `add_word` calls that holds at most 65536 words, every non-empty prefix and
options with no filter flag set (FILTER_OPTIONS contains the four filter masks), the ids
that `prefix_search` appends without a candidate list are exactly the members of the set
`{ i : min_wid <= i < number of words and matches(words[i]) }`; and with no filter flag
`matches(w)` is true exactly when `wcsncmp(w, prefix, len(prefix)) == 0`. -/
theorem prefix_search_binary_refines (E : Env) (calls : List (WString × Bool)) (p : WString)
    (wids_out : List Nat) (options : Nat)
    (hcov : E.filter_covers) (hsize : (stored calls).length ≤ 65536)
    (hp : p ≠ []) (hnul : 0 ∉ p) (hopt : options &&& E.flags.FILTER_OPTIONS = 0) :
    (∃ r : List Nat,
      Dictionary.prefix_search E (run_calls Dictionary.empty calls).1 (some p) none wids_out
        options = wids_out ++ r ∧
      ∀ i, i ∈ r ↔
        i ∈ Dictionary.linear_scan_spec E (run_calls Dictionary.empty calls).1 (some p) options) ∧
    (∀ w, (PrefixCmp.new E (some p) options).matches E w = true ↔
      wcsncmp w p (wcslen p) = 0) := by
  obtain ⟨c1, c2, c3, c4⟩ := hcov
  have hm : ∀ w, (PrefixCmp.new E (some p) options).matches E w = true ↔ p <+: w :=
    fun w => matches_plain_iff E p w options (land_eq_zero_of_cover hopt c1)
      (land_eq_zero_of_cover hopt c2) (land_eq_zero_of_cover hopt c3)
      (land_eq_zero_of_cover hopt c4) hnul
  have hv := run_calls_empty_valid calls hsize
  constructor
  · refine ⟨_, prefix_search_binary_eq E hv.sorted_words p wids_out options hp hopt, ?_⟩
    intro i
    unfold Dictionary.linear_scan_spec
    simp only [List.mem_filter, decide_eq_true_eq, hv.perm.mem_iff, List.mem_range,
      Bool.and_eq_true, hm]
    tauto
  · intro w
    unfold wcslen
    rw [hm, wcsncmp_eq_zero_iff]

theorem prefix_search_binary_refines_witness :
    (sampleEnv.filter_covers ∧ (stored sampleCalls).length ≤ 65536 ∧ wstr "ca" ≠ [] ∧
      0 ∉ wstr "ca" ∧ (0 : Nat) &&& sampleEnv.flags.FILTER_OPTIONS = 0) ∧
    ((∃ r : List Nat,
      Dictionary.prefix_search sampleEnv (run_calls Dictionary.empty sampleCalls).1
        (some (wstr "ca")) none [] 0 = [] ++ r ∧
      ∀ i, i ∈ r ↔
        i ∈ Dictionary.linear_scan_spec sampleEnv (run_calls Dictionary.empty sampleCalls).1
          (some (wstr "ca")) 0) ∧
    (∀ w, (PrefixCmp.new sampleEnv (some (wstr "ca")) 0).matches sampleEnv w = true ↔
      wcsncmp w (wstr "ca") (wcslen (wstr "ca")) = 0)) ∧
    Dictionary.prefix_search sampleEnv (run_calls Dictionary.empty sampleCalls).1
      (some (wstr "ca")) none [] 0 = [7, 8, 9, 5, 4] ∧
    Dictionary.linear_scan_spec sampleEnv (run_calls Dictionary.empty sampleCalls).1
      (some (wstr "ca")) 0 = [4, 5, 7, 8, 9] :=
  ⟨⟨⟨by decide, by decide, by decide, by decide⟩, by decide, by decide, by decide, by decide⟩,
    prefix_search_binary_refines sampleEnv sampleCalls (wstr "ca") [] 0
      ⟨by decide, by decide, by decide, by decide⟩ (by decide) (by decide) (by decide)
      (by decide),
    by decide, by decide⟩

/-- C5 (as stated, refuted). The call `add_word("a")`, 65537 times, builds a dictionary
whose last word got the id `65536 % 65536 = 0` again. In binary-search mode (prefix "a",
INCLUDE_CONTROL_WORDS, no filter option) `prefix_search` then appends the whole sorted
index: 65537 ids, the id 0 twice, so not each id once. -/
theorem prefix_search_binary_repeats :
    wstr "a" ≠ [] ∧ (64 : Nat) &&& sampleEnv.flags.FILTER_OPTIONS = 0 ∧
    (run_calls Dictionary.empty wrapCalls).1.words.length = 65537 ∧
    Dictionary.prefix_search sampleEnv (run_calls Dictionary.empty wrapCalls).1
      (some (wstr "a")) none [] 64 = (run_calls Dictionary.empty wrapCalls).1.sorted ∧
    (Dictionary.prefix_search sampleEnv (run_calls Dictionary.empty wrapCalls).1
      (some (wstr "a")) none [] 64).length = 65537 ∧
    (Dictionary.prefix_search sampleEnv (run_calls Dictionary.empty wrapCalls).1
      (some (wstr "a")) none [] 64).count 0 = 2 ∧
    ¬ (Dictionary.prefix_search sampleEnv (run_calls Dictionary.empty wrapCalls).1
      (some (wstr "a")) none [] 64).Nodup := by
  unfold wrapCalls
  have hres := prefix_search_all_same sampleEnv
    (run_calls Dictionary.empty
      (List.replicate 65536 (wstr "a", true) ++ [(wstr "a", true)])).1 (wstr "a") 64
    (run_overflow_all 65536 (wstr "a") (wstr "a") (le_refl _)) (by decide) (by decide)
    (by decide)
  obtain ⟨hcount, hlen⟩ := run_wrap_count 65536 (wstr "a") rfl
  refine ⟨by decide, by decide, ?_, hres, ?_, ?_, ?_⟩
  · rw [run_overflow_words, List.length_append, List.length_replicate]
    rfl
  · rw [hres, hlen]
  · rw [hres, hcount]
  · rw [hres]
    intro hnodup
    have := List.nodup_iff_count_le_one.1 hnodup 0
    omega

/-- C5 (amended). Binary-search mode of `prefix_search` (no candidate list, non-empty
prefix, `options & FILTER_OPTIONS` zero) on a dictionary built by `add_word` calls that
holds at most 65536 words: the call appends to `wids_out` exactly the ids
`wid >= min_wid` whose stored word starts with the prefix (`min_wid` is 0 with
INCLUDE_CONTROL_WORDS and NUM_CONTROL_WORDS = 4 without), each once, in non-decreasing
`wcscmp` order of their words. -/
theorem prefix_search_binary (E : Env) (calls : List (WString × Bool)) (d : Dictionary)
    (p : WString) (out : List Nat) (options : Nat)
    (hd : d = (run_calls Dictionary.empty calls).1) (hsize : (stored calls).length ≤ 65536)
    (hp : p ≠ []) (hopt : options &&& E.flags.FILTER_OPTIONS = 0) :
    ∃ r : List Nat,
      d.prefix_search E (some p) none out options = out ++ r ∧
      r.Nodup ∧
      (∀ wid, wid ∈ r ↔ (wid < d.words.length ∧
        (if options &&& E.flags.INCLUDE_CONTROL_WORDS ≠ 0 then 0 else 4) ≤ wid ∧
        p <+: d.words.getD wid [])) ∧
      r.Pairwise (fun a b => wcscmp (d.words.getD a []) (d.words.getD b []) ≤ 0) := by
  subst hd
  have hv := run_calls_empty_valid calls hsize
  exact prefix_search_binary_valid E _ p out options hv.perm hv.sorted_words hp hopt

theorem prefix_search_binary_witness :
    ((run_calls Dictionary.empty sampleCalls).1 = (run_calls Dictionary.empty sampleCalls).1 ∧
      (stored sampleCalls).length ≤ 65536 ∧
      wstr "ca" ≠ [] ∧ (0 : Nat) &&& sampleEnv.flags.FILTER_OPTIONS = 0) ∧
    (∃ r : List Nat,
      (run_calls Dictionary.empty sampleCalls).1.prefix_search sampleEnv
        (some (wstr "ca")) none [] 0 = [] ++ r ∧
      r.Nodup ∧
      (∀ wid, wid ∈ r ↔
        (wid < (run_calls Dictionary.empty sampleCalls).1.words.length ∧
        (if (0 : Nat) &&& sampleEnv.flags.INCLUDE_CONTROL_WORDS ≠ 0 then 0 else 4) ≤ wid ∧
        wstr "ca" <+: (run_calls Dictionary.empty sampleCalls).1.words.getD wid [])) ∧
      r.Pairwise (fun a b =>
        wcscmp ((run_calls Dictionary.empty sampleCalls).1.words.getD a [])
          ((run_calls Dictionary.empty sampleCalls).1.words.getD b []) ≤ 0)) ∧
    (run_calls Dictionary.empty sampleCalls).1.prefix_search sampleEnv
      (some (wstr "ca")) none [] 0 = [7, 8, 9, 5, 4] :=
  ⟨⟨rfl, by decide, by decide, by decide⟩,
    prefix_search_binary sampleEnv sampleCalls (run_calls Dictionary.empty sampleCalls).1
      (wstr "ca") [] 0 rfl (by decide) (by decide) (by decide),
    by decide⟩

/-- C18 (as stated, refuted). After 65536 calls `add_word("a")` and one call
`add_word("b")` the word "b" is stored (at position 65536, under the id 0), but every id
of the sorted index leads to "a": `lookup_word("b")` returns 0, not 1. -/
theorem lookup_word_overflow :
    (run_calls Dictionary.empty overflowCalls).1.words.length = 65537 ∧
    wstr "b" ∈ (run_calls Dictionary.empty overflowCalls).1.words ∧
    (run_calls Dictionary.empty overflowCalls).1.lookup_word (wstr "b") = 0 ∧
    (run_calls Dictionary.empty overflowCalls).1.lookup_word (wstr "b") ≠ 1 := by
  unfold overflowCalls
  have h0 := lookup_word_overflow_zero 65536 (wstr "a") (wstr "b") (le_refl _) (by decide)
  refine ⟨?_, ?_, h0, ?_⟩
  · rw [run_overflow_words, List.length_append, List.length_replicate]
    rfl
  · rw [run_overflow_words]
    exact List.mem_append_right _ (List.mem_singleton.2 rfl)
  · rw [h0]
    decide

/-- C18 (amended). On a dictionary built by `add_word` calls that holds at most 65536
words, `lookup_word(w)` returns 1 exactly when some stored word is equal to `w`;
otherwise it returns `-k`, where `k` is the number of stored words that start with `w`,
so it returns 0 exactly when no stored word starts with `w`. -/
theorem lookup_word_spec (calls : List (WString × Bool)) (d : Dictionary) (w : WString)
    (hd : d = (run_calls Dictionary.empty calls).1) (hsize : (stored calls).length ≤ 65536) :
    (d.lookup_word w = 1 ↔ w ∈ d.words) ∧
    (w ∉ d.words →
      d.lookup_word w = -((d.words.countP (fun s => decide (w <+: s)) : Nat) : Int)) ∧
    (d.lookup_word w = 0 ↔ ∀ s ∈ d.words, ¬ w <+: s) := by
  subst hd
  have hv := run_calls_empty_valid calls hsize
  exact lookup_word_valid _ w hv.perm hv.sorted_words

theorem lookup_word_spec_witness :
    ((run_calls Dictionary.empty sampleCalls).1 = (run_calls Dictionary.empty sampleCalls).1 ∧
      (stored sampleCalls).length ≤ 65536) ∧
    (((run_calls Dictionary.empty sampleCalls).1.lookup_word (wstr "ca") = 1 ↔
      wstr "ca" ∈ (run_calls Dictionary.empty sampleCalls).1.words) ∧
    (wstr "ca" ∉ (run_calls Dictionary.empty sampleCalls).1.words →
      (run_calls Dictionary.empty sampleCalls).1.lookup_word (wstr "ca") =
        -(((run_calls Dictionary.empty sampleCalls).1.words.countP
          (fun s => decide (wstr "ca" <+: s)) : Nat) : Int)) ∧
    ((run_calls Dictionary.empty sampleCalls).1.lookup_word (wstr "ca") = 0 ↔
      ∀ s ∈ (run_calls Dictionary.empty sampleCalls).1.words, ¬ wstr "ca" <+: s)) ∧
    (run_calls Dictionary.empty sampleCalls).1.lookup_word (wstr "ca") = -5 ∧
    (run_calls Dictionary.empty sampleCalls).1.lookup_word (wstr "cat") = 1 ∧
    (run_calls Dictionary.empty sampleCalls).1.lookup_word (wstr "x") = 0 :=
  ⟨⟨rfl, by decide⟩,
    lookup_word_spec sampleCalls (run_calls Dictionary.empty sampleCalls).1 (wstr "ca") rfl
      (by decide),
    by decide, by decide, by decide⟩

/-- C19 (as stated, refuted). The empty word has the first character NUL, which is not
upper-case; with IGNORE_NON_CAPITALIZED set and the empty or the NULL prefix,
`matches` of the empty word is true all the same: the gate is entered only for a first
character that is not NUL. -/
theorem matches_gate_empty_word :
    (32 : Nat) &&& sampleEnv.flags.IGNORE_NON_CAPITALIZED ≠ 0 ∧
    sampleEnv.iswupper (([] : WString).headD 0) = false ∧
    (PrefixCmp.new sampleEnv (some []) 32).matches sampleEnv [] = true ∧
    (PrefixCmp.new sampleEnv none 32).matches sampleEnv [] = true := by
  decide

/-- C31 (as stated, refuted). After 65536 calls `add_word("a")` and one call
`add_word("b")` the dictionary holds 65537 words. The exhaustive scan (prefix "b",
CASE_INSENSITIVE and INCLUDE_CONTROL_WORDS) finds the match at position 65536 and
appends `(WordId)65536 = 0`: the result is `[0]`, the id of a word that does not match,
and the position 65536 is not in it. -/
theorem prefix_search_exhaustive_overflow :
    (run_calls Dictionary.empty overflowCalls).1.words.length = 65537 ∧
    (65 : Nat) &&& sampleEnv.flags.CASE_INSENSITIVE ≠ 0 ∧
    Dictionary.prefix_search sampleEnv (run_calls Dictionary.empty overflowCalls).1
      (some (wstr "b")) none [] 65 = [0] ∧
    (run_calls Dictionary.empty overflowCalls).1.words.getD 0 [] = wstr "a" ∧
    (PrefixCmp.new sampleEnv (some (wstr "b")) 65).matches sampleEnv (wstr "a") = false ∧
    (run_calls Dictionary.empty overflowCalls).1.words.getD 65536 [] = wstr "b" ∧
    (PrefixCmp.new sampleEnv (some (wstr "b")) 65).matches sampleEnv (wstr "b") = true := by
  unfold overflowCalls
  refine ⟨?_, by decide, ?_, ?_, by decide, ?_, by decide⟩
  · rw [run_overflow_words, List.length_append, List.length_replicate]
    rfl
  · exact prefix_search_overflow_scan sampleEnv 65536 (wstr "a") (wstr "b") (some (wstr "b")) 65
      (Or.inr (by decide)) (by decide) (by decide) (by decide)
  · rw [run_overflow_words, List.getD_append _ _ _ _ (by rw [List.length_replicate]; omega),
      List.getD_eq_getElem _ _ (by rw [List.length_replicate]; omega), List.getElem_replicate]
  · rw [run_overflow_words, List.getD_append_right _ _ _ _ (by rw [List.length_replicate]),
      List.length_replicate, Nat.sub_self]
    rfl

/-- C34 (as stated, refuted). On the dictionary that 65536 calls `add_word("a")` have
built, one more `add_word("a")` returns `65536 % 65536 = 0`: no new id, but the id that
the first call returned and that is in the sorted index already; afterwards
`word_to_id("a")` returns 0, the first id. -/
theorem add_word_duplicate_wraps :
    wstr "a" ∈ (run_calls Dictionary.empty (List.replicate 65536 (wstr "a", true))).1.words ∧
    (run_calls Dictionary.empty (List.replicate 65536 (wstr "a", true))).2.getD 0 1 = 0 ∧
    0 ∈ (run_calls Dictionary.empty (List.replicate 65536 (wstr "a", true))).1.sorted ∧
    ((run_calls Dictionary.empty (List.replicate 65536 (wstr "a", true))).1.add_word
      (wstr "a") true).2 = 0 ∧
    ((run_calls Dictionary.empty (List.replicate 65536 (wstr "a", true))).1.add_word
      (wstr "a") true).1.word_to_id (wstr "a") = 0 := by
  refine ⟨?_, run_replicate_first 65535 (wstr "a"), ?_, ?_,
    run_wrap_lookup 65536 (wstr "a") rfl⟩
  · rw [run_replicate_words]
    exact List.mem_replicate.2 ⟨by omega, rfl⟩
  · have := (run_calls_sorted_mem (List.replicate 65536 (wstr "a", true)) Dictionary.empty).2 0
      (by rw [stored_replicate, List.length_replicate]; omega)
    exact this
  · rw [add_word_id, if_pos rfl, run_replicate_length]
    rfl

/-- C34 (amended). Duplicate insertion on a dictionary built by `add_word` calls that
holds fewer than 65536 words: `add_word` of a word that is already stored stores it
again (`words` grows by the word), returns a new id (the old number of words, which is
not in the sorted index yet), inserts that id into the sorted index at a position before
which no entry carries the word (so before all older equal entries), and afterwards
`word_to_id` of the word returns the new id, none of the ids assigned before. -/
theorem add_word_duplicate (calls : List (WString × Bool)) (d : Dictionary) (w : WString)
    (hd : d = (run_calls Dictionary.empty calls).1) (hsize : (stored calls).length < 65536)
    (hw : w ∈ d.words) :
    (d.add_word w true).1.words = d.words ++ [w] ∧
    (d.add_word w true).2 = d.words.length ∧
    (d.add_word w true).2 ∉ d.sorted ∧
    (∃ old, old ∈ d.sorted ∧ d.words.getD old [] = w) ∧
    (∃ k, (d.add_word w true).1.sorted =
        d.sorted.take k ++ (d.add_word w true).2 :: d.sorted.drop k ∧
      (∀ a ∈ d.sorted.take k, d.words.getD a [] ≠ w) ∧
      (∀ a ∈ d.sorted, d.words.getD a [] = w → a ∈ d.sorted.drop k)) ∧
    (d.add_word w true).1.word_to_id w = (d.add_word w true).2 ∧
    (∀ i, i < d.words.length → (d.add_word w true).1.word_to_id w ≠ i) := by
  subst hd
  have hv := run_calls_empty_valid calls (by omega)
  have hlen : (run_calls Dictionary.empty calls).1.words.length < 65536 := by
    rw [run_calls_words]
    simpa [Dictionary.empty] using hsize
  exact add_word_duplicate_valid _ w hv hlen hw

theorem add_word_duplicate_witness :
    ((run_calls Dictionary.empty sampleCalls).1 = (run_calls Dictionary.empty sampleCalls).1 ∧
      (stored sampleCalls).length < 65536 ∧
      wstr "cat" ∈ (run_calls Dictionary.empty sampleCalls).1.words) ∧
    (((run_calls Dictionary.empty sampleCalls).1.add_word (wstr "cat") true).1.words =
        (run_calls Dictionary.empty sampleCalls).1.words ++ [wstr "cat"] ∧
      ((run_calls Dictionary.empty sampleCalls).1.add_word (wstr "cat") true).2 =
        (run_calls Dictionary.empty sampleCalls).1.words.length ∧
      ((run_calls Dictionary.empty sampleCalls).1.add_word (wstr "cat") true).2 ∉
        (run_calls Dictionary.empty sampleCalls).1.sorted ∧
      (∃ old, old ∈ (run_calls Dictionary.empty sampleCalls).1.sorted ∧
        (run_calls Dictionary.empty sampleCalls).1.words.getD old [] = wstr "cat") ∧
      (∃ k, ((run_calls Dictionary.empty sampleCalls).1.add_word (wstr "cat") true).1.sorted =
          (run_calls Dictionary.empty sampleCalls).1.sorted.take k ++
            ((run_calls Dictionary.empty sampleCalls).1.add_word (wstr "cat") true).2 ::
              (run_calls Dictionary.empty sampleCalls).1.sorted.drop k ∧
        (∀ a ∈ (run_calls Dictionary.empty sampleCalls).1.sorted.take k,
          (run_calls Dictionary.empty sampleCalls).1.words.getD a [] ≠ wstr "cat") ∧
        (∀ a ∈ (run_calls Dictionary.empty sampleCalls).1.sorted,
          (run_calls Dictionary.empty sampleCalls).1.words.getD a [] = wstr "cat" →
          a ∈ (run_calls Dictionary.empty sampleCalls).1.sorted.drop k)) ∧
      ((run_calls Dictionary.empty sampleCalls).1.add_word (wstr "cat") true).1.word_to_id
          (wstr "cat") =
        ((run_calls Dictionary.empty sampleCalls).1.add_word (wstr "cat") true).2 ∧
      (∀ i, i < (run_calls Dictionary.empty sampleCalls).1.words.length →
        ((run_calls Dictionary.empty sampleCalls).1.add_word (wstr "cat") true).1.word_to_id
          (wstr "cat") ≠ i)) ∧
    (run_calls Dictionary.empty sampleCalls).1.word_to_id (wstr "cat") = 4 ∧
    ((run_calls Dictionary.empty sampleCalls).1.add_word (wstr "cat") true).2 = 10 ∧
    (run_calls Dictionary.empty sampleCalls).1.sorted = [2, 3, 1, 0, 7, 8, 9, 5, 4, 6] ∧
    ((run_calls Dictionary.empty sampleCalls).1.add_word (wstr "cat") true).1.sorted =
      [2, 3, 1, 0, 7, 8, 9, 5, 10, 4, 6] :=
  ⟨⟨rfl, by decide, by decide⟩,
    add_word_duplicate sampleCalls (run_calls Dictionary.empty sampleCalls).1 (wstr "cat")
      rfl (by decide) (by decide),
    by decide, by decide, by decide, by decide⟩

/-- C15 (as stated, refuted). After 65535 calls `add_word("a")` and one call
`add_word("b")` the word "b" is stored under the dictionary id 65535, which is WIDNONE:
`LanguageModel::word_to_id("b")` returns UNKNOWN_WORD_ID (0), the id of "a". For the
context ("b", "c") the back-end is handed the history `[0]`, not `[65535]`: a back-end
that answers with the history it is handed makes `predict` return the word "a". -/
theorem predict_history_ceiling :
    ceilingModel.dictionary.words.length = 65536 ∧
    wstr "b" ∈ ceilingModel.dictionary.words ∧
    ceilingModel.dictionary.word_to_id (wstr "b") = 65535 ∧
    ceilingModel.dictionary.id_to_word 65535 = some (wstr "b") ∧
    ceilingModel.dictionary.id_to_word 0 = some (wstr "a") ∧
    ceilingModel.word_to_id (wstr "b") = 0 ∧
    ceilingModel.predict_calls [wstr "b", wstr "c"] 0 =
      [BackendCall.get_candidates [0] (wstr "c") 0, BackendCall.get_probs [0] [0]] ∧
    ceilingModel.predict sampleEnv [] [wstr "b", wstr "c"] (-1) 0 =
      [Result.mk (wstr "a") 0] :=
  ⟨ceiling_length, ceiling_ids.1, ceiling_ids.2.1, ceiling_ids.2.2.1, ceiling_ids.2.2.2,
    ceiling_word_to_id, ceiling_calls, ceiling_predict⟩

/-- C15 (amended). For a context of `n >= 1` words (a history followed by the prefix)
and a dictionary built by `add_word` that holds at most 65535 words: `predict` assembles
its results from the answers of the back-end to the prefix `context[n-1]` and the history
`[word_to_id(context[0]), ..., word_to_id(context[n-2])]` (the calls `get_candidates` and
`get_probs` with that history); `LanguageModel::word_to_id(w)` is the dictionary id of
`w` when `w` is stored and UNKNOWN_WORD_ID otherwise, and never WIDNONE; and exchanging a
history word that is not stored for another one that is not stored changes neither the
results nor the calls of the back-end. -/
theorem predict_history_resolution {P : Type} [LT P] [DecidableRel (fun a b : P => a < b)]
    [Inhabited P] (E : Env) (m : LanguageModel P) (results : List (Result P)) (limit : Int)
    (calls : List (WString × Bool)) (hist : List WString) (p : WString) (options : Nat)
    (hdict : m.dictionary = (run_calls Dictionary.empty calls).1)
    (hsize : (stored calls).length ≤ 65535) :
    (∀ wids probs, wids = m.get_candidates (hist.map m.word_to_id) p options →
      probs = m.get_probs (hist.map m.word_to_id) wids →
      m.predict E results (hist ++ [p]) limit options =
        ((if isSet options E.flags.NO_SORT then List.range wids.length
            else stable_argsort_desc (List.range wids.length) probs).take
          (if 0 ≤ limit then min limit.toNat wids.length else wids.length)).map
          (fun j => Result.mk (m.id_to_word (wids.getD j 0)) (probs.getD j default))) ∧
    m.predict_calls (hist ++ [p]) options =
      [BackendCall.get_candidates (hist.map m.word_to_id) p options,
        BackendCall.get_probs (hist.map m.word_to_id)
          (m.get_candidates (hist.map m.word_to_id) p options)] ∧
    (∀ w, (w ∈ m.dictionary.words →
        m.word_to_id w = m.dictionary.word_to_id w ∧
        m.dictionary.id_to_word (m.word_to_id w) = some w) ∧
      (w ∉ m.dictionary.words → m.word_to_id w = UNKNOWN_WORD_ID) ∧
      m.word_to_id w ≠ WIDNONE) ∧
    (∀ h1 h2 w v, w ∉ m.dictionary.words → v ∉ m.dictionary.words →
      m.predict E results (h1 ++ w :: h2 ++ [p]) limit options =
        m.predict E results (h1 ++ v :: h2 ++ [p]) limit options ∧
      m.predict_calls (h1 ++ w :: h2 ++ [p]) options =
        m.predict_calls (h1 ++ v :: h2 ++ [p]) options) := by
  have hv : m.dictionary.Valid := by
    rw [hdict]
    exact run_calls_empty_valid calls (by omega)
  have hlen : m.dictionary.words.length ≤ 65535 := by
    rw [hdict, run_calls_words]
    simpa [Dictionary.empty] using hsize
  refine ⟨?_, predict_calls_append m hist p options, ?_, ?_⟩
  · intro wids probs hwids hprobs
    subst hwids
    subst hprobs
    exact predict_append_eq E m results hist p limit options
  · intro w
    exact ⟨fun hw => lm_word_to_id_stored m hv hlen hw,
      fun hw => lm_word_to_id_unknown m hv hw, lm_word_to_id_ne_widnone m w⟩
  · intro h1 h2 w v hw hv2
    have e1 : h1 ++ w :: h2 ++ [p] = (h1 ++ w :: h2) ++ [p] := by simp
    have e2 : h1 ++ v :: h2 ++ [p] = (h1 ++ v :: h2) ++ [p] := by simp
    have hmap : (h1 ++ w :: h2).map m.word_to_id = (h1 ++ v :: h2).map m.word_to_id := by
      simp only [List.map_append, List.map_cons, lm_word_to_id_unknown m hv hw,
        lm_word_to_id_unknown m hv hv2]
    rw [e1, e2, predict_append_eq, predict_append_eq, predict_calls_append,
      predict_calls_append, hmap]
    exact ⟨rfl, rfl⟩

theorem predict_history_resolution_witness :
    (sampleModel.dictionary = (run_calls Dictionary.empty sampleCalls).1 ∧
      (stored sampleCalls).length ≤ 65535) ∧
    (∀ wids probs,
      wids = sampleModel.get_candidates ([wstr "zzzznotaword"].map sampleModel.word_to_id)
        (wstr "ca") 0 →
      probs = sampleModel.get_probs ([wstr "zzzznotaword"].map sampleModel.word_to_id) wids →
      sampleModel.predict sampleEnv [] ([wstr "zzzznotaword"] ++ [wstr "ca"]) 2 0 =
        ((if isSet 0 sampleEnv.flags.NO_SORT then List.range wids.length
            else stable_argsort_desc (List.range wids.length) probs).take
          (if (0 : Int) ≤ 2 then min (2 : Int).toNat wids.length else wids.length)).map
          (fun j => Result.mk (sampleModel.id_to_word (wids.getD j 0))
            (probs.getD j default))) ∧
    sampleModel.predict_calls ([wstr "zzzznotaword"] ++ [wstr "ca"]) 0 =
      [BackendCall.get_candidates ([wstr "zzzznotaword"].map sampleModel.word_to_id)
          (wstr "ca") 0,
        BackendCall.get_probs ([wstr "zzzznotaword"].map sampleModel.word_to_id)
          (sampleModel.get_candidates ([wstr "zzzznotaword"].map sampleModel.word_to_id)
            (wstr "ca") 0)] ∧
    [wstr "zzzznotaword"].map sampleModel.word_to_id = [0] ∧
    sampleModel.get_candidates [0] (wstr "ca") 0 = [7, 8, 9, 5, 4] ∧
    (sampleModel.predict sampleEnv [] ([wstr "zzzznotaword"] ++ [wstr "ca"]) 2 0).map
      (fun r => (r.word, r.p)) = [(wstr "cab", 4), (wstr "cap", 3)] :=
  ⟨⟨rfl, by decide⟩,
    (predict_history_resolution sampleEnv sampleModel [] 2 sampleCalls [wstr "zzzznotaword"]
      (wstr "ca") 0 rfl (by decide)).1,
    (predict_history_resolution sampleEnv sampleModel [] 2 sampleCalls [wstr "zzzznotaword"]
      (wstr "ca") 0 rfl (by decide)).2.1,
    by decide, by decide, by decide⟩

end Onboard
